import Mathlib

/-!
# Verification of the QOV codec (TypeScript sources)

Shallow embedding of the QOV video codec: the LZ4 block codec (`src/lz4.ts`),
the RGB opcode encoder (`src/qov-encoder.ts`, class `QovEncoder`), the container
decoder (`src/qov-decoder.ts`, class `QovDecoder`) and the streaming decoder
(`src/qov-streaming-decoder.ts`, class `QovStreamingDecoder`).

Conventions of the embedding:
* `Uint8Array` contents are `List Nat`; a store into a typed array coerces the
  value with `% 256` (JavaScript `ToUint8`), a read out of range yields the
  JavaScript `undefined`, which every arithmetic use site in this code turns
  into `0` (`undefined >> k = 0`, `undefined & m = 0`, a typed-array store of
  `undefined` stores `0`); such reads are modelled with `List.getD _ _ 0`.
  The one place where `undefined` is *not* equivalent to `0` — the do/while
  length-extension loops of the LZ4 decoder, where `len += undefined` produces
  `NaN` and the subsequent copy loop then runs zero times — is modelled with an
  `Option Nat` (`none` = `NaN`).
* in-place patching of already written bytes (`GrowableBuffer.setByte`) is
  modelled by writing the final value, or by `List.set` where the patch happens
  after the fact (`finish`).
* state held in object fields is passed explicitly.
-/

namespace Qov

/-- JavaScript `x & 0xff` on a (possibly negative) integer: the nonnegative
residue mod 256. -/
def jsAnd255 (i : Int) : Nat := (i % 256).toNat

/-- A store into a `Uint8Array`/`Uint8ClampedArray` coerces with mod 256
(all stored values in this code are already in range except where noted). -/
def byte (v : Nat) : Nat := v % 256

theorem byte_eq_of_lt {v : Nat} (h : v < 256) : byte v = v := Nat.mod_eq_of_lt h

theorem byte_lt (v : Nat) : byte v < 256 := Nat.mod_lt _ (by omega)

/-! ## LZ4 block codec (`src/lz4.ts`) -/

namespace LZ4

/-- Round a natural number to the nearest IEEE-754 double (53-bit significand,
ties to even).  Needed because JavaScript evaluates `v * 2654435769` in double
precision before the shifts in `hash4`. -/
def floatRound (k : Nat) : Nat :=
  if k < 2 ^ 53 then k
  else
    let s := k.log2 + 1 - 53
    let base := k / 2 ^ s
    let low := k % 2 ^ s
    let half := 2 ^ (s - 1)
    (if low > half ∨ (low = half ∧ base % 2 = 1) then base + 1 else base) * 2 ^ s

/-- `hash4`: multiplicative hash of the 4 bytes at `pos`
(`(v * 2654435769 >>> 16) & 0xffff`, computed in double precision). -/
def hash4 (data : List Nat) (pos : Nat) : Nat :=
  let v := data.getD pos 0 + data.getD (pos + 1) 0 * 256 +
    data.getD (pos + 2) 0 * 65536 + data.getD (pos + 3) 0 * 16777216
  floatRound (v * 2654435769) % 2 ^ 32 / 2 ^ 16 % 2 ^ 16

/-- `match4`: do the 4 bytes at `p1` and `p2` agree? -/
def match4 (data : List Nat) (p1 p2 : Nat) : Bool :=
  data.getD p1 0 = data.getD p2 0 ∧ data.getD (p1 + 1) 0 = data.getD (p2 + 1) 0 ∧
    data.getD (p1 + 2) 0 = data.getD (p2 + 2) 0 ∧ data.getD (p1 + 3) 0 = data.getD (p2 + 3) 0

/-- Forward match extension: the final `matchLen`, starting from `m = 4`
(`while (pos + matchLen < inputSize - LAST_LITERALS && input[ref + matchLen] === input[pos + matchLen]) matchLen++`). -/
def matchLenFrom (input : List Nat) (inputSize ref pos m : Nat) : Nat :=
  if h : pos + m < inputSize - 5 ∧ input.getD (ref + m) 0 = input.getD (pos + m) 0 then
    matchLenFrom input inputSize ref pos (m + 1)
  else m
termination_by inputSize - 5 - (pos + m)
decreasing_by omega

theorem matchLenFrom_ge (input : List Nat) (inputSize ref pos m : Nat) :
    m ≤ matchLenFrom input inputSize ref pos m := by
  have H : ∀ k m, inputSize - 5 - (pos + m) = k → m ≤ matchLenFrom input inputSize ref pos m := by
    intro k
    induction k with
    | zero =>
      intro m hm
      unfold matchLenFrom
      split
      next hc => exact absurd hc.1 (by omega)
      next => omega
    | succ k ih =>
      intro m hm
      unfold matchLenFrom
      split
      next hc =>
        have := ih (m + 1) (by omega)
        omega
      next => omega
  exact H _ m rfl

/-- Length-extension bytes for `remaining = n`
(`while (remaining >= 255) output[outPos++] = 255; output[outPos++] = remaining`). -/
def extBytes (n : Nat) : List Nat :=
  if n ≥ 255 then 255 :: extBytes (n - 255) else [n]
termination_by n
decreasing_by omega

/-- The bytes `input[start .. start+len)` (always in range where used). -/
def slice (l : List Nat) (start len : Nat) : List Nat := (l.drop start).take len

/-- Bytes emitted for one match event: token (literal nibble, match nibble),
optional literal-length extension, the pending literals, the little-endian
back-offset, optional match-length extension.  The token is written first in
the source via the reserved `tokenPos` slot. -/
def segBytes (input : List Nat) (anchor pos offset matchLen : Nat) : List Nat :=
  let litLen := pos - anchor
  let token := (if litLen ≥ 15 then 15 else litLen) * 16 +
    (if matchLen - 4 ≥ 15 then 15 else matchLen - 4)
  token :: ((if litLen ≥ 15 then extBytes (litLen - 15) else []) ++
    slice input anchor litLen ++
    [offset % 256, offset / 256 % 256] ++
    (if matchLen - 4 ≥ 15 then extBytes (matchLen - 4 - 15) else []))

/-- Bytes emitted for the trailing literal run. -/
def finalBytes (input : List Nat) (inputSize anchor : Nat) : List Nat :=
  let lastLiterals := inputSize - anchor
  if lastLiterals > 0 then
    (if lastLiterals ≥ 15 then 15 * 16 :: extBytes (lastLiterals - 15)
     else [lastLiterals * 16]) ++ slice input anchor lastLiterals
  else []

/-- One functional update of the hash table (an `Int32Array` of 2^16 slots,
`-1` = empty). -/
def tupd (t : Nat → Int) (h : Nat) (v : Int) : Nat → Int :=
  fun x => if x = h then v else t x

/-- The main compression loop of `lz4Compress`. -/
def compressLoop (input : List Nat) (inputSize : Nat) (table : Nat → Int)
    (anchor pos : Nat) : List Nat :=
  if hp : pos < inputSize - 5 then
    let h := hash4 input pos
    let ref := table h
    let table1 := tupd table h (pos : Int)
    if 0 ≤ ref ∧ (pos : Int) - ref < 65535 ∧ match4 input pos ref.toNat then
      let matchLen := matchLenFrom input inputSize ref.toNat pos 4
      let pos1 := pos + matchLen
      let table2 := if pos1 < inputSize - 5 then
          tupd table1 (hash4 input (pos1 - 2)) ((pos1 : Int) - 2)
        else table1
      segBytes input anchor pos (pos - ref.toNat) matchLen ++
        compressLoop input inputSize table2 pos1 pos1
    else
      compressLoop input inputSize table1 anchor (pos + 1)
  else finalBytes input inputSize anchor
termination_by inputSize - pos
decreasing_by
  · have h4 := matchLenFrom_ge input inputSize (table (hash4 input pos)).toNat pos 4
    omega
  · omega

/-- `lz4Compress`: `none` is the store-uncompressed signal.  The gating test
`outPos >= inputSize * 0.95` is modelled as the exact rational comparison
`20 * outPos ≥ 19 * inputSize`; the double product differs from the exact one
by a relative error < 2⁻⁵³, which cannot move an integer across the bound. -/
def lz4Compress (input : List Nat) : Option (List Nat) :=
  if input.length = 0 then some []
  else
    let out := compressLoop input input.length (fun _ => -1) 0 0
    if 20 * out.length ≥ 19 * input.length then none else some out

/-- Read of `input[inPos++]`: `none` is `undefined` (position past the end). -/
def readByte : List Nat → Option Nat × List Nat
  | [] => (none, [])
  | b :: rest => (some b, rest)

/-- The do/while length-extension loop (`do { b = input[inPos++]; len += b } while (b === 255)`).
A read past the end of input makes the accumulated length `NaN` (`none`). -/
def readExt (acc : Nat) : List Nat → Option Nat × List Nat
  | [] => (none, [])
  | b :: rest => if b = 255 then readExt (acc + 255) rest else (some (acc + b), rest)

/-- Store `output[i] = v` (out-of-range stores are dropped, values coerced mod 256). -/
def outSet (out : List Nat) (i : Nat) (v : Nat) : List Nat := out.set i (byte v)

/-- Read `output[i]` with an `Int` index (negative or past-the-end reads give
`undefined`, which the subsequent store coerces to 0). -/
def outGet (out : List Nat) (i : Int) : Nat :=
  if 0 ≤ i then out.getD i.toNat 0 else 0

/-- Literal copy: `for (i < n) output[outPos++] = input[inPos++]`. -/
def copyLits (n : Nat) (inp out : List Nat) (outPos : Nat) : List Nat × List Nat × Nat :=
  match n with
  | 0 => (inp, out, outPos)
  | n + 1 => copyLits n inp.tail (outSet out outPos (inp.headD 0)) (outPos + 1)

/-- Match copy: `for (i < n) output[outPos++] = output[matchPos + i]` (byte by
byte, so overlapping copies replicate). -/
def copyMatch (n : Nat) (out : List Nat) (outPos : Nat) (matchPos : Int) : List Nat × Nat :=
  match n with
  | 0 => (out, outPos)
  | n + 1 => copyMatch n (outSet out outPos (outGet out matchPos)) (outPos + 1) (matchPos + 1)

theorem readExt_suffix_le (acc : Nat) (l : List Nat) : (readExt acc l).2.length ≤ l.length := by
  induction l generalizing acc with
  | nil => simp [readExt]
  | cons b rest ih =>
    simp only [readExt]
    split
    · exact le_trans (ih _) (by simp)
    · simp

theorem copyLits_suffix_le (n : Nat) (inp out : List Nat) (outPos : Nat) :
    (copyLits n inp out outPos).1.length ≤ inp.length := by
  induction n generalizing inp out outPos with
  | zero => simp [copyLits]
  | succ n ih =>
    exact le_trans (ih _ _ _) (by cases inp <;> simp)

/-- Literal phase of one `lz4Decompress` iteration: decode the literal length
from the token's high nibble (with extension bytes) and copy that many literal
bytes.  Returns `(input-suffix, output, outPos)`. -/
def litPhase (token : Nat) (rest0 out : List Nat) (outPos : Nat) : List Nat × List Nat × Nat :=
  match (if token / 16 = 15 then readExt 15 rest0 else (some (token / 16), rest0)) with
  | (none, rest1) => (rest1, out, outPos)
  | (some n, rest1) => copyLits n rest1 out outPos

/-- Match phase of one `lz4Decompress` iteration: read the 16-bit little-endian
offset, decode the match length from the token's low nibble (with extension
bytes) and copy the match.  `o1 :: rest2` is the input suffix after the
literals. -/
def matchPhase (token o1 : Nat) (rest2 out : List Nat) (outPos : Nat) : List Nat × List Nat × Nat :=
  match (if token % 16 = 15 then readExt (15 + 4) rest2.tail
      else (some (token % 16 + 4), rest2.tail)) with
  | (none, rest4) => (rest4, out, outPos)
  | (some m, rest4) =>
    let fin := copyMatch m out outPos ((outPos : Int) - ((o1 + rest2.headD 0 * 256 : Nat) : Int))
    (rest4, fin.1, fin.2)

/-- One iteration of the `lz4Decompress` while-loop, given the token byte and
the rest of the input.  Returns the new `(input-suffix, output, outPos)` and
whether the loop `break`s (input exhausted right after the literal copy). -/
def decompIter (token : Nat) (rest0 out : List Nat) (outPos : Nat) :
    (List Nat × List Nat × Nat) × Bool :=
  match litPhase token rest0 out outPos with
  | ([], out1, p1) => (([], out1, p1), true)
  | (o1 :: rest2, out1, p1) => (matchPhase token o1 rest2 out1 p1, false)

theorem litPhase_suffix_le (token : Nat) (rest0 out : List Nat) (outPos : Nat) :
    (litPhase token rest0 out outPos).1.length ≤ rest0.length := by
  have h1 : (if token / 16 = 15 then readExt 15 rest0 else
      (some (token / 16), rest0)).2.length ≤ rest0.length := by
    split
    · exact readExt_suffix_le _ _
    · simp
  unfold litPhase
  rcases hif : (if token / 16 = 15 then readExt 15 rest0 else
      (some (token / 16), rest0)) with ⟨o, rest1⟩
  rw [hif] at h1
  cases o with
  | none => simpa using h1
  | some n => exact le_trans (copyLits_suffix_le _ _ _ _) (by simpa using h1)

theorem matchPhase_suffix_le (token o1 : Nat) (rest2 out : List Nat) (outPos : Nat) :
    (matchPhase token o1 rest2 out outPos).1.length ≤ rest2.length := by
  have h1 : (if token % 16 = 15 then readExt (15 + 4) rest2.tail else
      (some (token % 16 + 4), rest2.tail)).2.length ≤ rest2.tail.length := by
    split
    · exact readExt_suffix_le _ _
    · simp
  have h2 : rest2.tail.length ≤ rest2.length := by
    simp only [List.length_tail]; omega
  unfold matchPhase
  rcases hif : (if token % 16 = 15 then readExt (15 + 4) rest2.tail else
      (some (token % 16 + 4), rest2.tail)) with ⟨o, rest4⟩
  rw [hif] at h1
  cases o with
  | none => exact le_trans h1 h2
  | some m => simpa using le_trans h1 h2

theorem decompIter_suffix_le (token : Nat) (rest0 out : List Nat) (outPos : Nat) :
    (decompIter token rest0 out outPos).1.1.length ≤ rest0.length := by
  have h0 := litPhase_suffix_le token rest0 out outPos
  unfold decompIter
  rcases hc : litPhase token rest0 out outPos with ⟨l1, out1, p1⟩
  rw [hc] at h0
  cases l1 with
  | nil => simpa using h0
  | cons o1 rest2 =>
    simp only [List.length_cons] at h0
    exact le_trans (matchPhase_suffix_le _ _ _ _ _) (by omega)

/-- The main loop of `lz4Decompress`, consuming the compressed input from the
front. -/
def decompressLoop (inp : List Nat) (out : List Nat) (outPos : Nat) : List Nat :=
  match inp with
  | [] => out
  | token :: rest0 =>
    let r := decompIter token rest0 out outPos
    if r.2 then r.1.2.1
    else decompressLoop r.1.1 r.1.2.1 r.1.2.2
termination_by inp.length
decreasing_by
  exact Nat.lt_succ_of_le (decompIter_suffix_le _ _ _ _)

/-- `lz4Decompress` (`outputSize` is the caller-supplied expected size; empty
input short-circuits to an empty result). -/
def lz4Decompress (input : List Nat) (outputSize : Nat) : List Nat :=
  if input.length = 0 then []
  else decompressLoop input (List.replicate outputSize 0) 0

/-! ### Round-trip proof for the LZ4 codec -/

/-- The decompressor's output buffer after `k` of the `n` bytes have been
reconstructed: the first `k` bytes of the original input followed by the
untouched zero fill. -/
def obuf (inp : List Nat) (k n : Nat) : List Nat :=
  inp.take k ++ List.replicate (n - k) 0

theorem obuf_length (inp : List Nat) (k n : Nat) (hk : k ≤ n) (hn : n = inp.length) :
    (obuf inp k n).length = n := by
  simp [obuf]
  omega

theorem obuf_zero (inp : List Nat) (n : Nat) : obuf inp 0 n = List.replicate n 0 := by
  simp [obuf]

theorem obuf_full (inp : List Nat) : obuf inp inp.length inp.length = inp := by
  simp [obuf]

theorem obuf_getD_lt (inp : List Nat) (k n i : Nat) (hi : i < k) (hk : k ≤ inp.length) :
    (obuf inp k n).getD i 0 = inp.getD i 0 := by
  rw [obuf, List.getD_append _ _ _ _ (by simp; omega)]
  simp only [List.getD_eq_getElem?_getD, List.getElem?_take]
  rw [if_pos hi]

theorem set_append_left_length {α : Type} (l₁ l₂ : List α) (v : α) :
    (l₁ ++ l₂).set l₁.length v = l₁ ++ l₂.set 0 v := by
  rw [List.set_append]
  simp

/-- Writing the correct next byte advances the reconstructed prefix. -/
theorem obuf_set_next (inp : List Nat) (k n : Nat) (hk : k < inp.length) (hkn : k < n)
    (hv : inp.getD k 0 < 256) :
    outSet (obuf inp k n) k (inp.getD k 0) = obuf inp (k + 1) n := by
  have hlen : (inp.take k).length = k := by simp; omega
  have hrep : (n - k) = (n - (k + 1)) + 1 := by omega
  have hget : inp[k]?.toList = [inp.getD k 0] := by
    rw [List.getD_eq_getElem?_getD, List.getElem?_eq_getElem hk]
    simp
  rw [outSet, byte_eq_of_lt hv, obuf, List.set_append, if_neg (by rw [hlen]; omega), hlen,
    Nat.sub_self, hrep, List.replicate_succ, List.set_cons_zero]
  rw [obuf, List.take_succ, hget]
  simp

theorem getD_lt_256 {inp : List Nat} (hb : ∀ b ∈ inp, b < 256) {i : Nat} (hi : i < inp.length) :
    inp.getD i 0 < 256 := by
  rw [List.getD_eq_getElem?_getD, List.getElem?_eq_getElem hi]
  exact hb _ (List.getElem_mem hi)

theorem slice_cons (inp : List Nat) (a L : Nat) (ha : a < inp.length) :
    slice inp a (L + 1) = inp.getD a 0 :: slice inp (a + 1) L := by
  rw [slice, slice, List.drop_eq_getElem_cons ha, List.take_succ_cons,
    List.getD_eq_getElem?_getD, List.getElem?_eq_getElem ha]
  simp

/-- The literal copy reconstructs the next `L` input bytes. -/
theorem copyLits_spec (inp : List Nat) (n : Nat) (hn : n = inp.length)
    (hb : ∀ b ∈ inp, b < 256) :
    ∀ (L a : Nat) (rest : List Nat), a + L ≤ n →
      copyLits L (slice inp a L ++ rest) (obuf inp a n) a = (rest, obuf inp (a + L) n, a + L) := by
  intro L
  induction L with
  | zero =>
    intro a rest hle
    simp [copyLits, slice]
  | succ L ih =>
    intro a rest hle
    have ha : a < inp.length := by omega
    rw [slice_cons inp a L ha, copyLits]
    simp only [List.cons_append, List.tail_cons, List.headD_cons]
    rw [obuf_set_next inp a n ha (by omega) (getD_lt_256 hb ha)]
    have := ih (a + 1) rest (by omega)
    rw [this]
    have : a + 1 + L = a + (L + 1) := by omega
    rw [this]

/-- The byte-by-byte match copy reconstructs the next `k` input bytes, using
the match property delivered by the compressor. -/
theorem copyMatch_spec (inp : List Nat) (n : Nat) (hn : n = inp.length)
    (hb : ∀ b ∈ inp, b < 256) :
    ∀ (k p off : Nat), 1 ≤ off → off ≤ p → p + k ≤ n →
      (∀ i, i < k → inp.getD (p - off + i) 0 = inp.getD (p + i) 0) →
      copyMatch k (obuf inp p n) p ((p : Int) - (off : Int)) = (obuf inp (p + k) n, p + k) := by
  intro k
  induction k with
  | zero =>
    intro p off h1 h2 h3 h4
    simp [copyMatch]
  | succ k ih =>
    intro p off h1 h2 h3 hmatch
    rw [copyMatch]
    have hpo : (0 : Int) ≤ (p : Int) - (off : Int) := by omega
    have hto : ((p : Int) - (off : Int)).toNat = p - off := by omega
    have hpn : p < inp.length := by omega
    have hget : outGet (obuf inp p n) ((p : Int) - (off : Int)) = inp.getD p 0 := by
      rw [outGet, if_pos hpo, hto,
        obuf_getD_lt inp p n (p - off) (by omega) (by omega)]
      have := hmatch 0 (by omega)
      simpa using this
    rw [hget, obuf_set_next inp p n hpn (by omega) (getD_lt_256 hb hpn)]
    have hcast : (p : Int) - (off : Int) + 1 = ((p + 1 : Nat) : Int) - (off : Int) := by
      push_cast; ring
    rw [hcast]
    have hm' : ∀ i, i < k → inp.getD (p + 1 - off + i) 0 = inp.getD (p + 1 + i) 0 := by
      intro i hi
      have := hmatch (i + 1) (by omega)
      have he : p - off + (i + 1) = p + 1 - off + i := by omega
      have he2 : p + (i + 1) = p + 1 + i := by omega
      rw [he, he2] at this
      exact this
    rw [ih (p + 1) off h1 (by omega) (by omega) hm']
    have : p + 1 + k = p + (k + 1) := by omega
    rw [this]

/-- The length-extension bytes emitted by the compressor parse back to the
encoded length. -/
theorem readExt_extBytes (n : Nat) : ∀ (acc : Nat) (rest : List Nat),
    readExt acc (extBytes n ++ rest) = (some (acc + n), rest) := by
  induction n using Nat.strong_induction_on with
  | _ n ih =>
    intro acc rest
    rw [extBytes]
    split
    next h =>
      rw [List.cons_append]
      have h1 : readExt acc (255 :: (extBytes (n - 255) ++ rest)) =
          readExt (acc + 255) (extBytes (n - 255) ++ rest) := by
        simp [readExt]
      rw [h1, ih (n - 255) (by omega)]
      have h2 : acc + 255 + (n - 255) = acc + n := by omega
      rw [h2]
    next h =>
      rw [List.singleton_append]
      simp [readExt, show n ≠ 255 by omega]

theorem nibble_div (a b : Nat) (hb : b < 16) : (a * 16 + b) / 16 = a := by
  rw [Nat.add_comm, Nat.mul_comm, Nat.add_mul_div_left b a (by norm_num),
    Nat.div_eq_of_lt hb, Nat.zero_add]

theorem nibble_mod (a b : Nat) (hb : b < 16) : (a * 16 + b) % 16 = b := by
  rw [Nat.mul_comm, Nat.mul_add_mod, Nat.mod_eq_of_lt hb]

/-- One-step unfolding of the decompressor loop on a nonempty input. -/
theorem decompressLoop_cons (token : Nat) (rest0 out : List Nat) (outPos : Nat) :
    decompressLoop (token :: rest0) out outPos =
      if (decompIter token rest0 out outPos).2
      then (decompIter token rest0 out outPos).1.2.1
      else decompressLoop (decompIter token rest0 out outPos).1.1
        (decompIter token rest0 out outPos).1.2.1 (decompIter token rest0 out outPos).1.2.2 := by
  rw [decompressLoop]

/-- The literal phase of the decompressor consumes exactly the token's high
nibble, the literal-length extension and the literals the compressor emitted. -/
theorem litPhase_enc (L mt : Nat) (hmt : mt < 16) (lits tail out : List Nat) (pos : Nat) :
    litPhase ((if L ≥ 15 then 15 else L) * 16 + mt)
      ((if L ≥ 15 then extBytes (L - 15) else []) ++ (lits ++ tail)) out pos =
      copyLits L (lits ++ tail) out pos := by
  by_cases hL : L ≥ 15
  · rw [if_pos hL, if_pos hL]
    rw [litPhase, nibble_div 15 mt hmt, if_pos rfl, readExt_extBytes]
    have : 15 + (L - 15) = L := by omega
    rw [this]
  · rw [if_neg hL, if_neg hL]
    rw [litPhase, nibble_div L mt hmt, if_neg (by omega)]
    rw [List.nil_append]

/-- The match phase of the decompressor reads back the offset and match length
the compressor emitted and performs the match copy. -/
theorem matchPhase_enc (hi mlen off : Nat) (h4 : 4 ≤ mlen) (hoff : off < 65536)
    (rest out : List Nat) (pos : Nat) :
    matchPhase (hi * 16 + (if mlen - 4 ≥ 15 then 15 else mlen - 4)) (off % 256)
      ((off / 256 % 256) :: ((if mlen - 4 ≥ 15 then extBytes (mlen - 4 - 15) else []) ++ rest))
      out pos =
      (rest, (copyMatch mlen out pos ((pos : Int) - (off : Int))).1,
        (copyMatch mlen out pos ((pos : Int) - (off : Int))).2) := by
  have hmt : (if mlen - 4 ≥ 15 then 15 else mlen - 4) < 16 := by split <;> omega
  have hofs : off % 256 + off / 256 % 256 * 256 = off := by omega
  by_cases hm : mlen - 4 ≥ 15
  · rw [if_pos hm, if_pos hm]
    rw [matchPhase, nibble_mod hi 15 (by omega), if_pos rfl]
    simp only [List.tail_cons, List.headD_cons]
    rw [readExt_extBytes]
    have h1 : 15 + 4 + (mlen - 4 - 15) = mlen := by omega
    rw [h1, hofs]
  · rw [if_neg hm, if_neg hm]
    rw [matchPhase, nibble_mod hi (mlen - 4) (by omega), if_neg (by omega)]
    simp only [List.tail_cons, List.headD_cons, List.nil_append]
    have h1 : mlen - 4 + 4 = mlen := by omega
    rw [h1, hofs]

/-- Decompressing one match segment extends the reconstruction from the
segment's anchor to the end of its match. -/
theorem decompress_seg (inp : List Nat) (n : Nat) (hn : n = inp.length)
    (hb : ∀ b ∈ inp, b < 256) (a p off mlen : Nat) (rest : List Nat)
    (hap : a ≤ p) (hoff1 : 1 ≤ off) (hoffp : off ≤ p) (hoff2 : off < 65536)
    (hm4 : 4 ≤ mlen) (hpm : p + mlen ≤ n)
    (hmatch : ∀ i, i < mlen → inp.getD (p - off + i) 0 = inp.getD (p + i) 0) :
    decompressLoop (segBytes inp a p off mlen ++ rest) (obuf inp a n) a =
      decompressLoop rest (obuf inp (p + mlen) n) (p + mlen) := by
  have hmt : (if mlen - 4 ≥ 15 then 15 else mlen - 4) < 16 := by split <;> omega
  rw [segBytes]
  simp only [List.cons_append, List.append_assoc, List.nil_append]
  rw [decompressLoop_cons]
  have hiter : decompIter ((if p - a ≥ 15 then 15 else p - a) * 16 +
        (if mlen - 4 ≥ 15 then 15 else mlen - 4))
      ((if p - a ≥ 15 then extBytes (p - a - 15) else []) ++
        (slice inp a (p - a) ++ (off % 256 :: (off / 256 % 256 ::
          ((if mlen - 4 ≥ 15 then extBytes (mlen - 4 - 15) else []) ++ rest)))))
      (obuf inp a n) a =
      ((rest, obuf inp (p + mlen) n, p + mlen), false) := by
    rw [decompIter, litPhase_enc (p - a) _ hmt]
    have hcl := copyLits_spec inp n hn hb (p - a) a
      (off % 256 :: (off / 256 % 256 ::
        ((if mlen - 4 ≥ 15 then extBytes (mlen - 4 - 15) else []) ++ rest))) (by omega)
    have hpa : a + (p - a) = p := by omega
    rw [hpa] at hcl
    rw [hcl]
    simp only []
    rw [matchPhase_enc _ mlen off hm4 hoff2]
    rw [copyMatch_spec inp n hn hb mlen p off hoff1 hoffp hpm hmatch]
  rw [hiter]
  simp only [Bool.false_eq_true, if_false]

theorem decompIter_brk (token : Nat) (rest0 out : List Nat) (outPos : Nat)
    (out1 : List Nat) (p1 : Nat) (h : litPhase token rest0 out outPos = ([], out1, p1)) :
    decompIter token rest0 out outPos = (([], out1, p1), true) := by
  rw [decompIter, h]

theorem decompIter_go (token : Nat) (rest0 out : List Nat) (outPos o1 : Nat)
    (rest2 out1 : List Nat) (p1 : Nat)
    (h : litPhase token rest0 out outPos = (o1 :: rest2, out1, p1)) :
    decompIter token rest0 out outPos = (matchPhase token o1 rest2 out1 p1, false) := by
  rw [decompIter, h]

/-- Decompressing the trailing literal run completes the reconstruction and
hits the decompressor's end-of-input break. -/
theorem decompress_final (inp : List Nat) (n : Nat) (hn : n = inp.length)
    (hb : ∀ b ∈ inp, b < 256) (a : Nat) (ha : a < n) :
    decompressLoop (finalBytes inp n a) (obuf inp a n) a = inp := by
  have hL : 0 < n - a := by omega
  have hcl := copyLits_spec inp n hn hb (n - a) a [] (by omega)
  rw [List.append_nil] at hcl
  have han : a + (n - a) = n := by omega
  rw [han] at hcl
  have hfull : obuf inp n n = inp := by rw [hn]; exact obuf_full inp
  rw [hfull] at hcl
  rw [finalBytes]
  simp only [if_pos hL]
  by_cases h15 : n - a ≥ 15
  · rw [if_pos h15]
    rw [List.cons_append, decompressLoop_cons]
    have h1 : 15 + (n - a - 15) = n - a := by omega
    have hlp : litPhase (15 * 16) (extBytes (n - a - 15) ++ slice inp a (n - a))
        (obuf inp a n) a = ([], inp, n) := by
      have hdiv : 15 * 16 / 16 = 15 := by norm_num
      rw [litPhase, hdiv, if_pos rfl, readExt_extBytes, h1]
      exact hcl
    rw [decompIter_brk _ _ _ _ _ _ hlp]
    rfl
  · rw [if_neg h15]
    rw [List.singleton_append, decompressLoop_cons]
    have hlp : litPhase ((n - a) * 16) (slice inp a (n - a))
        (obuf inp a n) a = ([], inp, n) := by
      have hdiv : (n - a) * 16 / 16 = n - a := by
        have := nibble_div (n - a) 0 (by omega)
        simpa using this
      rw [litPhase, hdiv, if_neg (by omega)]
      exact hcl
    rw [decompIter_brk _ _ _ _ _ _ hlp]
    rfl

/-- Invariant of the compressor's hash table: every non-empty slot holds a
position strictly before the cursor with at least 6 bytes of input after it. -/
def TableOK (t : Nat → Int) (pos n : Nat) : Prop :=
  ∀ h, t h = -1 ∨ (0 ≤ t h ∧ t h < (pos : Int) ∧ (t h).toNat + 6 ≤ n)

theorem matchLenFrom_ub (inp : List Nat) (n ref pos : Nat) (m : Nat) :
    matchLenFrom inp n ref pos m = m ∨ pos + matchLenFrom inp n ref pos m ≤ n - 5 := by
  have H : ∀ k m, n - 5 - (pos + m) = k →
      matchLenFrom inp n ref pos m = m ∨ pos + matchLenFrom inp n ref pos m ≤ n - 5 := by
    intro k
    induction k with
    | zero =>
      intro m hm
      unfold matchLenFrom
      split
      next hc => exact absurd hc.1 (by omega)
      next => left; rfl
    | succ k ih =>
      intro m hm
      unfold matchLenFrom
      split
      next hc =>
        rcases ih (m + 1) (by omega) with h | h
        · right; rw [h]; omega
        · right; exact h
      next => left; rfl
  exact H _ m rfl

theorem matchLenFrom_prop (inp : List Nat) (n ref pos : Nat) (m i : Nat) (hmi : m ≤ i)
    (hi : i < matchLenFrom inp n ref pos m) :
    inp.getD (ref + i) 0 = inp.getD (pos + i) 0 := by
  have H : ∀ k m, n - 5 - (pos + m) = k → ∀ i, m ≤ i → i < matchLenFrom inp n ref pos m →
      inp.getD (ref + i) 0 = inp.getD (pos + i) 0 := by
    intro k
    induction k with
    | zero =>
      intro m hm i hle hlt
      rw [matchLenFrom] at hlt
      split at hlt
      next hc => exact absurd hc.1 (by omega)
      next => omega
    | succ k ih =>
      intro m hm i hle hlt
      rw [matchLenFrom] at hlt
      split at hlt
      next hc =>
        by_cases him : i = m
        · subst him; exact hc.2
        · exact ih (m + 1) (by omega) i (by omega) hlt
      next => omega
  exact H _ m rfl i hmi hi

theorem match4_prop (inp : List Nat) (p1 p2 : Nat) (h : match4 inp p1 p2 = true) :
    ∀ i, i < 4 → inp.getD (p1 + i) 0 = inp.getD (p2 + i) 0 := by
  rw [match4, decide_eq_true_eq] at h
  intro i hi
  interval_cases i
  · simpa using h.1
  · exact h.2.1
  · exact h.2.2.1
  · exact h.2.2.2

theorem TableOK_mono {t : Nat → Int} {pos pos' n : Nat} (hT : TableOK t pos n)
    (h : pos ≤ pos') : TableOK t pos' n := by
  intro x
  rcases hT x with h1 | ⟨h1, h2, h3⟩
  · exact Or.inl h1
  · exact Or.inr ⟨h1, by omega, h3⟩

theorem TableOK_tupd {t : Nat → Int} {pos' n : Nat} (hT : TableOK t pos' n)
    (hsh v : Nat) (hv : v < pos') (hv2 : v + 6 ≤ n) :
    TableOK (tupd t hsh (v : Int)) pos' n := by
  intro x
  rw [tupd]
  split
  · exact Or.inr ⟨by omega, by omega, by omega⟩
  · exact hT x

/-- Decompression inverts the main compression loop, for every reachable
compressor state. -/
theorem decompress_compressLoop (inp : List Nat) (n : Nat) (hn : n = inp.length)
    (hb : ∀ b ∈ inp, b < 256) :
    ∀ (t : Nat → Int) (anchor pos : Nat), TableOK t pos n → anchor ≤ pos → anchor < n →
      decompressLoop (compressLoop inp n t anchor pos) (obuf inp anchor n) anchor = inp := by
  have H : ∀ (k : Nat) (t : Nat → Int) (anchor pos : Nat), n - pos = k →
      TableOK t pos n → anchor ≤ pos → anchor < n →
      decompressLoop (compressLoop inp n t anchor pos) (obuf inp anchor n) anchor = inp := by
    intro k
    induction k using Nat.strong_induction_on with
    | _ k ihk =>
      intro t anchor pos hk hT hap han
      by_cases hp : pos < n - 5
      · rw [compressLoop, dif_pos hp]
        simp only []
        by_cases hcond : 0 ≤ t (hash4 inp pos) ∧ (pos : Int) - t (hash4 inp pos) < 65535 ∧
            match4 inp pos (t (hash4 inp pos)).toNat = true
        · rw [if_pos hcond]
          obtain ⟨h0, hw, hm⟩ := hcond
          rcases hT (hash4 inp pos) with he | ⟨h0', hlt, hle⟩
          · rw [he] at h0; exact absurd h0 (by norm_num)
          have hrlt : (t (hash4 inp pos)).toNat < pos := by omega
          have hge := matchLenFrom_ge inp n (t (hash4 inp pos)).toNat pos 4
          have hub := matchLenFrom_ub inp n (t (hash4 inp pos)).toNat pos 4
          have hpm : pos + matchLenFrom inp n (t (hash4 inp pos)).toNat pos 4 ≤ n - 2 := by
            rcases hub with h | h <;> omega
          have hmatch : ∀ i, i < matchLenFrom inp n (t (hash4 inp pos)).toNat pos 4 →
              inp.getD (pos - (pos - (t (hash4 inp pos)).toNat) + i) 0 = inp.getD (pos + i) 0 := by
            intro i hi
            have hpo : pos - (pos - (t (hash4 inp pos)).toNat) = (t (hash4 inp pos)).toNat := by
              omega
            rw [hpo]
            by_cases hi4 : i < 4
            · exact (match4_prop inp pos _ hm i hi4).symm
            · exact matchLenFrom_prop inp n _ pos 4 i (by omega) hi
          rw [decompress_seg inp n hn hb anchor pos (pos - (t (hash4 inp pos)).toNat)
            (matchLenFrom inp n (t (hash4 inp pos)).toNat pos 4) _ hap (by omega) (by omega)
            (by omega) hge (by omega) hmatch]
          have hT1 : TableOK (tupd t (hash4 inp pos) (pos : Int))
              (pos + matchLenFrom inp n (t (hash4 inp pos)).toNat pos 4) n :=
            TableOK_tupd (TableOK_mono hT (by omega)) _ pos (by omega) (by omega)
          by_cases hp1 : pos + matchLenFrom inp n (t (hash4 inp pos)).toNat pos 4 < n - 5
          · rw [if_pos hp1]
            have hc2 : ((pos + matchLenFrom inp n (t (hash4 inp pos)).toNat pos 4 : Nat) : Int)
                - 2 = ((pos + matchLenFrom inp n (t (hash4 inp pos)).toNat pos 4 - 2 : Nat) :
                Int) := by omega
            rw [hc2]
            exact ihk (n - (pos + matchLenFrom inp n (t (hash4 inp pos)).toNat pos 4))
              (by omega) _ _ _ rfl (TableOK_tupd hT1 _ _ (by omega) (by omega))
              (by omega) (by omega)
          · rw [if_neg hp1]
            exact ihk (n - (pos + matchLenFrom inp n (t (hash4 inp pos)).toNat pos 4))
              (by omega) _ _ _ rfl hT1 (by omega) (by omega)
        · rw [if_neg hcond]
          exact ihk (n - (pos + 1)) (by omega) _ _ _ rfl
            (TableOK_tupd (TableOK_mono hT (by omega)) _ pos (by omega) (by omega))
            (by omega) han
      · rw [compressLoop, dif_neg hp]
        exact decompress_final inp n hn hb anchor han
  exact fun t anchor pos => H (n - pos) t anchor pos rfl

/-- The compressor never produces an empty byte string for nonempty input. -/
theorem compressLoop_ne_nil (inp : List Nat) (n : Nat) :
    ∀ (t : Nat → Int) (anchor pos : Nat), anchor < n →
      compressLoop inp n t anchor pos ≠ [] := by
  have H : ∀ (k : Nat) (t : Nat → Int) (anchor pos : Nat), n - pos = k → anchor < n →
      compressLoop inp n t anchor pos ≠ [] := by
    intro k
    induction k using Nat.strong_induction_on with
    | _ k ihk =>
      intro t anchor pos hk han
      by_cases hp : pos < n - 5
      · rw [compressLoop, dif_pos hp]
        simp only []
        by_cases hcond : 0 ≤ t (hash4 inp pos) ∧ (pos : Int) - t (hash4 inp pos) < 65535 ∧
            match4 inp pos (t (hash4 inp pos)).toNat = true
        · rw [if_pos hcond, segBytes]
          simp
        · rw [if_neg hcond]
          exact ihk (n - (pos + 1)) (by omega) _ _ _ rfl han
      · rw [compressLoop, dif_neg hp, finalBytes]
        simp only [if_pos (show 0 < n - anchor by omega)]
        split <;> simp
  exact fun t anchor pos => H (n - pos) t anchor pos rfl

theorem copyLits_out_length (k : Nat) : ∀ (inp out : List Nat) (p : Nat),
    (copyLits k inp out p).2.1.length = out.length := by
  induction k with
  | zero => intro inp out p; rfl
  | succ k ih =>
    intro inp out p
    rw [copyLits, ih]
    simp [outSet]

theorem copyMatch_out_length (k : Nat) : ∀ (out : List Nat) (p : Nat) (mp : Int),
    (copyMatch k out p mp).1.length = out.length := by
  induction k with
  | zero => intro out p mp; rfl
  | succ k ih =>
    intro out p mp
    rw [copyMatch, ih]
    simp [outSet]

theorem litPhase_out_length (token : Nat) (rest0 out : List Nat) (p : Nat) :
    (litPhase token rest0 out p).2.1.length = out.length := by
  rw [litPhase]
  rcases hif : (if token / 16 = 15 then readExt 15 rest0 else
      (some (token / 16), rest0)) with ⟨o, rest1⟩
  cases o with
  | none => rfl
  | some nn => exact copyLits_out_length nn rest1 out p

theorem matchPhase_out_length (token o1 : Nat) (rest2 out : List Nat) (p : Nat) :
    (matchPhase token o1 rest2 out p).2.1.length = out.length := by
  rw [matchPhase]
  rcases hif : (if token % 16 = 15 then readExt (15 + 4) rest2.tail else
      (some (token % 16 + 4), rest2.tail)) with ⟨o, rest4⟩
  cases o with
  | none => rfl
  | some m => exact copyMatch_out_length m out p _

theorem decompressLoop_length (inp : List Nat) : ∀ (out : List Nat) (p : Nat),
    (decompressLoop inp out p).length = out.length := by
  have H : ∀ (k : Nat) (inp out : List Nat) (p : Nat), inp.length = k →
      (decompressLoop inp out p).length = out.length := by
    intro k
    induction k using Nat.strong_induction_on with
    | _ k ihk =>
      intro inp out p hk
      match inp with
      | [] => rw [decompressLoop]
      | token :: rest0 =>
        rw [decompressLoop_cons]
        have hlen : ((decompIter token rest0 out p).1.2.1).length = out.length := by
          rw [decompIter]
          rcases hlp : litPhase token rest0 out p with ⟨lc, outc, pc⟩
          have hout : outc.length = out.length := by
            have h0 := litPhase_out_length token rest0 out p
            rw [hlp] at h0
            exact h0
          cases lc with
          | nil => exact hout
          | cons o1 rest2 =>
            simp only []
            exact (matchPhase_out_length token o1 rest2 outc pc).trans hout
        have hsuf := decompIter_suffix_le token rest0 out p
        split
        next => exact hlen
        next =>
          rw [ihk (decompIter token rest0 out p).1.1.length
            (by simp only [List.length_cons] at hk; omega) _ _ _ rfl]
          exact hlen
  exact fun out p => H inp.length inp out p rfl

/-- `lz4Decompress` never fails: on every input (however malformed) it returns
a buffer, of the requested size for nonempty input. -/
theorem lz4Decompress_length (input : List Nat) (outputSize : Nat) (hne : input ≠ []) :
    (lz4Decompress input outputSize).length = outputSize := by
  rw [lz4Decompress, if_neg (by simpa using hne), decompressLoop_length]
  simp

/-- Round trip of the LZ4 block codec: decompressing the compressor's output
(or keeping the input verbatim when the compressor signals `none`)
reconstructs the input exactly. -/
theorem lz4_roundtrip (s : List Nat) (hb : ∀ b ∈ s, b < 256) :
    (match lz4Compress s with
      | some c => lz4Decompress c s.length
      | none => s) = s := by
  rw [lz4Compress]
  by_cases hz : s.length = 0
  · rw [if_pos hz]
    have hs : s = [] := List.eq_nil_of_length_eq_zero hz
    subst hs
    rfl
  · rw [if_neg hz]
    simp only []
    by_cases hg : 20 * (compressLoop s s.length (fun _ => -1) 0 0).length ≥ 19 * s.length
    · rw [if_pos hg]
    · rw [if_neg hg]
      show lz4Decompress (compressLoop s s.length (fun _ => -1) 0 0) s.length = s
      have hnn := compressLoop_ne_nil s s.length (fun _ => -1) 0 0 (by omega)
      rw [lz4Decompress, if_neg (by simpa using hnn)]
      have := decompress_compressLoop s s.length rfl hb (fun _ => -1) 0 0
        (fun _ => Or.inl rfl) (le_refl 0) (by omega)
      rwa [obuf_zero] at this

end LZ4

/-! ## Pixels and the 64-slot color cache (`qov-types.ts`, `QovRGBA`) -/

/-- An RGBA pixel (`QovRGBA`). -/
structure Pixel where
  r : Nat
  g : Nat
  b : Nat
  a : Nat
deriving DecidableEq, Repr

/-- All channels of a pixel are bytes (true of every pixel read out of a
`Uint8ClampedArray`). -/
def Pixel.wf (c : Pixel) : Prop := c.r < 256 ∧ c.g < 256 ∧ c.b < 256 ∧ c.a < 256

instance (c : Pixel) : Decidable c.wf := by unfold Pixel.wf; infer_instance

/-- `colorHash` (both encoder and decoders):
`(r*3 + g*5 + b*7 + a*11) % 64`. -/
def colorHash (c : Pixel) : Nat := (c.r * 3 + c.g * 5 + c.b * 7 + c.a * 11) % 64

def zeroPixel : Pixel := ⟨0, 0, 0, 0⟩

/-- `prevPixel` after a reset: opaque black. -/
def initPrevPixel : Pixel := ⟨0, 0, 0, 255⟩

/-- `resetRgbIndex` / `resetIndex`: 64 all-zero slots. -/
def resetCache : List Pixel := List.replicate 64 zeroPixel

def cacheGet (cache : List Pixel) (i : Nat) : Pixel := cache.getD i zeroPixel

def cacheSet (cache : List Pixel) (i : Nat) (p : Pixel) : List Pixel := cache.set i p

/-- Big-endian 16-bit write (`writeU16`). -/
def u16be (v : Nat) : List Nat := [v / 256 % 256, v % 256]

/-- Big-endian 32-bit write (`writeU32`). -/
def u32be (v : Nat) : List Nat :=
  [v / 16777216 % 256, v / 65536 % 256, v / 256 % 256, v % 256]

/-- The 8-byte end marker `00 00 00 00 00 00 00 01` (`writeEndMarker`). -/
def endMarker : List Nat := [0, 0, 0, 0, 0, 0, 0, 1]

/-! ## RGB opcode encoder (`qov-encoder.ts`, `QovEncoder`) -/

namespace QovEncoder

/-- Encoder state shared by the RGB keyframe loop: the 64-slot cache
(`rgbIndex`) and the previous encoded pixel (`prevPixel`). -/
structure RgbState where
  cache : List Pixel
  prevPixel : Pixel
deriving DecidableEq, Repr

/-- Opcode emitted for one changed pixel of an RGB keyframe (the INDEX /
DIFF / LUMA / RGB / RGBA selection of `encodeRgbKeyframeData`).  The bitwise
ors of the source are written as sums of disjoint bit ranges. -/
def encodeKeyOp (s : RgbState) (c : Pixel) : List Nat :=
  let idx := colorHash c
  if cacheGet s.cache idx = c then [idx]
  else
    let dr : Int := (c.r : Int) - (s.prevPixel.r : Int)
    let dg : Int := (c.g : Int) - (s.prevPixel.g : Int)
    let db : Int := (c.b : Int) - (s.prevPixel.b : Int)
    let da : Int := (c.a : Int) - (s.prevPixel.a : Int)
    if da = 0 then
      if -2 ≤ dr ∧ dr ≤ 1 ∧ -2 ≤ dg ∧ dg ≤ 1 ∧ -2 ≤ db ∧ db ≤ 1 then
        [0x40 + (dr + 2).toNat * 16 + (dg + 2).toNat * 4 + (db + 2).toNat]
      else if -32 ≤ dg ∧ dg ≤ 31 then
        if -8 ≤ dr - dg ∧ dr - dg ≤ 7 ∧ -8 ≤ db - dg ∧ db - dg ≤ 7 then
          [0x80 + (dg + 32).toNat, (dr - dg + 8).toNat * 16 + (db - dg + 8).toNat]
        else [0xfe, byte c.r, byte c.g, byte c.b]
      else [0xfe, byte c.r, byte c.g, byte c.b]
    else [0xff, byte c.r, byte c.g, byte c.b, byte c.a]

/-- The per-pixel loop of `encodeRgbKeyframeData` (run detection, flush at 62
or at the last pixel, opcode emission, cache/prevPixel update).  `run` is the
pending run length; the returned state feeds the encoder's retained
`rgbIndex`/`prevPixel`. -/
def encodeRgbKeyLoop : List Pixel → RgbState → Nat → List Nat × RgbState
  | [], s, _run => ([], s)
  | c :: rest, s, run =>
    if c = s.prevPixel then
      if run + 1 = 62 ∨ rest = [] then
        let r := encodeRgbKeyLoop rest s 0
        ((0xc0 + run) :: r.1, r.2)
      else encodeRgbKeyLoop rest s (run + 1)
    else
      let flush := if run > 0 then [0xc0 + (run - 1)] else []
      let s' : RgbState := ⟨cacheSet s.cache (colorHash c) c, c⟩
      let r := encodeRgbKeyLoop rest s' 0
      (flush ++ encodeKeyOp s c ++ r.1, r.2)

/-- Opcode emitted for one changed pixel of an RGB P-frame
(TDIFF / TLUMA / RGB / RGBA selection of `encodeRgbPFrameData`), relative to
the reference pixel of the previous frame. -/
def encodePOp (c ref : Pixel) : List Nat :=
  let dr : Int := (c.r : Int) - (ref.r : Int)
  let dg : Int := (c.g : Int) - (ref.g : Int)
  let db : Int := (c.b : Int) - (ref.b : Int)
  let da : Int := (c.a : Int) - (ref.a : Int)
  if da = 0 ∧ -2 ≤ dr ∧ dr ≤ 1 ∧ -2 ≤ dg ∧ dg ≤ 1 ∧ -2 ≤ db ∧ db ≤ 1 then
    [0x40 + (dr + 2).toNat * 16 + (dg + 2).toNat * 4 + (db + 2).toNat]
  else if da = 0 ∧ -32 ≤ dg ∧ dg ≤ 31 then
    if -8 ≤ dr - dg ∧ dr - dg ≤ 7 ∧ -8 ≤ db - dg ∧ db - dg ≤ 7 then
      [0x80 + (dg + 32).toNat, (dr - dg + 8).toNat * 16 + (db - dg + 8).toNat]
    else [0xfe, byte c.r, byte c.g, byte c.b]
  else if da = 0 then [0xfe, byte c.r, byte c.g, byte c.b]
  else [0xff, byte c.r, byte c.g, byte c.b, byte c.a]

/-- Flush of a pending SKIP run in `encodeRgbPFrameData`: a short SKIP for
counts up to 62, SKIP_LONG (`0x00` + 16-bit big-endian count) otherwise. -/
def flushSkip (skip : Nat) : List Nat :=
  if skip > 0 then
    (if skip ≤ 62 then [0xc0 + (skip - 1)] else 0x00 :: u16be skip)
  else []

/-- The per-pixel loop of `encodeRgbPFrameData` over `(current, reference)`
pixel pairs.  `skip` is the pending count of unchanged pixels; the cache is
updated for every changed pixel, `prevPixel` is not touched. -/
def encodeRgbPLoop : List (Pixel × Pixel) → List Pixel → Nat → List Nat × List Pixel
  | [], cache, _skip => ([], cache)
  | (c, ref) :: rest, cache, skip =>
    if c = ref then
      if skip + 1 = 62 ∨ rest = [] then
        let r := encodeRgbPLoop rest cache 0
        ((0xc0 + skip) :: r.1, r.2)
      else encodeRgbPLoop rest cache (skip + 1)
    else
      let r := encodeRgbPLoop rest (cacheSet cache (colorHash c) c) 0
      (flushSkip skip ++ encodePOp c ref ++ r.1, r.2)

end QovEncoder

/-! ## RGB opcode decoder loops (`qov-decoder.ts` `decodeKeyframeData` /
`decodePFrameData` and their `FromBuffer` twins, which run the identical
state machine on a decompressed buffer; `qov-streaming-decoder.ts`
`decodeRgbKeyframeFromData` / `decodeRgbPFrameFromData` run the same two
state machines as well). -/

namespace QovDecoder

/-- The RGB keyframe decode loop.  `bytes` is the input at the current read
position (reads past `remOp`, the distance to `dataEnd`, are possible inside
an opcode, exactly as in the source); `px`/`N` are the pixel cursor and the
frame's pixel count; `acc` collects the pixels written to `currFrame` (they
are written consecutively from index 0).  Returns the written pixels, the
cache and `prevPixel`. -/
def decodeRgbKeyLoop (bytes : List Nat) (remOp px N : Nat) (cache : List Pixel)
    (prev : Pixel) (acc : List Pixel) : List Pixel × List Pixel × Pixel :=
  if remOp = 0 ∨ N ≤ px then (acc, cache, prev)
  else
    let b1 := bytes.headD 0
    let rest := bytes.tail
    if b1 = 0xfe then
      let p : Pixel := ⟨rest.headD 0, rest.tail.headD 0, rest.tail.tail.headD 0, prev.a⟩
      decodeRgbKeyLoop (bytes.drop 4) (remOp - 4) (px + 1) N
        (cacheSet cache (colorHash p) p) p (acc ++ [p])
    else if b1 = 0xff then
      let p : Pixel := ⟨rest.headD 0, rest.tail.headD 0, rest.tail.tail.headD 0,
        rest.tail.tail.tail.headD 0⟩
      decodeRgbKeyLoop (bytes.drop 5) (remOp - 5) (px + 1) N
        (cacheSet cache (colorHash p) p) p (acc ++ [p])
    else if b1 / 64 = 0 then
      let p := cacheGet cache (b1 % 64)
      decodeRgbKeyLoop (bytes.drop 1) (remOp - 1) (px + 1) N
        (cacheSet cache (colorHash p) p) p (acc ++ [p])
    else if b1 / 64 = 1 then
      let p : Pixel := ⟨jsAnd255 ((prev.r : Int) + (b1 / 16 % 4 : Nat) - 2),
        jsAnd255 ((prev.g : Int) + (b1 / 4 % 4 : Nat) - 2),
        jsAnd255 ((prev.b : Int) + (b1 % 4 : Nat) - 2), prev.a⟩
      decodeRgbKeyLoop (bytes.drop 1) (remOp - 1) (px + 1) N
        (cacheSet cache (colorHash p) p) p (acc ++ [p])
    else if b1 / 64 = 2 then
      let b2 := rest.headD 0
      let dg : Int := (b1 % 64 : Nat) - 32
      let p : Pixel := ⟨jsAnd255 ((prev.r : Int) + dg + ((b2 / 16 % 16 : Nat) - 8 : Int)),
        jsAnd255 ((prev.g : Int) + dg),
        jsAnd255 ((prev.b : Int) + dg + ((b2 % 16 : Nat) - 8 : Int)), prev.a⟩
      decodeRgbKeyLoop (bytes.drop 2) (remOp - 2) (px + 1) N
        (cacheSet cache (colorHash p) p) p (acc ++ [p])
    else
      let run := min (b1 % 64 + 1) (N - px)
      decodeRgbKeyLoop (bytes.drop 1) (remOp - 1) (px + run) N cache prev
        (acc ++ List.replicate run prev)
termination_by remOp
decreasing_by all_goals omega

/-- The RGB P-frame decode loop, mutating `frame` (the copy of the previous
frame) in place at the pixel cursor. -/
def decodeRgbPLoop (bytes : List Nat) (remOp px N : Nat) (cache frame : List Pixel) :
    List Pixel × List Pixel :=
  if remOp = 0 ∨ N ≤ px then (frame, cache)
  else
    let b1 := bytes.headD 0
    let rest := bytes.tail
    if b1 = 0 then
      let skip := rest.headD 0 * 256 + rest.tail.headD 0
      decodeRgbPLoop (bytes.drop 3) (remOp - 3) (px + skip) N cache frame
    else if b1 / 64 = 3 ∧ b1 < 0xfe then
      decodeRgbPLoop (bytes.drop 1) (remOp - 1) (px + (b1 % 64 + 1)) N cache frame
    else if b1 / 64 = 1 then
      let p0 := frame.getD px zeroPixel
      let p : Pixel := ⟨jsAnd255 ((p0.r : Int) + (b1 / 16 % 4 : Nat) - 2),
        jsAnd255 ((p0.g : Int) + (b1 / 4 % 4 : Nat) - 2),
        jsAnd255 ((p0.b : Int) + (b1 % 4 : Nat) - 2), p0.a⟩
      decodeRgbPLoop (bytes.drop 1) (remOp - 1) (px + 1) N
        (cacheSet cache (colorHash p) p) (frame.set px p)
    else if b1 / 64 = 2 then
      let b2 := rest.headD 0
      let p0 := frame.getD px zeroPixel
      let dg : Int := (b1 % 64 : Nat) - 32
      let p : Pixel := ⟨jsAnd255 ((p0.r : Int) + dg + ((b2 / 16 % 16 : Nat) - 8 : Int)),
        jsAnd255 ((p0.g : Int) + dg),
        jsAnd255 ((p0.b : Int) + dg + ((b2 % 16 : Nat) - 8 : Int)), p0.a⟩
      decodeRgbPLoop (bytes.drop 2) (remOp - 2) (px + 1) N
        (cacheSet cache (colorHash p) p) (frame.set px p)
    else if b1 / 64 = 0 then
      let p := cacheGet cache (b1 % 64)
      decodeRgbPLoop (bytes.drop 1) (remOp - 1) (px + 1) N cache (frame.set px p)
    else if b1 = 0xfe then
      let p0 := frame.getD px zeroPixel
      let p : Pixel := ⟨byte (rest.headD 0), byte (rest.tail.headD 0),
        byte (rest.tail.tail.headD 0), p0.a⟩
      decodeRgbPLoop (bytes.drop 4) (remOp - 4) (px + 1) N
        (cacheSet cache (colorHash p) p) (frame.set px p)
    else
      let p : Pixel := ⟨byte (rest.headD 0), byte (rest.tail.headD 0),
        byte (rest.tail.tail.headD 0), byte (rest.tail.tail.tail.headD 0)⟩
      decodeRgbPLoop (bytes.drop 5) (remOp - 5) (px + 1) N
        (cacheSet cache (colorHash p) p) (frame.set px p)
termination_by remOp
decreasing_by all_goals omega

end QovDecoder

/-! ### List access helpers for the frame-buffer reasoning -/

theorem getD_append_length {α : Type} (l1 : List α) (x : α) (l2 : List α) (d : α) :
    (l1 ++ x :: l2).getD l1.length d = x := by
  induction l1 with
  | nil => rfl
  | cons a t ih => simpa using ih

theorem set_append_length {α : Type} (l1 : List α) (x v : α) (l2 : List α) :
    (l1 ++ x :: l2).set l1.length v = l1 ++ v :: l2 := by
  rw [List.set_append, if_neg (by omega)]
  simp

/-! ### Decoding inverts the RGB keyframe encoder (payload level) -/

namespace QovDecoder

open QovEncoder

/-- One RUN opcode byte consumed by the keyframe decode loop. -/
theorem decode_key_run (k remRest px N : Nat) (cache : List Pixel) (prev : Pixel)
    (acc : List Pixel) (rest : List Nat) (hk : k ≤ 61) (hpx : px + (k + 1) ≤ N) :
    decodeRgbKeyLoop ((0xc0 + k) :: rest) (1 + remRest) px N cache prev acc =
      decodeRgbKeyLoop rest remRest (px + (k + 1)) N cache prev
        (acc ++ List.replicate (k + 1) prev) := by
  rw [decodeRgbKeyLoop, if_neg (by omega)]
  simp only [List.headD_cons, List.tail_cons, List.drop_succ_cons, List.drop_zero]
  rw [if_neg (by omega), if_neg (by omega), if_neg (by omega), if_neg (by omega),
    if_neg (by omega)]
  have hmin : min ((0xc0 + k) % 64 + 1) (N - px) = k + 1 := by omega
  rw [hmin]
  have h1 : 1 + remRest - 1 = remRest := by omega
  rw [h1]

/-- INDEX opcode consumed by the keyframe decode loop. -/
theorem dk_index (i : Nat) (hi : i < 64) (q : Pixel) (cache : List Pixel) (prev : Pixel)
    (hq : cacheGet cache i = q) (remRest px N : Nat) (rest : List Nat) (acc : List Pixel)
    (hpx : px < N) :
    decodeRgbKeyLoop (i :: rest) (1 + remRest) px N cache prev acc =
      decodeRgbKeyLoop rest remRest (px + 1) N (cacheSet cache (colorHash q) q) q
        (acc ++ [q]) := by
  rw [decodeRgbKeyLoop, if_neg (by omega)]
  simp only [List.headD_cons, List.tail_cons, List.drop_succ_cons, List.drop_zero]
  rw [if_neg (by omega), if_neg (by omega), if_pos (by omega),
    Nat.mod_eq_of_lt hi, hq]
  have h1 : 1 + remRest - 1 = remRest := by omega
  rw [h1]

/-- DIFF opcode consumed by the keyframe decode loop. -/
theorem dk_diff (x y z : Nat) (hx : x ≤ 3) (hy : y ≤ 3) (hz : z ≤ 3) (q : Pixel)
    (cache : List Pixel) (prev : Pixel)
    (hq : (⟨jsAnd255 ((prev.r : Int) + (x : Nat) - 2), jsAnd255 ((prev.g : Int) + (y : Nat) - 2),
      jsAnd255 ((prev.b : Int) + (z : Nat) - 2), prev.a⟩ : Pixel) = q)
    (remRest px N : Nat) (rest : List Nat) (acc : List Pixel) (hpx : px < N) :
    decodeRgbKeyLoop ((0x40 + x * 16 + y * 4 + z) :: rest) (1 + remRest) px N cache prev acc =
      decodeRgbKeyLoop rest remRest (px + 1) N (cacheSet cache (colorHash q) q) q
        (acc ++ [q]) := by
  rw [decodeRgbKeyLoop, if_neg (by omega)]
  simp only [List.headD_cons, List.tail_cons, List.drop_succ_cons, List.drop_zero]
  rw [if_neg (by omega), if_neg (by omega), if_neg (by omega), if_pos (by omega)]
  have hfx : (0x40 + x * 16 + y * 4 + z) / 16 % 4 = x := by omega
  have hfy : (0x40 + x * 16 + y * 4 + z) / 4 % 4 = y := by omega
  have hfz : (0x40 + x * 16 + y * 4 + z) % 4 = z := by omega
  rw [hfx, hfy, hfz, hq]
  have h1 : 1 + remRest - 1 = remRest := by omega
  rw [h1]

/-- LUMA opcode (two bytes) consumed by the keyframe decode loop. -/
theorem dk_luma (w u v : Nat) (hw : w ≤ 63) (hu : u ≤ 15) (hv : v ≤ 15) (q : Pixel)
    (cache : List Pixel) (prev : Pixel)
    (hq : (⟨jsAnd255 ((prev.r : Int) + ((w : Nat) - 32 : Int) + ((u : Nat) - 8 : Int)),
      jsAnd255 ((prev.g : Int) + ((w : Nat) - 32 : Int)),
      jsAnd255 ((prev.b : Int) + ((w : Nat) - 32 : Int) + ((v : Nat) - 8 : Int)),
      prev.a⟩ : Pixel) = q)
    (remRest px N : Nat) (rest : List Nat) (acc : List Pixel) (hpx : px < N) :
    decodeRgbKeyLoop ((0x80 + w) :: (u * 16 + v) :: rest) (2 + remRest) px N cache prev acc =
      decodeRgbKeyLoop rest remRest (px + 1) N (cacheSet cache (colorHash q) q) q
        (acc ++ [q]) := by
  rw [decodeRgbKeyLoop, if_neg (by omega)]
  simp only [List.headD_cons, List.tail_cons, List.drop_succ_cons, List.drop_zero]
  rw [if_neg (by omega), if_neg (by omega), if_neg (by omega), if_neg (by omega),
    if_pos (by omega)]
  have hfw : (0x80 + w) % 64 = w := by omega
  have hfu : (u * 16 + v) / 16 % 16 = u := by omega
  have hfv : (u * 16 + v) % 16 = v := by omega
  rw [hfw, hfu, hfv, hq]
  have h1 : 2 + remRest - 2 = remRest := by omega
  rw [h1]

/-- RGB opcode consumed by the keyframe decode loop (alpha kept from
`prevPixel`). -/
theorem dk_rgb (cr cg cb ca : Nat) (cache : List Pixel) (prev : Pixel) (ha : prev.a = ca)
    (remRest px N : Nat) (rest : List Nat) (acc : List Pixel) (hpx : px < N) :
    decodeRgbKeyLoop (0xfe :: cr :: cg :: cb :: rest) (4 + remRest) px N cache prev acc =
      decodeRgbKeyLoop rest remRest (px + 1) N
        (cacheSet cache (colorHash ⟨cr, cg, cb, ca⟩) ⟨cr, cg, cb, ca⟩) ⟨cr, cg, cb, ca⟩
        (acc ++ [⟨cr, cg, cb, ca⟩]) := by
  rw [decodeRgbKeyLoop, if_neg (by omega)]
  simp only [List.headD_cons, List.tail_cons, List.drop_succ_cons, List.drop_zero, if_true]
  rw [ha]
  have h1 : 4 + remRest - 4 = remRest := by omega
  rw [h1]

/-- RGBA opcode consumed by the keyframe decode loop. -/
theorem dk_rgba (cr cg cb ca : Nat) (cache : List Pixel) (prev : Pixel)
    (remRest px N : Nat) (rest : List Nat) (acc : List Pixel) (hpx : px < N) :
    decodeRgbKeyLoop (0xff :: cr :: cg :: cb :: ca :: rest) (5 + remRest) px N cache prev acc =
      decodeRgbKeyLoop rest remRest (px + 1) N
        (cacheSet cache (colorHash ⟨cr, cg, cb, ca⟩) ⟨cr, cg, cb, ca⟩) ⟨cr, cg, cb, ca⟩
        (acc ++ [⟨cr, cg, cb, ca⟩]) := by
  rw [decodeRgbKeyLoop, if_neg (by omega)]
  simp only [List.headD_cons, List.tail_cons, List.drop_succ_cons, List.drop_zero, if_true]
  have h1 : 5 + remRest - 5 = remRest := by omega
  rw [h1, if_neg (by omega)]

/-- One non-RUN keyframe opcode, as chosen by the encoder, consumed by the
keyframe decode loop: the decoded pixel is the encoded one and the cache and
`prevPixel` updates agree. -/
theorem decode_key_op (s : RgbState) (c : Pixel) (hc : c.wf) (hne : c ≠ s.prevPixel)
    (hpw : s.prevPixel.wf) (remRest px N : Nat) (rest : List Nat) (acc : List Pixel)
    (hpx : px < N) :
    decodeRgbKeyLoop (encodeKeyOp s c ++ rest) ((encodeKeyOp s c).length + remRest) px N
      s.cache s.prevPixel acc =
    decodeRgbKeyLoop rest remRest (px + 1) N (cacheSet s.cache (colorHash c) c) c
      (acc ++ [c]) := by
  obtain ⟨cr, cg, cb, ca⟩ := c
  obtain ⟨hcr, hcg, hcb, hca⟩ := hc
  obtain ⟨hpr, hpg, hpb, hpa⟩ := hpw
  dsimp only at hcr hcg hcb hca
  rw [encodeKeyOp]
  simp only []
  by_cases hidx : cacheGet s.cache (colorHash ⟨cr, cg, cb, ca⟩) = ⟨cr, cg, cb, ca⟩
  · rw [if_pos hidx]
    exact dk_index _ (by rw [colorHash]; omega) _ _ _ hidx remRest px N rest acc hpx
  · rw [if_neg hidx]
    by_cases hda : ((ca : Int) - (s.prevPixel.a : Int)) = 0
    · rw [if_pos hda]
      by_cases hdiff : (-2 ≤ (cr : Int) - (s.prevPixel.r : Int) ∧ (cr : Int) - (s.prevPixel.r : Int) ≤ 1 ∧
          -2 ≤ (cg : Int) - (s.prevPixel.g : Int) ∧ (cg : Int) - (s.prevPixel.g : Int) ≤ 1 ∧
          -2 ≤ (cb : Int) - (s.prevPixel.b : Int) ∧ (cb : Int) - (s.prevPixel.b : Int) ≤ 1)
      · rw [if_pos hdiff]
        exact dk_diff _ _ _ (by omega) (by omega) (by omega) ⟨cr, cg, cb, ca⟩ s.cache
          s.prevPixel (by
            have h1 : jsAnd255 ((s.prevPixel.r : Int) +
                (((cr : Int) - (s.prevPixel.r : Int) + 2).toNat : Nat) - 2) = cr := by
              rw [jsAnd255]; omega
            have h2 : jsAnd255 ((s.prevPixel.g : Int) +
                (((cg : Int) - (s.prevPixel.g : Int) + 2).toNat : Nat) - 2) = cg := by
              rw [jsAnd255]; omega
            have h3 : jsAnd255 ((s.prevPixel.b : Int) +
                (((cb : Int) - (s.prevPixel.b : Int) + 2).toNat : Nat) - 2) = cb := by
              rw [jsAnd255]; omega
            have h4 : s.prevPixel.a = ca := by omega
            rw [h1, h2, h3, h4]) remRest px N rest acc hpx
      · rw [if_neg hdiff]
        by_cases hlg : (-32 ≤ (cg : Int) - (s.prevPixel.g : Int) ∧
            (cg : Int) - (s.prevPixel.g : Int) ≤ 31)
        · rw [if_pos hlg]
          by_cases hlr : (-8 ≤ ((cr : Int) - (s.prevPixel.r : Int)) - ((cg : Int) - (s.prevPixel.g : Int)) ∧
              ((cr : Int) - (s.prevPixel.r : Int)) - ((cg : Int) - (s.prevPixel.g : Int)) ≤ 7 ∧
              -8 ≤ ((cb : Int) - (s.prevPixel.b : Int)) - ((cg : Int) - (s.prevPixel.g : Int)) ∧
              ((cb : Int) - (s.prevPixel.b : Int)) - ((cg : Int) - (s.prevPixel.g : Int)) ≤ 7)
          · rw [if_pos hlr]
            exact dk_luma _ _ _ (by omega) (by omega) (by omega) ⟨cr, cg, cb, ca⟩ s.cache
              s.prevPixel (by
                have h1 : jsAnd255 ((s.prevPixel.r : Int) +
                    ((((cg : Int) - (s.prevPixel.g : Int) + 32).toNat : Nat) - 32 : Int) +
                    (((((cr : Int) - (s.prevPixel.r : Int)) - ((cg : Int) - (s.prevPixel.g : Int)) + 8).toNat : Nat) - 8 : Int)) = cr := by
                  rw [jsAnd255]; omega
                have h2 : jsAnd255 ((s.prevPixel.g : Int) +
                    ((((cg : Int) - (s.prevPixel.g : Int) + 32).toNat : Nat) - 32 : Int)) = cg := by
                  rw [jsAnd255]; omega
                have h3 : jsAnd255 ((s.prevPixel.b : Int) +
                    ((((cg : Int) - (s.prevPixel.g : Int) + 32).toNat : Nat) - 32 : Int) +
                    (((((cb : Int) - (s.prevPixel.b : Int)) - ((cg : Int) - (s.prevPixel.g : Int)) + 8).toNat : Nat) - 8 : Int)) = cb := by
                  rw [jsAnd255]; omega
                have h4 : s.prevPixel.a = ca := by omega
                rw [h1, h2, h3, h4]) remRest px N rest acc hpx
          · rw [if_neg hlr, byte_eq_of_lt hcr, byte_eq_of_lt hcg, byte_eq_of_lt hcb]
            exact dk_rgb cr cg cb ca s.cache s.prevPixel (by omega) remRest px N rest acc hpx
        · rw [if_neg hlg, byte_eq_of_lt hcr, byte_eq_of_lt hcg, byte_eq_of_lt hcb]
          exact dk_rgb cr cg cb ca s.cache s.prevPixel (by omega) remRest px N rest acc hpx
    · rw [if_neg hda, byte_eq_of_lt hcr, byte_eq_of_lt hcg, byte_eq_of_lt hcb,
        byte_eq_of_lt hca]
      exact dk_rgba cr cg cb ca s.cache s.prevPixel remRest px N rest acc hpx

/-- The keyframe decode loop inverts the keyframe encode loop, from any
matching mid-frame state: the decoded pixels are the pending run (all equal
to `prevPixel`) followed by the remaining input pixels, and the final cache
and `prevPixel` agree with the encoder's. -/
theorem decode_encodeKey (restPix : List Pixel) : ∀ (s : RgbState) (run : Nat)
    (acc : List Pixel) (tail : List Nat), run ≤ 61 → (restPix = [] → run = 0) →
    (∀ p ∈ restPix, p.wf) → s.prevPixel.wf →
    decodeRgbKeyLoop ((encodeRgbKeyLoop restPix s run).1 ++ tail)
      (encodeRgbKeyLoop restPix s run).1.length acc.length
      (acc.length + run + restPix.length) s.cache s.prevPixel acc =
    (acc ++ List.replicate run s.prevPixel ++ restPix,
      (encodeRgbKeyLoop restPix s run).2.cache,
      (encodeRgbKeyLoop restPix s run).2.prevPixel) := by
  induction restPix with
  | nil =>
    intro s run acc tail hrun hre hwf hpw
    have h0 : run = 0 := hre rfl
    subst h0
    rw [encodeRgbKeyLoop]
    simp only [List.nil_append, List.length_nil]
    rw [decodeRgbKeyLoop, if_pos (Or.inl rfl)]
    simp
  | cons c rest ih =>
    intro s run acc tail hrun hre hwf hpw
    have hcwf : c.wf := hwf c (by simp)
    have hrwf : ∀ p ∈ rest, p.wf := fun p hp => hwf p (by simp [hp])
    rw [encodeRgbKeyLoop]
    simp only []
    by_cases hcp : c = s.prevPixel
    · rw [if_pos hcp]
      by_cases hfl : (run + 1 = 62 ∨ rest = [])
      · rw [if_pos hfl]
        simp only [List.cons_append, List.length_cons]
        have hre1 : (encodeRgbKeyLoop rest s 0).1.length + 1 =
            1 + (encodeRgbKeyLoop rest s 0).1.length := by omega
        rw [hre1, decode_key_run run _ _ _ _ _ _ _ hrun (by omega)]
        have hacc : acc.length + (run + 1) =
            (acc ++ List.replicate (run + 1) s.prevPixel).length := by simp
        have hN : acc.length + run + (rest.length + 1) =
            (acc ++ List.replicate (run + 1) s.prevPixel).length + 0 + rest.length := by
          simp; omega
        rw [hacc, hN, ih s 0 _ tail (by omega) (fun _ => rfl) hrwf hpw]
        rw [hcp]
        simp [List.replicate_succ']
      · rw [if_neg hfl]
        push_neg at hfl
        simp only [List.length_cons]
        have hN : acc.length + run + (rest.length + 1) =
            acc.length + (run + 1) + rest.length := by omega
        rw [hN, ih s (run + 1) acc tail (by omega) (fun h => absurd h hfl.2) hrwf hpw]
        rw [hcp]
        simp [List.replicate_succ']
    · rw [if_neg hcp]
      by_cases hrz : run > 0
      · rw [if_pos hrz]
        simp only [List.cons_append, List.append_assoc, List.singleton_append,
          List.nil_append, List.length_cons, List.length_append, List.length_nil,
          Nat.zero_add]
        have hre1 : (encodeKeyOp s c).length + (encodeRgbKeyLoop rest
            ⟨cacheSet s.cache (colorHash c) c, c⟩ 0).1.length + 1 =
            1 + ((encodeKeyOp s c).length + (encodeRgbKeyLoop rest
            ⟨cacheSet s.cache (colorHash c) c, c⟩ 0).1.length) := by omega
        rw [hre1, decode_key_run (run - 1) _ _ _ _ _ _ _ (by omega) (by omega)]
        have hk1 : run - 1 + 1 = run := by omega
        rw [hk1]
        rw [decode_key_op s c hcwf hcp hpw _ _ _ _ _ (by omega)]
        have hacc : acc.length + run + 1 =
            ((acc ++ List.replicate run s.prevPixel) ++ [c]).length := by
          simp; omega
        have hN : acc.length + run + (rest.length + 1) =
            ((acc ++ List.replicate run s.prevPixel) ++ [c]).length + 0 + rest.length := by
          simp; omega
        rw [hacc, hN]
        rw [ih ⟨cacheSet s.cache (colorHash c) c, c⟩ 0 _ tail (by omega) (fun _ => rfl)
          hrwf hcwf]
        simp
      · rw [if_neg hrz]
        have h0 : run = 0 := by omega
        subst h0
        simp only [List.nil_append, List.append_assoc, List.length_append,
          List.length_cons]
        rw [decode_key_op s c hcwf hcp hpw _ _ _ _ _ (by omega)]
        have hacc : acc.length + 1 = (acc ++ [c]).length := by simp
        have hN : acc.length + 0 + (rest.length + 1) = (acc ++ [c]).length + 0 +
            rest.length := by simp; omega
        rw [hacc, hN]
        rw [ih ⟨cacheSet s.cache (colorHash c) c, c⟩ 0 _ tail (by omega) (fun _ => rfl)
          hrwf hcwf]
        simp

/-! ### Decoding inverts the RGB P-frame encoder (payload level) -/

/-- One short SKIP opcode consumed by the P-frame decode loop. -/
theorem dp_skip (k remRest px N : Nat) (cache frame : List Pixel) (rest : List Nat)
    (hk : k ≤ 61) (hpx : px < N) :
    decodeRgbPLoop ((0xc0 + k) :: rest) (1 + remRest) px N cache frame =
      decodeRgbPLoop rest remRest (px + (k + 1)) N cache frame := by
  rw [decodeRgbPLoop, if_neg (by omega)]
  simp only [List.headD_cons, List.tail_cons, List.drop_succ_cons, List.drop_zero]
  rw [if_neg (by omega), if_pos (by omega)]
  have hmod : (0xc0 + k) % 64 + 1 = k + 1 := by omega
  rw [hmod]
  have h1 : 1 + remRest - 1 = remRest := by omega
  rw [h1]

/-- TDIFF opcode consumed by the P-frame decode loop. -/
theorem dp_tdiff (x y z : Nat) (hx : x ≤ 3) (hy : y ≤ 3) (hz : z ≤ 3) (q : Pixel)
    (cache frame : List Pixel) (remRest px N : Nat) (rest : List Nat)
    (hq : (⟨jsAnd255 (((frame.getD px zeroPixel).r : Int) + (x : Nat) - 2),
      jsAnd255 (((frame.getD px zeroPixel).g : Int) + (y : Nat) - 2),
      jsAnd255 (((frame.getD px zeroPixel).b : Int) + (z : Nat) - 2),
      (frame.getD px zeroPixel).a⟩ : Pixel) = q)
    (hpx : px < N) :
    decodeRgbPLoop ((0x40 + x * 16 + y * 4 + z) :: rest) (1 + remRest) px N cache frame =
      decodeRgbPLoop rest remRest (px + 1) N (cacheSet cache (colorHash q) q)
        (frame.set px q) := by
  rw [decodeRgbPLoop, if_neg (by omega)]
  simp only [List.headD_cons, List.tail_cons, List.drop_succ_cons, List.drop_zero]
  rw [if_neg (by omega), if_neg (by omega), if_pos (by omega)]
  have hfx : (0x40 + x * 16 + y * 4 + z) / 16 % 4 = x := by omega
  have hfy : (0x40 + x * 16 + y * 4 + z) / 4 % 4 = y := by omega
  have hfz : (0x40 + x * 16 + y * 4 + z) % 4 = z := by omega
  rw [hfx, hfy, hfz, hq]
  have h1 : 1 + remRest - 1 = remRest := by omega
  rw [h1]

/-- TLUMA opcode (two bytes) consumed by the P-frame decode loop. -/
theorem dp_tluma (w u v : Nat) (hw : w ≤ 63) (hu : u ≤ 15) (hv : v ≤ 15) (q : Pixel)
    (cache frame : List Pixel) (remRest px N : Nat) (rest : List Nat)
    (hq : (⟨jsAnd255 (((frame.getD px zeroPixel).r : Int) + ((w : Nat) - 32 : Int) +
        ((u : Nat) - 8 : Int)),
      jsAnd255 (((frame.getD px zeroPixel).g : Int) + ((w : Nat) - 32 : Int)),
      jsAnd255 (((frame.getD px zeroPixel).b : Int) + ((w : Nat) - 32 : Int) +
        ((v : Nat) - 8 : Int)),
      (frame.getD px zeroPixel).a⟩ : Pixel) = q)
    (hpx : px < N) :
    decodeRgbPLoop ((0x80 + w) :: (u * 16 + v) :: rest) (2 + remRest) px N cache frame =
      decodeRgbPLoop rest remRest (px + 1) N (cacheSet cache (colorHash q) q)
        (frame.set px q) := by
  rw [decodeRgbPLoop, if_neg (by omega)]
  simp only [List.headD_cons, List.tail_cons, List.drop_succ_cons, List.drop_zero]
  rw [if_neg (by omega), if_neg (by omega), if_neg (by omega), if_pos (by omega)]
  have hfw : (0x80 + w) % 64 = w := by omega
  have hfu : (u * 16 + v) / 16 % 16 = u := by omega
  have hfv : (u * 16 + v) % 16 = v := by omega
  rw [hfw, hfu, hfv, hq]
  have h1 : 2 + remRest - 2 = remRest := by omega
  rw [h1]

/-- RGB opcode consumed by the P-frame decode loop (alpha kept from the
reference pixel). -/
theorem dp_rgb (cr cg cb : Nat) (hcr : cr < 256) (hcg : cg < 256) (hcb : cb < 256)
    (ca : Nat) (cache frame : List Pixel) (remRest px N : Nat) (rest : List Nat)
    (ha : (frame.getD px zeroPixel).a = ca) (hpx : px < N) :
    decodeRgbPLoop (0xfe :: cr :: cg :: cb :: rest) (4 + remRest) px N cache frame =
      decodeRgbPLoop rest remRest (px + 1) N
        (cacheSet cache (colorHash ⟨cr, cg, cb, ca⟩) ⟨cr, cg, cb, ca⟩)
        (frame.set px ⟨cr, cg, cb, ca⟩) := by
  rw [decodeRgbPLoop, if_neg (by omega)]
  simp only [List.headD_cons, List.tail_cons, List.drop_succ_cons, List.drop_zero, if_true]
  rw [if_neg (by omega), if_neg (by omega), if_neg (by omega), if_neg (by omega),
    if_neg (by omega)]
  rw [byte_eq_of_lt hcr, byte_eq_of_lt hcg, byte_eq_of_lt hcb, ha]
  have h1 : 4 + remRest - 4 = remRest := by omega
  rw [h1]

/-- RGBA opcode consumed by the P-frame decode loop. -/
theorem dp_rgba (cr cg cb ca : Nat) (hcr : cr < 256) (hcg : cg < 256) (hcb : cb < 256)
    (hca : ca < 256) (cache frame : List Pixel) (remRest px N : Nat) (rest : List Nat)
    (hpx : px < N) :
    decodeRgbPLoop (0xff :: cr :: cg :: cb :: ca :: rest) (5 + remRest) px N cache frame =
      decodeRgbPLoop rest remRest (px + 1) N
        (cacheSet cache (colorHash ⟨cr, cg, cb, ca⟩) ⟨cr, cg, cb, ca⟩)
        (frame.set px ⟨cr, cg, cb, ca⟩) := by
  rw [decodeRgbPLoop, if_neg (by omega)]
  simp only [List.headD_cons, List.tail_cons, List.drop_succ_cons, List.drop_zero, if_true]
  rw [if_neg (by omega), if_neg (by omega), if_neg (by omega), if_neg (by omega),
    if_neg (by omega), if_neg (by omega)]
  rw [byte_eq_of_lt hcr, byte_eq_of_lt hcg, byte_eq_of_lt hcb, byte_eq_of_lt hca]
  have h1 : 5 + remRest - 5 = remRest := by omega
  rw [h1]

/-- One changed-pixel opcode, as chosen by the P-frame encoder relative to
the reference pixel, consumed by the P-frame decode loop: the frame slot is
overwritten by the encoded pixel and the cache update agrees. -/
theorem decode_p_op (c ref : Pixel) (hc : c.wf) (href : ref.wf) (hne : c ≠ ref)
    (cache frame : List Pixel) (remRest px N : Nat) (rest : List Nat)
    (hpx : px < N) (hf : frame.getD px zeroPixel = ref) :
    decodeRgbPLoop (encodePOp c ref ++ rest) ((encodePOp c ref).length + remRest) px N
      cache frame =
    decodeRgbPLoop rest remRest (px + 1) N (cacheSet cache (colorHash c) c)
      (frame.set px c) := by
  obtain ⟨cr, cg, cb, ca⟩ := c
  obtain ⟨hcr, hcg, hcb, hca⟩ := hc
  obtain ⟨rr, rg, rb, ra⟩ := ref
  obtain ⟨hrr, hrg, hrb, hra⟩ := href
  dsimp only at hcr hcg hcb hca hrr hrg hrb hra
  rw [encodePOp]
  simp only []
  by_cases hd1 : ((ca : Int) - (ra : Int) = 0 ∧ -2 ≤ (cr : Int) - (rr : Int) ∧
      (cr : Int) - (rr : Int) ≤ 1 ∧ -2 ≤ (cg : Int) - (rg : Int) ∧
      (cg : Int) - (rg : Int) ≤ 1 ∧ -2 ≤ (cb : Int) - (rb : Int) ∧
      (cb : Int) - (rb : Int) ≤ 1)
  · rw [if_pos hd1]
    exact dp_tdiff _ _ _ (by omega) (by omega) (by omega) ⟨cr, cg, cb, ca⟩ cache frame
      remRest px N rest
      (by
        rw [hf]
        dsimp only
        have h1 : jsAnd255 ((rr : Int) +
            ((((cr : Int) - (rr : Int) + 2).toNat : Nat) : Nat) - 2) = cr := by
          rw [jsAnd255]; omega
        have h2 : jsAnd255 ((rg : Int) +
            ((((cg : Int) - (rg : Int) + 2).toNat : Nat) : Nat) - 2) = cg := by
          rw [jsAnd255]; omega
        have h3 : jsAnd255 ((rb : Int) +
            ((((cb : Int) - (rb : Int) + 2).toNat : Nat) : Nat) - 2) = cb := by
          rw [jsAnd255]; omega
        have h4 : ra = ca := by omega
        rw [h1, h2, h3, h4]) hpx
  · rw [if_neg hd1]
    by_cases hd2 : ((ca : Int) - (ra : Int) = 0 ∧ -32 ≤ (cg : Int) - (rg : Int) ∧
        (cg : Int) - (rg : Int) ≤ 31)
    · rw [if_pos hd2]
      by_cases hlr : (-8 ≤ ((cr : Int) - (rr : Int)) - ((cg : Int) - (rg : Int)) ∧
          ((cr : Int) - (rr : Int)) - ((cg : Int) - (rg : Int)) ≤ 7 ∧
          -8 ≤ ((cb : Int) - (rb : Int)) - ((cg : Int) - (rg : Int)) ∧
          ((cb : Int) - (rb : Int)) - ((cg : Int) - (rg : Int)) ≤ 7)
      · rw [if_pos hlr]
        exact dp_tluma _ _ _ (by omega) (by omega) (by omega) ⟨cr, cg, cb, ca⟩ cache frame
          remRest px N rest
          (by
            rw [hf]
            dsimp only
            have h1 : jsAnd255 ((rr : Int) +
                ((((cg : Int) - (rg : Int) + 32).toNat : Nat) - 32 : Int) +
                (((((cr : Int) - (rr : Int)) - ((cg : Int) - (rg : Int)) + 8).toNat : Nat) - 8 : Int)) = cr := by
              rw [jsAnd255]; omega
            have h2 : jsAnd255 ((rg : Int) +
                ((((cg : Int) - (rg : Int) + 32).toNat : Nat) - 32 : Int)) = cg := by
              rw [jsAnd255]; omega
            have h3 : jsAnd255 ((rb : Int) +
                ((((cg : Int) - (rg : Int) + 32).toNat : Nat) - 32 : Int) +
                (((((cb : Int) - (rb : Int)) - ((cg : Int) - (rg : Int)) + 8).toNat : Nat) - 8 : Int)) = cb := by
              rw [jsAnd255]; omega
            have h4 : ra = ca := by omega
            rw [h1, h2, h3, h4]) hpx
      · rw [if_neg hlr, byte_eq_of_lt hcr, byte_eq_of_lt hcg, byte_eq_of_lt hcb]
        exact dp_rgb cr cg cb hcr hcg hcb ca cache frame remRest px N rest
          (by rw [hf]; dsimp only; omega) hpx
    · rw [if_neg hd2]
      by_cases hda : ((ca : Int) - (ra : Int) = 0)
      · rw [if_pos hda, byte_eq_of_lt hcr, byte_eq_of_lt hcg, byte_eq_of_lt hcb]
        exact dp_rgb cr cg cb hcr hcg hcb ca cache frame remRest px N rest
          (by rw [hf]; dsimp only; omega) hpx
      · rw [if_neg hda, byte_eq_of_lt hcr, byte_eq_of_lt hcg, byte_eq_of_lt hcb,
          byte_eq_of_lt hca]
        exact dp_rgba cr cg cb ca hcr hcg hcb hca cache frame remRest px N rest hpx

/-- The P-frame decode loop inverts the P-frame encode loop, from any
matching mid-frame state: `done` are the already rewritten slots, `mid` the
slots covered by the pending skip (where current equals reference, so the
frame already holds the current pixel there), and the remaining frame slots
hold the reference pixels of the remaining `(current, reference)` pairs.
The result is the frame overwritten with the current pixels, and the final
cache agrees with the encoder's. -/
theorem decode_encodeP (pairs : List (Pixel × Pixel)) : ∀ (cache : List Pixel)
    (skip : Nat) (done mid : List Pixel) (tail : List Nat), skip ≤ 61 →
    mid.length = skip → (pairs = [] → skip = 0) →
    (∀ pr ∈ pairs, (Prod.fst pr).wf ∧ (Prod.snd pr).wf) →
    decodeRgbPLoop ((encodeRgbPLoop pairs cache skip).1 ++ tail)
      (encodeRgbPLoop pairs cache skip).1.length done.length
      (done.length + skip + pairs.length) cache
      (done ++ mid ++ pairs.map Prod.snd) =
    (done ++ mid ++ pairs.map Prod.fst, (encodeRgbPLoop pairs cache skip).2) := by
  induction pairs with
  | nil =>
    intro cache skip done mid tail hsk hmid hse hwf
    have h0 : skip = 0 := hse rfl
    subst h0
    have hm : mid = [] := List.eq_nil_of_length_eq_zero hmid
    subst hm
    rw [encodeRgbPLoop]
    simp only [List.nil_append, List.length_nil]
    rw [decodeRgbPLoop, if_pos (Or.inl rfl)]
    simp
  | cons pr rest ih =>
    obtain ⟨c, ref⟩ := pr
    intro cache skip done mid tail hsk hmid hse hwf
    have hcwf : c.wf := (hwf (c, ref) (by simp)).1
    have hrefwf : ref.wf := (hwf (c, ref) (by simp)).2
    have hrwf : ∀ q ∈ rest, (Prod.fst q).wf ∧ (Prod.snd q).wf :=
      fun q hq => hwf q (by simp [hq])
    rw [encodeRgbPLoop]
    simp only []
    by_cases hcr : c = ref
    · rw [if_pos hcr]
      by_cases hfl : (skip + 1 = 62 ∨ rest = [])
      · rw [if_pos hfl]
        simp only [List.cons_append, List.length_cons]
        have hre1 : (encodeRgbPLoop rest cache 0).1.length + 1 =
            1 + (encodeRgbPLoop rest cache 0).1.length := by omega
        rw [hre1, dp_skip skip _ _ _ _ _ _ hsk (by omega)]
        have hfr : done ++ mid ++ ((c, ref) :: rest).map Prod.snd =
            (done ++ mid ++ [c]) ++ [] ++ rest.map Prod.snd := by
          rw [hcr]; simp
        rw [hfr]
        have hpx : done.length + (skip + 1) = (done ++ mid ++ [c]).length := by
          simp [hmid]
        have hN : done.length + skip + (rest.length + 1) =
            (done ++ mid ++ [c]).length + 0 + rest.length := by simp [hmid]; omega
        rw [hpx, hN, ih cache 0 _ [] tail (by omega) rfl (fun _ => rfl) hrwf]
        rw [hcr]; simp
      · rw [if_neg hfl]
        push_neg at hfl
        simp only [List.length_cons]
        have hfr : done ++ mid ++ ((c, ref) :: rest).map Prod.snd =
            done ++ (mid ++ [ref]) ++ rest.map Prod.snd := by simp
        rw [hfr]
        have hN : done.length + skip + (rest.length + 1) =
            done.length + (skip + 1) + rest.length := by omega
        rw [hN, ih cache (skip + 1) done (mid ++ [ref]) tail (by omega)
          (by simp [hmid]) (fun h => absurd h hfl.2) hrwf]
        rw [hcr]; simp
    · rw [if_neg hcr]
      by_cases hsz : skip > 0
      · have hflush : flushSkip skip = [0xc0 + (skip - 1)] := by
          rw [flushSkip, if_pos hsz, if_pos (by omega)]
        rw [hflush]
        simp only [List.cons_append, List.append_assoc, List.singleton_append,
          List.nil_append, List.length_cons, List.length_append, List.length_nil,
          Nat.zero_add]
        have hre1 : (encodePOp c ref).length + (encodeRgbPLoop rest
            (cacheSet cache (colorHash c) c) 0).1.length + 1 =
            1 + ((encodePOp c ref).length + (encodeRgbPLoop rest
            (cacheSet cache (colorHash c) c) 0).1.length) := by omega
        rw [hre1, dp_skip (skip - 1) _ _ _ _ _ _ (by omega) (by omega)]
        have hk1 : skip - 1 + 1 = skip := by omega
        rw [hk1]
        have hfr : done ++ (mid ++ ((c, ref) :: rest).map Prod.snd) =
            (done ++ mid) ++ ref :: rest.map Prod.snd := by simp
        rw [hfr]
        have hpx : done.length + skip = (done ++ mid).length := by simp [hmid]
        rw [hpx]
        rw [decode_p_op c ref hcwf hrefwf hcr _ _ _ _ _ _ (by simp [hmid])
          (getD_append_length _ _ _ _)]
        rw [set_append_length]
        have hfr2 : (done ++ mid) ++ c :: rest.map Prod.snd =
            (done ++ mid ++ [c]) ++ [] ++ rest.map Prod.snd := by simp
        rw [hfr2]
        have hpx2 : (done ++ mid).length + 1 = (done ++ mid ++ [c]).length := by
          simp; omega
        have hN : (done ++ mid).length + (rest.length + 1) =
            (done ++ mid ++ [c]).length + 0 + rest.length := by simp; omega
        rw [hpx2, hN, ih (cacheSet cache (colorHash c) c) 0 _ [] tail (by omega) rfl
          (fun _ => rfl) hrwf]
        simp
      · have h0 : skip = 0 := by omega
        subst h0
        have hm : mid = [] := List.eq_nil_of_length_eq_zero hmid
        subst hm
        have hflush : flushSkip 0 = [] := by rw [flushSkip, if_neg (by omega)]
        rw [hflush]
        simp only [List.nil_append, List.append_assoc, List.append_nil,
          List.length_append, List.length_cons]
        have hfr : done ++ ((c, ref) :: rest).map Prod.snd =
            done ++ ref :: rest.map Prod.snd := by simp
        rw [hfr]
        rw [decode_p_op c ref hcwf hrefwf hcr _ _ _ _ _ _ (by omega)
          (getD_append_length _ _ _ _)]
        rw [set_append_length]
        have hfr2 : done ++ c :: rest.map Prod.snd =
            (done ++ [c]) ++ [] ++ rest.map Prod.snd := by simp
        rw [hfr2]
        have hpx2 : done.length + 1 = (done ++ [c]).length := by simp
        have hN : done.length + 0 + (rest.length + 1) =
            (done ++ [c]).length + 0 + rest.length := by simp; omega
        rw [hpx2, hN, ih (cacheSet cache (colorHash c) c) 0 _ [] tail (by omega) rfl
          (fun _ => rfl) hrwf]
        simp

end QovDecoder

/-! ## Container encoder (`qov-encoder.ts`, class `QovEncoder`).

Only the RGB path (colorspaces `0x00`–`0x03`) is modelled; the YUV branch of
`encodeKeyframe` / `encodePFrame` (colorspaces `0x10`–`0x13`) is outside every
claim about this encoder, which all fix colorspace sRGB or sRGBA.
The `GrowableBuffer` is a plain byte list; `setByte` patching of a
chunk-size placeholder is modelled by writing the final size directly, and
the patch of `totalFrames` in `finish` by `List.set` on the final buffer. -/

namespace QovEncoder

structure EncoderState where
  flags : Nat
  width : Nat
  height : Nat
  frameRateNum : Nat
  frameRateDen : Nat
  colorspace : Nat
  compressionEnabled : Bool
  cache : List Pixel
  prevPixel : Pixel
  prevFrame : Option (List Pixel)
  keyframes : List (Nat × Nat × Nat)
  frameCount : Nat
  buffer : List Nat
deriving DecidableEq, Repr

/-- The constructor.  It performs no validation of any argument: it only
stores the header fields and initializes the cache and buffers. -/
def mkEncoder (width height : Nat) (frameRateNum : Nat := 30) (frameRateDen : Nat := 1)
    (flags : Nat := 0x04) (colorspace : Nat := 0x00) (compressionEnabled : Bool := true) :
    EncoderState :=
  { flags := flags, width := width, height := height, frameRateNum := frameRateNum,
    frameRateDen := frameRateDen, colorspace := colorspace,
    compressionEnabled := compressionEnabled, cache := resetCache,
    prevPixel := initPrevPixel, prevFrame := none, keyframes := [], frameCount := 0,
    buffer := [] }

def EncoderState.isYuvMode (s : EncoderState) : Bool :=
  0x10 ≤ s.colorspace ∧ s.colorspace ≤ 0x13

/-- Bytes of the 24-byte file header (`writeHeader`); version `0x02`,
`totalFrames` placeholder 0 patched by `finish`. -/
def headerBytes (s : EncoderState) : List Nat :=
  [0x71, 0x6f, 0x76, 0x66, 0x02, byte s.flags] ++
    u16be s.width ++ u16be s.height ++ u16be s.frameRateNum ++ u16be s.frameRateDen ++
    u32be 0 ++ [0, 0, 0, 0] ++ [byte s.colorspace, 0x00]

def writeHeader (s : EncoderState) : EncoderState :=
  { s with buffer := s.buffer ++ headerBytes s }

/-- The 18-byte SYNC chunk (`writeSync`). -/
def syncBytes (frameNumber timestamp : Nat) : List Nat :=
  [0x00, 0x00] ++ u32be 8 ++ u32be timestamp ++
    [0x51, 0x4f, 0x56, 0x53] ++ u32be frameNumber

/-- Frame-chunk framing shared by `encodeKeyframe` and `encodePFrame`:
with compression enabled the payload is LZ4-gated (`finishFrameData`),
otherwise it is written directly with its size patched in
(`chunkType | flags | size_u32 | timestamp | payload`). -/
def frameChunk (chunkType baseFlags timestamp : Nat) (compressionEnabled : Bool)
    (payload : List Nat) : List Nat :=
  if compressionEnabled then
    match LZ4.lz4Compress payload with
    | some comp =>
      [chunkType, byte (baseFlags + 0x10)] ++ u32be (comp.length + 4) ++ u32be timestamp ++
        u32be payload.length ++ comp
    | none =>
      [chunkType, byte baseFlags] ++ u32be payload.length ++ u32be timestamp ++ payload
  else
    [chunkType, byte baseFlags] ++ u32be payload.length ++ u32be timestamp ++ payload

/-- `encodeKeyframe`, RGB path: record the keyframe offset (when HAS_INDEX is
set), write the SYNC chunk, reset the cache and `prevPixel`, encode the
opcode payload plus end marker, frame it, and retain the frame. -/
def encodeKeyframe (s : EncoderState) (pixels : List Pixel) (timestamp : Nat) :
    EncoderState :=
  let frameNumber := s.frameCount
  let keyframes' := if s.flags % 8 / 4 = 1 then
      s.keyframes ++ [(frameNumber, s.buffer.length, timestamp)]
    else s.keyframes
  let buf1 := s.buffer ++ syncBytes frameNumber timestamp
  let enc := encodeRgbKeyLoop pixels ⟨resetCache, initPrevPixel⟩ 0
  let payload := enc.1 ++ endMarker
  { s with
    frameCount := s.frameCount + 1
    keyframes := keyframes'
    buffer := buf1 ++ frameChunk 0x01 0x00 timestamp s.compressionEnabled payload
    cache := enc.2.cache
    prevPixel := enc.2.prevPixel
    prevFrame := some pixels }

/-- `encodePFrame`, RGB path: falls back to `encodeKeyframe` when no frame
has been encoded yet; otherwise encodes temporal opcodes against the previous
frame (no SYNC, no keyframe-index entry, `prevPixel` untouched). -/
def encodePFrame (s : EncoderState) (pixels : List Pixel) (timestamp : Nat) :
    EncoderState :=
  match s.prevFrame with
  | none => encodeKeyframe s pixels timestamp
  | some prev =>
    let enc := encodeRgbPLoop (pixels.zip prev) s.cache 0
    let payload := enc.1 ++ endMarker
    { s with
      frameCount := s.frameCount + 1
      buffer := s.buffer ++ frameChunk 0x02 0x00 timestamp s.compressionEnabled payload
      cache := enc.2
      prevFrame := some pixels }

/-- The INDEX chunk written by `finish` (`writeIndex`): nothing unless
HAS_INDEX is set and a keyframe exists. -/
def indexChunkBytes (s : EncoderState) : List Nat :=
  if s.flags % 8 / 4 = 1 ∧ s.keyframes ≠ [] then
    [0xF0, 0x00] ++ u32be (4 + s.keyframes.length * 16) ++ u32be 0 ++
      u32be s.keyframes.length ++
      (s.keyframes.flatMap fun kf => u32be kf.1 ++ u32be 0 ++ u32be kf.2.1 ++ u32be kf.2.2)
  else []

/-- The END chunk (`writeEnd`): empty body plus the 8-byte end marker. -/
def endChunkBytes : List Nat := [0xFF, 0x00] ++ u32be 0 ++ u32be 0 ++ endMarker

/-- Patch a big-endian u32 into the buffer at `pos` (`setByte` four times;
out-of-range patches are dropped, like `setByte` past `totalSize`). -/
def patchU32 (l : List Nat) (pos v : Nat) : List Nat :=
  ((((l.set pos (v / 16777216 % 256)).set (pos + 1) (v / 65536 % 256)).set
    (pos + 2) (v / 256 % 256)).set (pos + 3) (v % 256))

/-- `finish`: append the INDEX chunk (if any) and the END chunk, patch
`totalFrames` at offset 14, and return the bytes.  There is no guard against
calling it twice; the state keeps the grown buffer. -/
def finish (s : EncoderState) : List Nat × EncoderState :=
  let buf := s.buffer ++ indexChunkBytes s ++ endChunkBytes
  let patched := patchU32 buf 14 s.frameCount
  (patched, { s with buffer := patched })

def getFrameCount (s : EncoderState) : Nat := s.frameCount

end QovEncoder

/-! ## Container decoder (`qov-decoder.ts`, class `QovDecoder`).

Only the RGB frame-decoding path is modelled; a YUV chunk (or a YUV-mode
header) makes the model return `none`, which no claim exercises (they all
fix sRGB/sRGBA streams).  The byte source is consumed from the front; the
position arithmetic of the source (`this.pos`) becomes `List.drop`. -/

namespace QovDecoder

/-- A decoded frame as yielded by `decodeFrames`. -/
structure Frame where
  pixels : List Pixel
  timestamp : Nat
  isKeyframe : Bool
  frameNumber : Nat
deriving DecidableEq, Repr

/-- Header fields read by `decodeHeader`. -/
structure Header where
  version : Nat
  flags : Nat
  width : Nat
  height : Nat
  frameRateNum : Nat
  frameRateDen : Nat
  totalFrames : Nat
  audioChannels : Nat
  audioRate : Nat
  colorspace : Nat
deriving DecidableEq, Repr

def readU16at (data : List Nat) (i : Nat) : Nat :=
  data.getD i 0 * 256 + data.getD (i + 1) 0

def readU32at (data : List Nat) (i : Nat) : Nat :=
  data.getD i 0 * 16777216 + data.getD (i + 1) 0 * 65536 +
    data.getD (i + 2) 0 * 256 + data.getD (i + 3) 0

/-- `decodeHeader`: magic and version checks (errors become `none`), field
extraction.  The two frame buffers it allocates are all-zero
`Uint8ClampedArray`s — including the alpha bytes. -/
def decodeHeader (data : List Nat) : Option Header :=
  if data.getD 0 0 = 0x71 ∧ data.getD 1 0 = 0x6f ∧ data.getD 2 0 = 0x76 ∧
      data.getD 3 0 = 0x66 then
    let version := data.getD 4 0
    if version = 0x01 ∨ version = 0x02 then
      some { version := version, flags := data.getD 5 0,
             width := readU16at data 6, height := readU16at data 8,
             frameRateNum := readU16at data 10, frameRateDen := readU16at data 12,
             totalFrames := readU32at data 14, audioChannels := data.getD 18 0,
             audioRate := data.getD 19 0 * 65536 + data.getD 20 0 * 256 + data.getD 21 0,
             colorspace := data.getD 22 0 }
    else none
  else none

/-- The frame buffers `decodeHeader` allocates: every byte zero (alpha
included). -/
def initFrameBuffer (width height : Nat) : List Pixel :=
  List.replicate (width * height) zeroPixel

/-- One frame chunk decoded: the next decoder state and the yielded frame. -/
structure DecState where
  cache : List Pixel
  prevPixel : Pixel
  prevFrame : List Pixel
  currFrame : List Pixel
deriving DecidableEq, Repr

/-- Decode one RGB keyframe payload (`decodeKeyframeData` body): reset cache
and `prevPixel`, run the opcode loop, fill `currFrame` from index 0, swap the
frame buffers. -/
def decodeKeyframeChunk (st : DecState) (bytes : List Nat) (remOp N : Nat) : DecState :=
  let r := decodeRgbKeyLoop bytes remOp 0 N resetCache initPrevPixel []
  let newFrame := r.1 ++ st.currFrame.drop r.1.length
  { cache := r.2.1, prevPixel := r.2.2, prevFrame := newFrame, currFrame := st.prevFrame }

/-- Decode one RGB P-frame payload (`decodePFrameData` body): copy the
previous frame (when no motion), run the temporal opcode loop, swap. -/
def decodePFrameChunk (st : DecState) (bytes : List Nat) (remOp N : Nat)
    (hasMotion : Bool) : DecState :=
  let base := if hasMotion then st.currFrame else st.prevFrame
  let r := decodeRgbPLoop bytes remOp 0 N st.cache base
  { cache := r.2, prevPixel := st.prevPixel, prevFrame := r.1, currFrame := st.prevFrame }

/-- The chunk loop of `decodeFrames` (consuming the byte suffix after the
24-byte header).  Returns `none` only on the unmodelled YUV path. -/
def decodeFramesLoop (suffix : List Nat) (use32 : Bool) (isYuvMode : Bool) (N : Nat)
    (st : DecState) (frameNumber : Nat) : Option (List Frame) :=
  match hs : suffix with
  | [] => some []
  | _ :: _ =>
    let chunkType := suffix.getD 0 0
    let chunkFlags := suffix.getD 1 0
    let headerSize := if use32 then 10 else 8
    let chunkSize := if use32 then readU32at suffix 2 else readU16at suffix 2
    let timestamp := readU32at suffix (if use32 then 6 else 4)
    let isCompressed := chunkFlags / 16 % 2 = 1
    let uncompressedSize := readU32at suffix headerSize
    let afterHeader := suffix.drop (headerSize + if isCompressed then 4 else 0)
    if headerSize + (if isCompressed then 4 else 0) + chunkSize > suffix.length then
      some []
    else
      if chunkType = 0x01 ∨ chunkType = 0x02 then
        let isYuvChunk := chunkFlags % 2 = 1
        if isYuvChunk ∨ isYuvMode then none
        else
          let st' :=
            if isCompressed then
              let decompressed := LZ4.lz4Decompress (afterHeader.take (chunkSize - 4))
                uncompressedSize
              if chunkType = 0x01 then
                decodeKeyframeChunk st decompressed (uncompressedSize - 8) N
              else
                decodePFrameChunk st decompressed (uncompressedSize - 8) N
                  (chunkFlags / 2 % 2 = 1)
            else
              if chunkType = 0x01 then decodeKeyframeChunk st afterHeader (chunkSize - 8) N
              else decodePFrameChunk st afterHeader (chunkSize - 8) N (chunkFlags / 2 % 2 = 1)
          let frame : Frame := { pixels := st'.prevFrame, timestamp := timestamp,
                                 isKeyframe := chunkType = 0x01,
                                 frameNumber := frameNumber }
          (decodeFramesLoop (afterHeader.drop (chunkSize - if isCompressed then 4 else 0))
            use32 isYuvMode N st' (frameNumber + 1)).map (frame :: ·)
      else if chunkType = 0xFF then some []
      else
        decodeFramesLoop (afterHeader.drop chunkSize) use32 isYuvMode N st frameNumber
termination_by suffix.length
decreasing_by
  all_goals
    subst hs
    simp only [List.length_drop, List.length_cons]
    repeat' split
    all_goals omega

/-- `decodeFrames`: parse the header (errors give `none`), then walk the
chunks from offset 24. -/
def decodeFrames (data : List Nat) : Option (List Frame) :=
  match decodeHeader data with
  | none => none
  | some h =>
    let isYuvMode := 0x10 ≤ h.colorspace ∧ h.colorspace ≤ 0x13
    let buf := initFrameBuffer h.width h.height
    decodeFramesLoop (data.drop 24) (2 ≤ h.version) isYuvMode (h.width * h.height)
      { cache := resetCache, prevPixel := initPrevPixel, prevFrame := buf,
        currFrame := buf } 0

end QovDecoder

/-! ## Container-level roundtrip development -/

section Container

open QovEncoder QovDecoder

theorem u16be_length (v : Nat) : (u16be v).length = 2 := rfl

theorem u32be_length (v : Nat) : (u32be v).length = 4 := rfl

theorem readU16at_cons (a : Nat) (l : List Nat) (i : Nat) :
    readU16at (a :: l) (i + 1) = readU16at l i := by
  simp [readU16at, List.getD_cons_succ]

theorem readU32at_cons (a : Nat) (l : List Nat) (i : Nat) :
    readU32at (a :: l) (i + 1) = readU32at l i := by
  have h2 : i + 1 + 1 = i + 1 + 1 := rfl
  simp only [readU32at]
  rw [show i + 1 + 1 = (i + 1) + 1 from rfl, show i + 1 + 2 = (i + 2) + 1 from rfl,
    show i + 1 + 3 = (i + 3) + 1 from rfl]
  simp [List.getD_cons_succ]

theorem readU32at_u32be (v : Nat) (rest : List Nat) :
    readU32at (u32be v ++ rest) 0 = v % 4294967296 := by
  simp [readU32at, u32be, List.getD_cons_succ, List.getD_cons_zero]
  omega

theorem readU32at_u32be_of_lt (v : Nat) (rest : List Nat) (hv : v < 4294967296) :
    readU32at (u32be v ++ rest) 0 = v := by
  rw [readU32at_u32be]; omega

/-- `lz4Compress` only returns a buffer when it actually shrank the input by
the 5% gate, so the compressed size is below the input size. -/
theorem lz4Compress_shrinks (s c : List Nat) (h : LZ4.lz4Compress s = some c) :
    20 * c.length < 19 * s.length ∨ (s = [] ∧ c = []) := by
  rw [LZ4.lz4Compress] at h
  by_cases hz : s.length = 0
  · rw [if_pos hz] at h
    right
    exact ⟨List.eq_nil_of_length_eq_zero hz, by cases h; rfl⟩
  · rw [if_neg hz] at h
    simp only [] at h
    split at h
    · exact absurd h (by simp)
    · left
      cases h
      omega

theorem colorHash_lt (c : Pixel) : colorHash c < 64 := by
  rw [colorHash]; omega

theorem encodeKeyOp_bytes (s : RgbState) (c : Pixel) :
    ∀ b ∈ encodeKeyOp s c, b < 256 := by
  rw [encodeKeyOp]
  simp only []
  split
  · intro b hb
    simp at hb
    have := colorHash_lt c
    omega
  · split
    · split
      · next h2 h3 =>
        intro b hb
        simp at hb
        omega
      · split
        · split
          · next h2 h3 h4 h5 =>
            intro b hb
            simp at hb
            rcases hb with hb | hb <;> omega
          · intro b hb
            simp at hb
            rcases hb with hb | hb | hb | hb <;> (first | omega | exact hb ▸ byte_lt _)
        · intro b hb
          simp at hb
          rcases hb with hb | hb | hb | hb <;> (first | omega | exact hb ▸ byte_lt _)
    · intro b hb
      simp at hb
      rcases hb with hb | hb | hb | hb | hb <;> (first | omega | exact hb ▸ byte_lt _)

theorem encodeKeyOp_length (s : RgbState) (c : Pixel) :
    (encodeKeyOp s c).length ≤ 5 := by
  rw [encodeKeyOp]
  simp only []
  repeat' split
  all_goals (try simp)
  all_goals omega

theorem encodeRgbKeyLoop_bytes (pix : List Pixel) : ∀ (s : RgbState) (run : Nat),
    run ≤ 61 → ∀ b ∈ (encodeRgbKeyLoop pix s run).1, b < 256 := by
  induction pix with
  | nil =>
    intro s run _ b hb
    rw [encodeRgbKeyLoop] at hb
    simp at hb
  | cons c rest ih =>
    intro s run hrun b hb
    rw [encodeRgbKeyLoop] at hb
    simp only [] at hb
    by_cases hcp : c = s.prevPixel
    · rw [if_pos hcp] at hb
      by_cases hfl : (run + 1 = 62 ∨ rest = [])
      · rw [if_pos hfl] at hb
        simp only [List.mem_cons] at hb
        rcases hb with hb | hb
        · omega
        · exact ih s 0 (by omega) b hb
      · rw [if_neg hfl] at hb
        push_neg at hfl
        exact ih s (run + 1) (by omega) b hb
    · rw [if_neg hcp] at hb
      simp only [List.mem_append] at hb
      rcases hb with (hb | hb) | hb
      · split at hb
        · simp at hb
          omega
        · simp at hb
      · exact encodeKeyOp_bytes s c b hb
      · exact ih _ 0 (by omega) b hb

theorem encodeRgbKeyLoop_length (pix : List Pixel) : ∀ (s : RgbState) (run : Nat),
    (encodeRgbKeyLoop pix s run).1.length ≤ 6 * pix.length := by
  induction pix with
  | nil =>
    intro s run
    rw [encodeRgbKeyLoop]
    simp
  | cons c rest ih =>
    intro s run
    rw [encodeRgbKeyLoop]
    simp only []
    by_cases hcp : c = s.prevPixel
    · rw [if_pos hcp]
      by_cases hfl : (run + 1 = 62 ∨ rest = [])
      · rw [if_pos hfl]
        have := ih s 0
        simp only [List.length_cons, List.length_cons]
        omega
      · rw [if_neg hfl]
        have := ih s (run + 1)
        simp only [List.length_cons]
        omega
    · rw [if_neg hcp]
      have h1 := ih (⟨cacheSet s.cache (colorHash c) c, c⟩ : RgbState) 0
      have h2 := encodeKeyOp_length s c
      have h3 : (if run > 0 then [0xc0 + (run - 1)] else ([] : List Nat)).length ≤ 1 := by
        split <;> simp
      simp only [List.length_append, List.length_cons]
      omega

theorem encodePOp_bytes (c ref : Pixel) : ∀ b ∈ encodePOp c ref, b < 256 := by
  rw [encodePOp]
  split
  · next h =>
    intro b hb
    simp at hb
    omega
  · split
    · split
      · next h1 h2 h3 =>
        intro b hb
        simp at hb
        rcases hb with hb | hb <;> omega
      · intro b hb
        simp at hb
        rcases hb with hb | hb | hb | hb <;> (first | omega | exact hb ▸ byte_lt _)
    · split
      · intro b hb
        simp at hb
        rcases hb with hb | hb | hb | hb <;> (first | omega | exact hb ▸ byte_lt _)
      · intro b hb
        simp at hb
        rcases hb with hb | hb | hb | hb | hb <;> (first | omega | exact hb ▸ byte_lt _)

theorem encodePOp_length (c ref : Pixel) : (encodePOp c ref).length ≤ 5 := by
  rw [encodePOp]
  repeat' split
  all_goals (try simp)
  all_goals omega

theorem flushSkip_bytes (skip : Nat) : ∀ b ∈ flushSkip skip, b < 256 := by
  rw [flushSkip]
  split
  · split
    · next h1 h2 =>
      intro b hb
      simp at hb
      omega
    · intro b hb
      simp [u16be] at hb
      rcases hb with hb | hb | hb <;> omega
  · intro b hb
    simp at hb

theorem flushSkip_length (skip : Nat) : (flushSkip skip).length ≤ 3 := by
  rw [flushSkip]
  split
  · split <;> simp [u16be]
  · simp

theorem encodeRgbPLoop_bytes (pairs : List (Pixel × Pixel)) : ∀ (cache : List Pixel)
    (skip : Nat), skip ≤ 61 → ∀ b ∈ (encodeRgbPLoop pairs cache skip).1, b < 256 := by
  induction pairs with
  | nil =>
    intro cache skip _ b hb
    rw [encodeRgbPLoop] at hb
    simp at hb
  | cons pr rest ih =>
    obtain ⟨c, ref⟩ := pr
    intro cache skip hsk b hb
    rw [encodeRgbPLoop] at hb
    simp only [] at hb
    by_cases hcr : c = ref
    · rw [if_pos hcr] at hb
      by_cases hfl : (skip + 1 = 62 ∨ rest = [])
      · rw [if_pos hfl] at hb
        simp only [List.mem_cons] at hb
        rcases hb with hb | hb
        · omega
        · exact ih cache 0 (by omega) b hb
      · rw [if_neg hfl] at hb
        push_neg at hfl
        exact ih cache (skip + 1) (by omega) b hb
    · rw [if_neg hcr] at hb
      simp only [List.mem_append] at hb
      rcases hb with (hb | hb) | hb
      · exact flushSkip_bytes skip b hb
      · exact encodePOp_bytes c ref b hb
      · exact ih _ 0 (by omega) b hb

theorem encodeRgbPLoop_length (pairs : List (Pixel × Pixel)) : ∀ (cache : List Pixel)
    (skip : Nat), (encodeRgbPLoop pairs cache skip).1.length ≤ 8 * pairs.length := by
  induction pairs with
  | nil =>
    intro cache skip
    rw [encodeRgbPLoop]
    simp
  | cons pr rest ih =>
    obtain ⟨c, ref⟩ := pr
    intro cache skip
    rw [encodeRgbPLoop]
    simp only []
    by_cases hcr : c = ref
    · rw [if_pos hcr]
      by_cases hfl : (skip + 1 = 62 ∨ rest = [])
      · rw [if_pos hfl]
        have := ih cache 0
        simp only [List.length_cons]
        omega
      · rw [if_neg hfl]
        have := ih cache (skip + 1)
        simp only [List.length_cons]
        omega
    · rw [if_neg hcr]
      have h1 := ih (cacheSet cache (colorHash c) c) 0
      have h2 := encodePOp_length c ref
      have h3 := flushSkip_length skip
      simp only [List.length_append, List.length_cons]
      omega

theorem endMarker_bytes : ∀ b ∈ endMarker, b < 256 := by
  intro b hb
  simp [endMarker] at hb
  omega

/-- A non-frame, non-END chunk (SYNC, INDEX, AUDIO, …) is skipped by the
`decodeFrames` chunk loop without touching the decoder state. -/
theorem skip_chunk_step (t fl sz ts : Nat) (body rest : List Nat) (iym : Bool)
    (N f : Nat) (st : DecState) (ht1 : t ≠ 1) (ht2 : t ≠ 2) (ht3 : t ≠ 0xFF)
    (hfl : fl / 16 % 2 ≠ 1) (hb : body.length = sz) (hsz : sz < 4294967296) :
    decodeFramesLoop (t :: fl :: (u32be sz ++ (u32be ts ++ (body ++ rest)))) true iym N
      st f = decodeFramesLoop rest true iym N st f := by
  rw [decodeFramesLoop]
  simp only [List.getD_cons_zero, List.getD_cons_succ, if_true]
  rw [show readU32at (t :: fl :: (u32be sz ++ (u32be ts ++ (body ++ rest)))) 2 =
      readU32at (u32be sz ++ (u32be ts ++ (body ++ rest))) 0 by
        rw [show (2 : Nat) = 1 + 1 from rfl, readU32at_cons, readU32at_cons]]
  rw [readU32at_u32be_of_lt _ _ hsz]
  rw [if_neg hfl]
  rw [if_neg (by
    simp only [List.length_cons, List.length_append, u32be_length]
    omega)]
  rw [if_neg (fun h => h.elim ht1 ht2), if_neg ht3]
  have hdrop : (t :: fl :: (u32be sz ++ (u32be ts ++ (body ++ rest)))).drop (10 + 0) =
      body ++ rest := by
    simp [u32be]
  rw [hdrop, ← hb, List.drop_left]

/-- The SYNC chunk written before every keyframe is skipped by the decoder. -/
theorem sync_step (fn ts : Nat) (rest : List Nat) (iym : Bool) (N f : Nat)
    (st : DecState) :
    decodeFramesLoop (syncBytes fn ts ++ rest) true iym N st f =
      decodeFramesLoop rest true iym N st f := by
  have h := skip_chunk_step 0 0 8 ts ([0x51, 0x4f, 0x56, 0x53] ++ u32be fn) rest iym N f
    st (by omega) (by omega) (by omega) (by omega) (by simp [u32be]) (by omega)
  rw [syncBytes, show ([0x00, 0x00] ++ u32be 8 ++ u32be ts ++ [0x51, 0x4f, 0x56, 0x53] ++
    u32be fn) ++ rest = 0 :: 0 :: (u32be 8 ++ (u32be ts ++
    (([0x51, 0x4f, 0x56, 0x53] ++ u32be fn) ++ rest))) by simp]
  exact h

/-- The END chunk stops the decoder's chunk loop. -/
theorem end_step (rest : List Nat) (iym : Bool) (N f : Nat) (st : DecState) :
    decodeFramesLoop (endChunkBytes ++ rest) true iym N st f = some [] := by
  rw [endChunkBytes, show ([0xFF, 0x00] ++ u32be 0 ++ u32be 0 ++ endMarker) ++ rest =
    255 :: 0 :: (u32be 0 ++ (u32be 0 ++ (endMarker ++ rest))) by simp]
  rw [decodeFramesLoop]
  simp only [List.getD_cons_zero, List.getD_cons_succ, if_true]
  rw [show readU32at (255 :: 0 :: (u32be 0 ++ (u32be 0 ++ (endMarker ++ rest)))) 2 =
      readU32at (u32be 0 ++ (u32be 0 ++ (endMarker ++ rest))) 0 by
        rw [show (2 : Nat) = 1 + 1 from rfl, readU32at_cons, readU32at_cons]]
  rw [readU32at_u32be_of_lt _ _ (by omega)]
  rw [if_neg (show ¬((0 : Nat) / 16 % 2 = 1) by omega)]
  rw [if_neg (by
    simp only [List.length_cons, List.length_append, u32be_length, endMarker,
      List.length_nil]
    omega)]
  rw [if_neg (by omega)]

theorem kf_flatMap_length (l : List (Nat × Nat × Nat)) :
    (l.flatMap fun kf => u32be kf.1 ++ u32be 0 ++ u32be kf.2.1 ++ u32be kf.2.2).length =
      16 * l.length := by
  induction l with
  | nil => simp
  | cons kf t ih =>
    simp only [List.flatMap_cons, List.length_append, u32be_length, ih, List.length_cons]
    omega

theorem readU32at_append (l X : List Nat) (i : Nat) :
    readU32at (l ++ X) (l.length + i) = readU32at X i := by
  induction l with
  | nil => simp
  | cons a tl ih =>
    simp only [List.cons_append, List.length_cons]
    rw [show tl.length + 1 + i = (tl.length + i) + 1 by omega, readU32at_cons, ih]

theorem chunk_read2 (t fl a b : Nat) (X : List Nat) :
    readU32at (t :: fl :: (u32be a ++ (u32be b ++ X))) 2 = a % 4294967296 := by
  rw [show (2 : Nat) = 1 + 1 from rfl, readU32at_cons, readU32at_cons, readU32at_u32be]

theorem chunk_read6 (t fl a b : Nat) (X : List Nat) :
    readU32at (t :: fl :: (u32be a ++ (u32be b ++ X))) 6 = b % 4294967296 := by
  rw [show t :: fl :: (u32be a ++ (u32be b ++ X)) = ([t, fl] ++ u32be a) ++
    (u32be b ++ X) by simp]
  rw [show (6 : Nat) = ([t, fl] ++ u32be a).length + 0 by simp [u32be]]
  rw [readU32at_append, readU32at_u32be]

theorem chunk_read10 (t fl a b : Nat) (X : List Nat) :
    readU32at (t :: fl :: (u32be a ++ (u32be b ++ X))) 10 = readU32at X 0 := by
  rw [show t :: fl :: (u32be a ++ (u32be b ++ X)) = ([t, fl] ++ u32be a ++ u32be b) ++
    X by simp]
  rw [show (10 : Nat) = ([t, fl] ++ u32be a ++ u32be b).length + 0 by simp [u32be]]
  rw [readU32at_append]

theorem chunk_length (t fl a b : Nat) (X : List Nat) :
    (t :: fl :: (u32be a ++ (u32be b ++ X))).length = 10 + X.length := by
  simp [u32be]
  omega

theorem chunk_drop10 (t fl a b : Nat) (X : List Nat) :
    (t :: fl :: (u32be a ++ (u32be b ++ X))).drop 10 = X := by
  simp [u32be]

/-- An uncompressed keyframe/P-frame chunk steps the chunk loop once; the
payload (followed by the rest of the stream, bounded by `remOp`) reaches the
frame decoder. -/
theorem frame_chunk_uncompressed (t ts : Nat) (payload rest : List Nat) (N f : Nat)
    (st : DecState) (ht : t = 1 ∨ t = 2) (hpl : payload.length < 4294967296) :
    decodeFramesLoop (t :: 0 :: (u32be payload.length ++ (u32be ts ++ (payload ++ rest))))
      true false N st f =
      (decodeFramesLoop rest true false N
        (if t = 1 then decodeKeyframeChunk st (payload ++ rest) (payload.length - 8) N
         else decodePFrameChunk st (payload ++ rest) (payload.length - 8) N false)
        (f + 1)).map
        (fun fs =>
          { pixels := (if t = 1 then
                decodeKeyframeChunk st (payload ++ rest) (payload.length - 8) N
              else decodePFrameChunk st (payload ++ rest) (payload.length - 8) N
                false).prevFrame,
            timestamp := ts % 4294967296, isKeyframe := t = 1,
            frameNumber := f } :: fs) := by
  rw [decodeFramesLoop]
  simp only [List.getD_cons_zero, List.getD_cons_succ, if_true]
  rw [chunk_read2, chunk_read6, Nat.mod_eq_of_lt hpl]
  have hnc := eq_false (show ¬((0 : Nat) / 16 % 2 = 1) by omega)
  simp only [hnc, if_false]
  rw [chunk_length]
  simp only [List.length_append, Nat.add_zero, Nat.sub_zero]
  rw [if_neg (by omega), if_pos ht]
  rw [if_neg (by simp)]
  rw [chunk_drop10, List.drop_left]
  simp only [decide_False]

/-- A compressed keyframe/P-frame chunk steps the chunk loop once; the
decompressed payload reaches the frame decoder.  The source's sanity check
charges the 4-byte `uncompressedSize` prefix twice, so at least four bytes
must follow the chunk (here: the END chunk always does). -/
theorem frame_chunk_compressed (t ts : Nat) (payload comp rest : List Nat) (N f : Nat)
    (st : DecState) (ht : t = 1 ∨ t = 2) (hpb : ∀ b ∈ payload, b < 256)
    (hpl : payload.length < 4294967296) (hc : LZ4.lz4Compress payload = some comp)
    (hr : 4 ≤ rest.length) :
    decodeFramesLoop (t :: 16 :: (u32be (comp.length + 4) ++ (u32be ts ++
        (u32be payload.length ++ (comp ++ rest))))) true false N st f =
      (decodeFramesLoop rest true false N
        (if t = 1 then decodeKeyframeChunk st payload (payload.length - 8) N
         else decodePFrameChunk st payload (payload.length - 8) N false)
        (f + 1)).map
        (fun fs =>
          { pixels := (if t = 1 then
                decodeKeyframeChunk st payload (payload.length - 8) N
              else decodePFrameChunk st payload (payload.length - 8) N
                false).prevFrame,
            timestamp := ts % 4294967296, isKeyframe := t = 1,
            frameNumber := f } :: fs) := by
  have hcl : comp.length + 4 < 4294967296 := by
    rcases lz4Compress_shrinks payload comp hc with h | ⟨h1, h2⟩
    · omega
    · subst h2; simp
  rw [decodeFramesLoop]
  simp only [List.getD_cons_zero, List.getD_cons_succ, if_true]
  rw [chunk_read2, chunk_read6, chunk_read10, Nat.mod_eq_of_lt hcl]
  rw [readU32at_u32be_of_lt _ _ hpl]
  rw [chunk_length]
  simp only [List.length_append, u32be_length]
  rw [if_neg (by omega), if_pos ht]
  rw [if_neg (by simp)]
  rw [show (10 : Nat) + 4 = 14 from rfl]
  have hdrop14 : (t :: 16 :: (u32be (comp.length + 4) ++ (u32be ts ++
      (u32be payload.length ++ (comp ++ rest))))).drop 14 = comp ++ rest := by
    simp [u32be]
  rw [hdrop14]
  have htake : (comp ++ rest).take (comp.length + 4 - 4) = comp := by
    simp
  have hdropc : (comp ++ rest).drop (comp.length + 4 - 4) = rest := by
    simp
  rw [htake, hdropc]
  have hdec : LZ4.lz4Decompress comp payload.length = payload := by
    have h := LZ4.lz4_roundtrip payload hpb
    rw [hc] at h
    exact h
  rw [hdec]
  norm_num

/-- A keyframe or P-frame chunk produced by `frameChunk` (with or without
compression) steps the `decodeFrames` chunk loop exactly once: the opcode
payload reaches the frame decoder intact, followed by some trailing bytes
`junk` the decoder never consumes (the loop is bounded by `remOp`). -/
theorem frame_chunk_step (t ts : Nat) (ce : Bool) (payload rest : List Nat)
    (N f : Nat) (st : DecState) (ht : t = 1 ∨ t = 2)
    (hpb : ∀ b ∈ payload, b < 256) (hpl : payload.length < 4294967296)
    (hr : 4 ≤ rest.length) :
    ∃ junk : List Nat,
    decodeFramesLoop (frameChunk t 0x00 ts ce payload ++ rest) true false N st f =
      (decodeFramesLoop rest true false N
        (if t = 1 then decodeKeyframeChunk st (payload ++ junk) (payload.length - 8) N
         else decodePFrameChunk st (payload ++ junk) (payload.length - 8) N false)
        (f + 1)).map
        (fun fs =>
          { pixels := (if t = 1 then
                decodeKeyframeChunk st (payload ++ junk) (payload.length - 8) N
              else decodePFrameChunk st (payload ++ junk) (payload.length - 8) N
                false).prevFrame,
            timestamp := ts % 4294967296, isKeyframe := t = 1,
            frameNumber := f } :: fs) := by
  rw [frameChunk]
  cases ce with
  | false =>
    refine ⟨rest, ?_⟩
    simp only [Bool.false_eq_true, if_false]
    rw [show ([t, byte 0x00] ++ u32be payload.length ++ u32be ts ++ payload) ++ rest =
      t :: 0 :: (u32be payload.length ++ (u32be ts ++ (payload ++ rest))) by
        simp [byte]]
    exact frame_chunk_uncompressed t ts payload rest N f st ht hpl
  | true =>
    simp only [if_true]
    cases hc : LZ4.lz4Compress payload with
    | none =>
      refine ⟨rest, ?_⟩
      simp only []
      rw [show ([t, byte 0x00] ++ u32be payload.length ++ u32be ts ++ payload) ++ rest =
        t :: 0 :: (u32be payload.length ++ (u32be ts ++ (payload ++ rest))) by
          simp [byte]]
      exact frame_chunk_uncompressed t ts payload rest N f st ht hpl
    | some comp =>
      refine ⟨[], ?_⟩
      simp only [List.append_nil]
      rw [show ([t, byte (0x00 + 0x10)] ++ u32be (comp.length + 4) ++ u32be ts ++
        u32be payload.length ++ comp) ++ rest =
        t :: 16 :: (u32be (comp.length + 4) ++ (u32be ts ++
          (u32be payload.length ++ (comp ++ rest)))) by simp [byte]]
      exact frame_chunk_compressed t ts payload comp rest N f st ht hpb hpl hc hr

/-- Decoding a keyframe chunk payload produced by the RGB keyframe encoder
yields exactly the encoded pixels, with cache and `prevPixel` as the encoder
leaves them. -/
theorem decodeKeyframeChunk_enc (st : DecState) (pixels : List Pixel) (junk : List Nat)
    (N : Nat) (hN : pixels.length = N) (hwf : ∀ p ∈ pixels, p.wf)
    (hcl : st.currFrame.length ≤ N) :
    decodeKeyframeChunk st
      (((encodeRgbKeyLoop pixels ⟨resetCache, initPrevPixel⟩ 0).1 ++ endMarker) ++ junk)
      (((encodeRgbKeyLoop pixels ⟨resetCache, initPrevPixel⟩ 0).1 ++ endMarker).length - 8)
      N =
    { cache := (encodeRgbKeyLoop pixels ⟨resetCache, initPrevPixel⟩ 0).2.cache,
      prevPixel := (encodeRgbKeyLoop pixels ⟨resetCache, initPrevPixel⟩ 0).2.prevPixel,
      prevFrame := pixels, currFrame := st.prevFrame } := by
  subst hN
  have hd := decode_encodeKey pixels ⟨resetCache, initPrevPixel⟩ 0 [] (endMarker ++ junk)
    (by omega) (fun _ => rfl) hwf (by simp [initPrevPixel, Pixel.wf])
  simp only [List.length_nil, Nat.zero_add, List.nil_append, List.replicate_zero,
    List.append_nil] at hd
  rw [decodeKeyframeChunk]
  rw [show ((encodeRgbKeyLoop pixels ⟨resetCache, initPrevPixel⟩ 0).1 ++ endMarker).length
    - 8 = (encodeRgbKeyLoop pixels ⟨resetCache, initPrevPixel⟩ 0).1.length by
      simp [endMarker]]
  rw [List.append_assoc, hd]
  simp only []
  rw [List.drop_eq_nil_of_le hcl, List.append_nil]

/-- Decoding a P-frame chunk payload produced by the RGB P-frame encoder
against the previous frame yields exactly the new pixels, with the cache as
the encoder leaves it and `prevPixel` untouched. -/
theorem decodePFrameChunk_enc (st : DecState) (pixels prev : List Pixel)
    (junk : List Nat) (N : Nat) (hN : pixels.length = N) (hpN : prev.length = N)
    (hwf : ∀ p ∈ pixels, p.wf) (hpwf : ∀ p ∈ prev, p.wf) (hpf : st.prevFrame = prev) :
    decodePFrameChunk st
      (((encodeRgbPLoop (pixels.zip prev) st.cache 0).1 ++ endMarker) ++ junk)
      (((encodeRgbPLoop (pixels.zip prev) st.cache 0).1 ++ endMarker).length - 8)
      N false =
    { cache := (encodeRgbPLoop (pixels.zip prev) st.cache 0).2,
      prevPixel := st.prevPixel, prevFrame := pixels, currFrame := st.prevFrame } := by
  have hzl : (pixels.zip prev).length = N := by
    rw [List.length_zip, hN, hpN, Nat.min_self]
  have hsnd : (pixels.zip prev).map Prod.snd = prev :=
    List.map_snd_zip _ _ (by omega)
  have hfst : (pixels.zip prev).map Prod.fst = pixels :=
    List.map_fst_zip _ _ (by omega)
  have hzwf : ∀ pr ∈ pixels.zip prev, (Prod.fst pr).wf ∧ (Prod.snd pr).wf := by
    intro pr hpr
    obtain ⟨a, b⟩ := pr
    have := List.of_mem_zip hpr
    exact ⟨hwf a this.1, hpwf b this.2⟩
  have hd := decode_encodeP (pixels.zip prev) st.cache 0 [] [] (endMarker ++ junk)
    (by omega) rfl (fun _ => rfl) hzwf
  simp only [List.length_nil, Nat.zero_add, List.nil_append, hsnd, hfst, hzl] at hd
  rw [decodePFrameChunk]
  simp only [Bool.false_eq_true, if_false]
  rw [show ((encodeRgbPLoop (pixels.zip prev) st.cache 0).1 ++ endMarker).length - 8 =
    (encodeRgbPLoop (pixels.zip prev) st.cache 0).1.length by simp [endMarker]]
  rw [List.append_assoc, hpf, hd]

/-- A sequence of encode calls after the first keyframe: `true` encodes a
keyframe, `false` a P-frame, each with a pixel list and a timestamp. -/
def encodeSteps (s : EncoderState) : List (Bool × List Pixel × Nat) → EncoderState
  | [] => s
  | (isKey, pix, ts) :: rest =>
    encodeSteps (if isKey then encodeKeyframe s pix ts else encodePFrame s pix ts) rest

/-- The frames `decodeFrames` yields for such a step list. -/
def stepFrames : List (Bool × List Pixel × Nat) → Nat → List Frame
  | [], _ => []
  | (isKey, pix, ts) :: rest, f =>
    { pixels := pix, timestamp := ts % 4294967296, isKeyframe := isKey,
      frameNumber := f } :: stepFrames rest (f + 1)

theorem stepFrames_length (steps : List (Bool × List Pixel × Nat)) (f : Nat) :
    (stepFrames steps f).length = steps.length := by
  induction steps generalizing f with
  | nil => rfl
  | cons x rest ih =>
    obtain ⟨k, p, t⟩ := x
    simp [stepFrames, ih]

theorem encodeKeyframe_buffer (s : EncoderState) (p : List Pixel) (ts : Nat) :
    (encodeKeyframe s p ts).buffer = s.buffer ++ (syncBytes s.frameCount ts ++
      frameChunk 0x01 0x00 ts s.compressionEnabled
        ((encodeRgbKeyLoop p ⟨resetCache, initPrevPixel⟩ 0).1 ++ endMarker)) := by
  rw [encodeKeyframe]
  simp

theorem encodePFrame_buffer (s : EncoderState) (p : List Pixel) (ts : Nat)
    (prev : List Pixel) (hpf : s.prevFrame = some prev) :
    (encodePFrame s p ts).buffer = s.buffer ++
      frameChunk 0x02 0x00 ts s.compressionEnabled
        ((encodeRgbPLoop (p.zip prev) s.cache 0).1 ++ endMarker) := by
  rw [encodePFrame, hpf]

theorem encodeSteps_buffer (steps : List (Bool × List Pixel × Nat)) :
    ∀ s : EncoderState, ∃ d : List Nat, (encodeSteps s steps).buffer = s.buffer ++ d := by
  induction steps with
  | nil =>
    intro s
    exact ⟨[], by simp [encodeSteps]⟩
  | cons x rest ih =>
    obtain ⟨k, p, t⟩ := x
    intro s
    rw [encodeSteps]
    obtain ⟨d, hd⟩ := ih (if k then encodeKeyframe s p t else encodePFrame s p t)
    cases k with
    | true =>
      simp only [if_true] at hd ⊢
      exact ⟨_, by rw [hd, encodeKeyframe_buffer, List.append_assoc]⟩
    | false =>
      simp only [Bool.false_eq_true, if_false] at hd ⊢
      cases hpf : s.prevFrame with
      | none =>
        have heq : encodePFrame s p t = encodeKeyframe s p t := by rw [encodePFrame, hpf]
        rw [heq] at hd ⊢
        exact ⟨_, by rw [hd, encodeKeyframe_buffer, List.append_assoc]⟩
      | some prev =>
        exact ⟨_, by rw [hd, encodePFrame_buffer s p t prev hpf, List.append_assoc]⟩

/-- The INDEX chunk written by `finish` is skipped by the decoder. -/
theorem index_step (s : EncoderState) (rest : List Nat) (iym : Bool) (N f : Nat)
    (st : DecState) (hk : 4 + 16 * s.keyframes.length < 4294967296) :
    decodeFramesLoop (indexChunkBytes s ++ rest) true iym N st f =
      decodeFramesLoop rest true iym N st f := by
  rw [indexChunkBytes]
  split
  · have h := skip_chunk_step 0xF0 0 (4 + s.keyframes.length * 16) 0
      (u32be s.keyframes.length ++
        s.keyframes.flatMap fun kf => u32be kf.1 ++ u32be 0 ++ u32be kf.2.1 ++ u32be kf.2.2)
      rest iym N f st (by omega) (by omega) (by omega) (by omega)
      (by rw [List.length_append, u32be_length, kf_flatMap_length]; omega) (by omega)
    rw [show ([0xF0, 0x00] ++ u32be (4 + s.keyframes.length * 16) ++ u32be 0 ++
      u32be s.keyframes.length ++
      (s.keyframes.flatMap fun kf => u32be kf.1 ++ u32be 0 ++ u32be kf.2.1 ++ u32be kf.2.2))
      ++ rest = 0xF0 :: 0 :: (u32be (4 + s.keyframes.length * 16) ++ (u32be 0 ++
      ((u32be s.keyframes.length ++
      s.keyframes.flatMap fun kf => u32be kf.1 ++ u32be 0 ++ u32be kf.2.1 ++ u32be kf.2.2)
      ++ rest))) by simp]
    exact h
  · simp

/-- Each encode call after the first keyframe appends one frame chunk that
the `decodeFrames` chunk loop decodes back to exactly the encoded pixels,
keeping the decoder's cache, `prevPixel` and reference frame in lockstep with
the encoder's. -/
theorem decode_encodeSteps (steps : List (Bool × List Pixel × Nat)) :
    ∀ (s : EncoderState) (st : DecState) (f : Nat) (last : List Pixel) (N : Nat),
    st.cache = s.cache → st.prevPixel = s.prevPixel → st.prevFrame = last →
    s.prevFrame = some last → last.length = N → st.currFrame.length = N →
    (∀ q ∈ last, q.wf) → N ≤ 1000000 →
    (∀ x ∈ steps, (Prod.fst (Prod.snd x)).length = N ∧
      ∀ q ∈ Prod.fst (Prod.snd x), q.wf) →
    ∃ st' : DecState,
      st'.cache = (encodeSteps s steps).cache ∧
      st'.prevPixel = (encodeSteps s steps).prevPixel ∧
      (encodeSteps s steps).prevFrame = some st'.prevFrame ∧
      st'.prevFrame.length = N ∧ (∀ q ∈ st'.prevFrame, q.wf) ∧
      st'.currFrame.length = N ∧
      ∀ tailB : List Nat, 4 ≤ tailB.length →
        decodeFramesLoop ((encodeSteps s steps).buffer.drop s.buffer.length ++ tailB)
          true false N st f =
        (decodeFramesLoop tailB true false N st' (f + steps.length)).map
          (fun fs => stepFrames steps f ++ fs) := by
  induction steps with
  | nil =>
    intro s st f last N h1 h2 h3 h4 h5 h6 h7 h8 h9
    refine ⟨st, h1, h2, ?_, ?_, ?_, h6, ?_⟩
    · rw [encodeSteps, h3]
      exact h4
    · rw [h3]
      exact h5
    · rw [h3]
      exact h7
    · intro tailB htb
      rw [encodeSteps, List.drop_length, List.nil_append]
      cases hres : decodeFramesLoop tailB true false N st f with
      | none => simp [stepFrames, hres]
      | some l => simp [stepFrames, hres]
  | cons x rest ih =>
    obtain ⟨k, p, t⟩ := x
    intro s st f last N h1 h2 h3 h4 h5 h6 h7 h8 h9
    have hp : p.length = N := (h9 (k, p, t) (by simp)).1
    have hpwf : ∀ q ∈ p, q.wf := (h9 (k, p, t) (by simp)).2
    have h9' : ∀ x ∈ rest, (Prod.fst (Prod.snd x)).length = N ∧
        ∀ q ∈ Prod.fst (Prod.snd x), q.wf := fun x hx => h9 x (by simp [hx])
    rw [encodeSteps]
    cases k with
    | true =>
      simp only [if_true]
      obtain ⟨st', P1, P2, P3, P4, P5, P6, Heq⟩ := ih (encodeKeyframe s p t)
        (⟨(encodeRgbKeyLoop p ⟨resetCache, initPrevPixel⟩ 0).2.cache,
          (encodeRgbKeyLoop p ⟨resetCache, initPrevPixel⟩ 0).2.prevPixel, p,
          st.prevFrame⟩ : DecState)
        (f + 1) p N rfl rfl rfl rfl hp (by dsimp only; rw [h3]; exact h5) hpwf h8 h9'
      refine ⟨st', P1, P2, P3, P4, P5, P6, ?_⟩
      intro tailB htb
      obtain ⟨d, hd⟩ := encodeSteps_buffer rest (encodeKeyframe s p t)
      have hpb : ∀ b ∈ (encodeRgbKeyLoop p ⟨resetCache, initPrevPixel⟩ 0).1 ++ endMarker,
          b < 256 := by
        intro b hb
        rcases List.mem_append.mp hb with hb | hb
        · exact encodeRgbKeyLoop_bytes p ⟨resetCache, initPrevPixel⟩ 0 (by omega) b hb
        · exact endMarker_bytes b hb
      have hpl : ((encodeRgbKeyLoop p ⟨resetCache, initPrevPixel⟩ 0).1 ++
          endMarker).length < 4294967296 := by
        have := encodeRgbKeyLoop_length p ⟨resetCache, initPrevPixel⟩ 0
        simp only [List.length_append]
        rw [show endMarker.length = 8 from rfl]
        omega
      obtain ⟨junk, hstep⟩ := frame_chunk_step 1 t s.compressionEnabled
        ((encodeRgbKeyLoop p ⟨resetCache, initPrevPixel⟩ 0).1 ++ endMarker)
        (d ++ tailB) N f st (Or.inl rfl) hpb hpl
        (by simp only [List.length_append]; omega)
      rw [hd, encodeKeyframe_buffer, List.append_assoc, List.append_assoc,
        List.drop_left]
      rw [show syncBytes s.frameCount t ++ (frameChunk 0x01 0x00 t s.compressionEnabled
        ((encodeRgbKeyLoop p ⟨resetCache, initPrevPixel⟩ 0).1 ++ endMarker) ++ d) ++ tailB
        = syncBytes s.frameCount t ++ (frameChunk 0x01 0x00 t s.compressionEnabled
        ((encodeRgbKeyLoop p ⟨resetCache, initPrevPixel⟩ 0).1 ++ endMarker) ++
        (d ++ tailB)) by simp]
      rw [sync_step, hstep]
      rw [if_pos rfl]
      rw [decodeKeyframeChunk_enc st p junk N hp hpwf (by rw [h6])]
      have hdd : (encodeSteps (encodeKeyframe s p t) rest).buffer.drop
          (encodeKeyframe s p t).buffer.length = d := by
        rw [hd, List.drop_left]
      have Heq' := Heq tailB htb
      rw [hdd] at Heq'
      rw [Heq', Option.map_map]
      simp only [List.length_cons]
      rw [show f + (rest.length + 1) = f + 1 + rest.length by omega]
      cases hres : decodeFramesLoop tailB true false N st' (f + 1 + rest.length) with
      | none => simp [stepFrames]
      | some l => simp [stepFrames]
    | false =>
      simp only [Bool.false_eq_true, if_false]
      obtain ⟨st', P1, P2, P3, P4, P5, P6, Heq⟩ := ih (encodePFrame s p t)
        (⟨(encodeRgbPLoop (p.zip last) s.cache 0).2, st.prevPixel, p,
          st.prevFrame⟩ : DecState)
        (f + 1) p N (by rw [encodePFrame, h4]) (by rw [encodePFrame, h4]; exact h2)
        rfl (by rw [encodePFrame, h4]) hp (by dsimp only; rw [h3]; exact h5) hpwf h8 h9'
      refine ⟨st', P1, P2, P3, P4, P5, P6, ?_⟩
      intro tailB htb
      obtain ⟨d, hd⟩ := encodeSteps_buffer rest (encodePFrame s p t)
      have hpb : ∀ b ∈ (encodeRgbPLoop (p.zip last) s.cache 0).1 ++ endMarker,
          b < 256 := by
        intro b hb
        rcases List.mem_append.mp hb with hb | hb
        · exact encodeRgbPLoop_bytes (p.zip last) s.cache 0 (by omega) b hb
        · exact endMarker_bytes b hb
      have hpl : ((encodeRgbPLoop (p.zip last) s.cache 0).1 ++
          endMarker).length < 4294967296 := by
        have h1 := encodeRgbPLoop_length (p.zip last) s.cache 0
        have h2 : (p.zip last).length ≤ N := by
          rw [List.length_zip]
          omega
        simp only [List.length_append]
        rw [show endMarker.length = 8 from rfl]
        omega
      obtain ⟨junk, hstep⟩ := frame_chunk_step 2 t s.compressionEnabled
        ((encodeRgbPLoop (p.zip last) s.cache 0).1 ++ endMarker)
        (d ++ tailB) N f st (Or.inr rfl) hpb hpl
        (by simp only [List.length_append]; omega)
      rw [hd, encodePFrame_buffer s p t last h4, List.append_assoc, List.drop_left,
        List.append_assoc]
      rw [hstep]
      rw [if_neg (by omega)]
      have henc : decodePFrameChunk st
          (((encodeRgbPLoop (p.zip last) s.cache 0).1 ++ endMarker) ++ junk)
          (((encodeRgbPLoop (p.zip last) s.cache 0).1 ++ endMarker).length - 8) N false =
          { cache := (encodeRgbPLoop (p.zip last) s.cache 0).2,
            prevPixel := st.prevPixel, prevFrame := p, currFrame := st.prevFrame } := by
        have := decodePFrameChunk_enc st p last junk N hp (by omega) hpwf h7 h3
        rw [h1] at this
        exact this
      rw [henc]
      have hdd : (encodeSteps (encodePFrame s p t) rest).buffer.drop
          (encodePFrame s p t).buffer.length = d := by
        rw [hd, List.drop_left]
      have Heq' := Heq tailB htb
      rw [hdd] at Heq'
      rw [Heq', Option.map_map]
      simp only [List.length_cons]
      rw [show f + (rest.length + 1) = f + 1 + rest.length by omega]
      cases hres : decodeFramesLoop tailB true false N st' (f + 1 + rest.length) with
      | none => simp [stepFrames]
      | some l => simp [stepFrames]

/-- `finish`'s `totalFrames` patch only rewrites bytes 14–17 of the header. -/
theorem patch_header (s : EncoderState) (R : List Nat) (v : Nat) :
    patchU32 (headerBytes s ++ R) 14 v =
      [0x71, 0x6f, 0x76, 0x66, 0x02, byte s.flags,
       s.width / 256 % 256, s.width % 256, s.height / 256 % 256, s.height % 256,
       s.frameRateNum / 256 % 256, s.frameRateNum % 256,
       s.frameRateDen / 256 % 256, s.frameRateDen % 256,
       v / 16777216 % 256, v / 65536 % 256, v / 256 % 256, v % 256,
       0, 0, 0, 0, byte s.colorspace, 0] ++ R := by
  simp [patchU32, headerBytes, u16be, u32be]

/-- Reading the patched header back. -/
theorem decodeHeader_of_header (fl w h num den cs v : Nat) (R : List Nat) :
    decodeHeader ([0x71, 0x6f, 0x76, 0x66, 0x02, fl, w / 256 % 256, w % 256,
      h / 256 % 256, h % 256, num / 256 % 256, num % 256, den / 256 % 256, den % 256,
      v / 16777216 % 256, v / 65536 % 256, v / 256 % 256, v % 256, 0, 0, 0, 0, cs, 0]
      ++ R) = some
      { version := 2, flags := fl, width := w % 65536, height := h % 65536,
        frameRateNum := num % 65536, frameRateDen := den % 65536,
        totalFrames := v % 4294967296, audioChannels := 0, audioRate := 0,
        colorspace := cs } := by
  rw [decodeHeader]
  rw [if_pos (by simp)]
  rw [if_pos (by simp)]
  simp [readU16at, readU32at]
  refine ⟨by omega, by omega, by omega, by omega, by omega⟩

theorem header_drop24 (x0 x1 x2 x3 x4 x5 x6 x7 x8 x9 x10 x11 x12 x13 x14 x15 x16 x17
    x18 x19 x20 x21 x22 x23 : Nat) (R : List Nat) :
    ([x0, x1, x2, x3, x4, x5, x6, x7, x8, x9, x10, x11, x12, x13, x14, x15, x16, x17,
      x18, x19, x20, x21, x22, x23] ++ R).drop 24 = R := by
  simp

theorem encodeSteps_keyframes_le (steps : List (Bool × List Pixel × Nat)) :
    ∀ s : EncoderState, (encodeSteps s steps).keyframes.length ≤
      s.keyframes.length + steps.length := by
  induction steps with
  | nil =>
    intro s
    rw [encodeSteps]
    omega
  | cons x rest ih =>
    obtain ⟨k, p, t⟩ := x
    intro s
    rw [encodeSteps]
    have hkey : ∀ (s' : EncoderState) (p' : List Pixel) (t' : Nat),
        (encodeKeyframe s' p' t').keyframes.length ≤ s'.keyframes.length + 1 := by
      intro s' p' t'
      rw [encodeKeyframe]
      dsimp only
      split <;> simp
    cases k with
    | true =>
      simp only [if_true]
      have h1 := ih (encodeKeyframe s p t)
      have h2 := hkey s p t
      simp only [List.length_cons]
      omega
    | false =>
      simp only [Bool.false_eq_true, if_false]
      have h1 := ih (encodePFrame s p t)
      have h2 : (encodePFrame s p t).keyframes.length ≤ s.keyframes.length + 1 := by
        rw [encodePFrame]
        cases hpf : s.prevFrame with
        | none => exact hkey s p t
        | some prev => simp
      simp only [List.length_cons]
      omega

/-- Full-container RGB roundtrip: a stream built from one keyframe followed
by arbitrary keyframe/P-frame steps and finished decodes to exactly the
encoded frames (widths and heights within the u16 header fields). -/
theorem container_roundtrip (W H num den cs : Nat) (ce : Bool) (first : List Pixel)
    (steps : List (Bool × List Pixel × Nat)) (ts0 : Nat)
    (hW : W < 65536) (hH : H < 65536) (hWH : W * H ≤ 1000000) (hcs : cs ≤ 3)
    (hns : steps.length ≤ 1000000)
    (hf1 : first.length = W * H) (hfwf : ∀ q ∈ first, q.wf)
    (hsteps : ∀ x ∈ steps, (Prod.fst (Prod.snd x)).length = W * H ∧
      ∀ q ∈ Prod.fst (Prod.snd x), q.wf) :
    decodeFrames (finish (encodeSteps
      (encodeKeyframe (writeHeader (mkEncoder W H num den 0x04 cs ce)) first ts0)
      steps)).1 =
    some
      ({ pixels := first, timestamp := ts0 % 4294967296, isKeyframe := true,
         frameNumber := 0 } :: stepFrames steps 1) := by
  obtain ⟨d, hd⟩ := encodeSteps_buffer steps
    (encodeKeyframe (writeHeader (mkEncoder W H num den 0x04 cs ce)) first ts0)
  have hbuf1 : (encodeKeyframe (writeHeader (mkEncoder W H num den 0x04 cs ce))
      first ts0).buffer = headerBytes (mkEncoder W H num den 0x04 cs ce) ++
      (syncBytes 0 ts0 ++ frameChunk 0x01 0x00 ts0 ce
        ((encodeRgbKeyLoop first ⟨resetCache, initPrevPixel⟩ 0).1 ++ endMarker)) := by
    rw [encodeKeyframe_buffer]
    rfl
  rw [finish]
  simp only []
  rw [hd, hbuf1]
  rw [show ((headerBytes (mkEncoder W H num den 0x04 cs ce) ++ (syncBytes 0 ts0 ++
    frameChunk 0x01 0x00 ts0 ce ((encodeRgbKeyLoop first ⟨resetCache, initPrevPixel⟩
    0).1 ++ endMarker))) ++ d) ++ indexChunkBytes (encodeSteps (encodeKeyframe
    (writeHeader (mkEncoder W H num den 0x04 cs ce)) first ts0) steps) ++ endChunkBytes
    = headerBytes (mkEncoder W H num den 0x04 cs ce) ++ (syncBytes 0 ts0 ++
    (frameChunk 0x01 0x00 ts0 ce ((encodeRgbKeyLoop first ⟨resetCache, initPrevPixel⟩
    0).1 ++ endMarker) ++ (d ++ (indexChunkBytes (encodeSteps (encodeKeyframe
    (writeHeader (mkEncoder W H num den 0x04 cs ce)) first ts0) steps) ++
    endChunkBytes)))) by simp]
  rw [patch_header]
  rw [show byte (mkEncoder W H num den 0x04 cs ce).flags = 4 from rfl]
  rw [show byte (mkEncoder W H num den 0x04 cs ce).colorspace = byte cs from rfl]
  rw [byte_eq_of_lt (show cs < 256 by omega)]
  rw [show (mkEncoder W H num den 0x04 cs ce).width = W from rfl]
  rw [show (mkEncoder W H num den 0x04 cs ce).height = H from rfl]
  rw [show (mkEncoder W H num den 0x04 cs ce).frameRateNum = num from rfl]
  rw [show (mkEncoder W H num den 0x04 cs ce).frameRateDen = den from rfl]
  rw [decodeFrames, decodeHeader_of_header]
  simp only []
  rw [header_drop24]
  rw [Nat.mod_eq_of_lt hW, Nat.mod_eq_of_lt hH]
  rw [show decide ((2 : Nat) ≤ 2) = true from rfl]
  rw [show decide (0x10 ≤ cs ∧ cs ≤ 0x13) = false from decide_eq_false (by omega)]
  rw [sync_step]
  have hpb : ∀ b ∈ (encodeRgbKeyLoop first ⟨resetCache, initPrevPixel⟩ 0).1 ++ endMarker,
      b < 256 := by
    intro b hb
    rcases List.mem_append.mp hb with hb | hb
    · exact encodeRgbKeyLoop_bytes first ⟨resetCache, initPrevPixel⟩ 0 (by omega) b hb
    · exact endMarker_bytes b hb
  have hpl : ((encodeRgbKeyLoop first ⟨resetCache, initPrevPixel⟩ 0).1 ++
      endMarker).length < 4294967296 := by
    have := encodeRgbKeyLoop_length first ⟨resetCache, initPrevPixel⟩ 0
    simp only [List.length_append]
    rw [show endMarker.length = 8 from rfl]
    omega
  have hend18 : endChunkBytes.length = 18 := rfl
  obtain ⟨junk, hstep⟩ := frame_chunk_step 1 ts0 ce
    ((encodeRgbKeyLoop first ⟨resetCache, initPrevPixel⟩ 0).1 ++ endMarker)
    (d ++ (indexChunkBytes (encodeSteps (encodeKeyframe
      (writeHeader (mkEncoder W H num den 0x04 cs ce)) first ts0) steps) ++
      endChunkBytes)) (W * H) 0
    { cache := resetCache, prevPixel := initPrevPixel,
      prevFrame := initFrameBuffer W H, currFrame := initFrameBuffer W H }
    (Or.inl rfl) hpb hpl
    (by simp only [List.length_append, hend18]; omega)
  rw [hstep, if_pos rfl]
  rw [decodeKeyframeChunk_enc _ first junk (W * H) hf1 hfwf
    (by simp [initFrameBuffer])]
  obtain ⟨st', P1, P2, P3, P4, P5, P6, Heq⟩ := decode_encodeSteps steps
    (encodeKeyframe (writeHeader (mkEncoder W H num den 0x04 cs ce)) first ts0)
    { cache := (encodeRgbKeyLoop first ⟨resetCache, initPrevPixel⟩ 0).2.cache,
      prevPixel := (encodeRgbKeyLoop first ⟨resetCache, initPrevPixel⟩ 0).2.prevPixel,
      prevFrame := first, currFrame := initFrameBuffer W H }
    1 first (W * H) rfl rfl rfl rfl hf1 (by simp [initFrameBuffer]) hfwf hWH hsteps
  have Heq' := Heq (indexChunkBytes (encodeSteps (encodeKeyframe
      (writeHeader (mkEncoder W H num den 0x04 cs ce)) first ts0) steps) ++
      endChunkBytes) (by simp only [List.length_append, hend18]; omega)
  have hdd : (encodeSteps (encodeKeyframe (writeHeader (mkEncoder W H num den 0x04 cs
      ce)) first ts0) steps).buffer.drop (encodeKeyframe (writeHeader (mkEncoder W H num
      den 0x04 cs ce)) first ts0).buffer.length = d := by
    rw [hd, List.drop_left]
  rw [hdd] at Heq'
  rw [Heq']
  have hkfb : 4 + 16 * (encodeSteps (encodeKeyframe (writeHeader (mkEncoder W H num den
      0x04 cs ce)) first ts0) steps).keyframes.length < 4294967296 := by
    have h1 := encodeSteps_keyframes_le steps
      (encodeKeyframe (writeHeader (mkEncoder W H num den 0x04 cs ce)) first ts0)
    have h2 : (encodeKeyframe (writeHeader (mkEncoder W H num den 0x04 cs ce)) first
        ts0).keyframes.length ≤ 1 := by
      rw [encodeKeyframe]
      dsimp only
      split <;> simp [writeHeader, mkEncoder]
    omega
  rw [index_step _ _ _ _ _ _ hkfb]
  rw [show endChunkBytes = endChunkBytes ++ [] by simp]
  rw [end_step]
  simp [stepFrames]

/-- At width 65536 the u16 header field wraps to 0: the decoder believes the
frame has zero pixels and yields an empty pixel buffer for the keyframe. -/
theorem container_width_wrap (H num den cs : Nat) (first : List Pixel) (ts0 : Nat)
    (hH : H < 65536) (hH1 : 0 < H) (hcs : cs ≤ 3) (hfl : first.length ≤ 1000000) :
    decodeFrames (finish (encodeKeyframe (writeHeader
      (mkEncoder 65536 H num den 0x04 cs false)) first ts0)).1 =
    some
      [{ pixels := [], timestamp := ts0 % 4294967296, isKeyframe := true,
         frameNumber := 0 }] := by
  have hbuf1 : (encodeKeyframe (writeHeader (mkEncoder 65536 H num den 0x04 cs false))
      first ts0).buffer = headerBytes (mkEncoder 65536 H num den 0x04 cs false) ++
      (syncBytes 0 ts0 ++ frameChunk 0x01 0x00 ts0 false
        ((encodeRgbKeyLoop first ⟨resetCache, initPrevPixel⟩ 0).1 ++ endMarker)) := by
    rw [encodeKeyframe_buffer]
    rfl
  rw [finish]
  simp only []
  rw [hbuf1]
  rw [show (headerBytes (mkEncoder 65536 H num den 0x04 cs false) ++ (syncBytes 0 ts0 ++
    frameChunk 0x01 0x00 ts0 false ((encodeRgbKeyLoop first ⟨resetCache, initPrevPixel⟩
    0).1 ++ endMarker))) ++ indexChunkBytes (encodeKeyframe (writeHeader (mkEncoder
    65536 H num den 0x04 cs false)) first ts0) ++ endChunkBytes
    = headerBytes (mkEncoder 65536 H num den 0x04 cs false) ++ (syncBytes 0 ts0 ++
    (frameChunk 0x01 0x00 ts0 false ((encodeRgbKeyLoop first ⟨resetCache, initPrevPixel⟩
    0).1 ++ endMarker) ++ (indexChunkBytes (encodeKeyframe (writeHeader (mkEncoder
    65536 H num den 0x04 cs false)) first ts0) ++ endChunkBytes))) by simp]
  rw [patch_header]
  rw [show byte (mkEncoder 65536 H num den 0x04 cs false).flags = 4 from rfl]
  rw [show (mkEncoder 65536 H num den 0x04 cs false).width = 65536 from rfl]
  rw [show (mkEncoder 65536 H num den 0x04 cs false).height = H from rfl]
  rw [show (mkEncoder 65536 H num den 0x04 cs false).frameRateNum = num from rfl]
  rw [show (mkEncoder 65536 H num den 0x04 cs false).frameRateDen = den from rfl]
  rw [decodeFrames, decodeHeader_of_header]
  simp only []
  rw [header_drop24]
  rw [show (65536 : Nat) % 65536 = 0 from rfl, Nat.mod_eq_of_lt hH]
  rw [show decide ((2 : Nat) ≤ 2) = true from rfl]
  rw [show byte (mkEncoder 65536 H num den 0x04 cs false).colorspace = byte cs from rfl]
  rw [byte_eq_of_lt (show cs < 256 by omega)]
  rw [show decide (0x10 ≤ cs ∧ cs ≤ 0x13) = false from decide_eq_false (by omega)]
  rw [show (0 : Nat) * H = 0 from by omega]
  rw [sync_step]
  have hend18 : endChunkBytes.length = 18 := rfl
  have hpb : ∀ b ∈ (encodeRgbKeyLoop first ⟨resetCache, initPrevPixel⟩ 0).1 ++ endMarker,
      b < 256 := by
    intro b hb
    rcases List.mem_append.mp hb with hb | hb
    · exact encodeRgbKeyLoop_bytes first ⟨resetCache, initPrevPixel⟩ 0 (by omega) b hb
    · exact endMarker_bytes b hb
  have hpl : ((encodeRgbKeyLoop first ⟨resetCache, initPrevPixel⟩ 0).1 ++
      endMarker).length < 4294967296 := by
    have := encodeRgbKeyLoop_length first ⟨resetCache, initPrevPixel⟩ 0
    simp only [List.length_append]
    rw [show endMarker.length = 8 from rfl]
    omega
  obtain ⟨junk, hstep⟩ := frame_chunk_step 1 ts0 false
    ((encodeRgbKeyLoop first ⟨resetCache, initPrevPixel⟩ 0).1 ++ endMarker)
    (indexChunkBytes (encodeKeyframe (writeHeader (mkEncoder 65536 H num den 0x04 cs
      false)) first ts0) ++ endChunkBytes) 0 0
    { cache := resetCache, prevPixel := initPrevPixel,
      prevFrame := initFrameBuffer 0 H, currFrame := initFrameBuffer 0 H }
    (Or.inl rfl) hpb hpl (by simp only [List.length_append, hend18]; omega)
  · rw [hstep, if_pos rfl]
    have hkc : decodeKeyframeChunk
        { cache := resetCache, prevPixel := initPrevPixel,
          prevFrame := initFrameBuffer 0 H, currFrame := initFrameBuffer 0 H }
        (((encodeRgbKeyLoop first ⟨resetCache, initPrevPixel⟩ 0).1 ++ endMarker) ++ junk)
        (((encodeRgbKeyLoop first ⟨resetCache, initPrevPixel⟩ 0).1 ++
          endMarker).length - 8) 0 =
        { cache := resetCache, prevPixel := initPrevPixel,
          prevFrame := initFrameBuffer 0 H, currFrame := initFrameBuffer 0 H } := by
      rw [decodeKeyframeChunk]
      rw [show decodeRgbKeyLoop (((encodeRgbKeyLoop first ⟨resetCache, initPrevPixel⟩
        0).1 ++ endMarker) ++ junk) (((encodeRgbKeyLoop first ⟨resetCache,
        initPrevPixel⟩ 0).1 ++ endMarker).length - 8) 0 0 resetCache initPrevPixel [] =
        ([], resetCache, initPrevPixel) from by
          rw [decodeRgbKeyLoop, if_pos (Or.inr (by omega))]]
      simp [initFrameBuffer]
    rw [hkc]
    have hkfb : 4 + 16 * (encodeKeyframe (writeHeader (mkEncoder 65536 H num den 0x04
        cs false)) first ts0).keyframes.length < 4294967296 := by
      have h2 : (encodeKeyframe (writeHeader (mkEncoder 65536 H num den 0x04 cs false))
          first ts0).keyframes.length ≤ 1 := by
        rw [encodeKeyframe]
        dsimp only
        split <;> simp [writeHeader, mkEncoder]
      omega
    rw [index_step _ _ _ _ _ _ hkfb]
    rw [show endChunkBytes = endChunkBytes ++ [] by simp]
    rw [end_step]
    simp [initFrameBuffer]

end Container

/-! ## Streaming decoder (`qov-streaming-decoder.ts`, class `QovStreamingDecoder`).

Only the RGB path is modelled (a YUV chunk or YUV mode gives `none`); the
RGB keyframe / P-frame state machines of `decodeRgbKeyframeFromData` /
`decodeRgbPFrameFromData` are the same two state machines as the
`QovDecoder` ones, so `decodeRgbKeyLoop` / `decodeRgbPLoop` are reused.
The asynchronous byte source is a fully available byte list. -/

namespace QovStreamingDecoder

open QovDecoder (readU16at readU32at Frame decodeRgbKeyLoop decodeRgbPLoop)

/-- `parseHeader`: the streaming decoder's own header parser (magic and
version checks throw, modelled as `none`). -/
def parseHeader (data : List Nat) : Option QovDecoder.Header :=
  if data.getD 0 0 = 0x71 ∧ data.getD 1 0 = 0x6f ∧ data.getD 2 0 = 0x76 ∧
      data.getD 3 0 = 0x66 then
    let version := data.getD 4 0
    if version = 0x01 ∨ version = 0x02 then
      some { version := version, flags := data.getD 5 0,
             width := readU16at data 6, height := readU16at data 8,
             frameRateNum := readU16at data 10, frameRateDen := readU16at data 12,
             totalFrames := readU32at data 14, audioChannels := data.getD 18 0,
             audioRate := data.getD 19 0 * 65536 + data.getD 20 0 * 256 + data.getD 21 0,
             colorspace := data.getD 22 0 }
    else none
  else none

/-- The frame buffers `parseHeader` allocates: zero-filled with every alpha
byte (every fourth byte from index 3) set to 255. -/
def streamInitFrame (width height : Nat) : List Pixel :=
  List.replicate (width * height) ⟨0, 0, 0, 255⟩

/-- One entry of the chunk index built by `buildIndex`. -/
structure ChunkInfo where
  offset : Nat
  ctype : Nat
  flags : Nat
  size : Nat
  timestamp : Nat
  frameIndex : Int
deriving DecidableEq, Repr

/-- The chunk-scanning loop of `buildIndex`: reads each chunk header, assigns
frame indices to keyframe/P-frame/B-frame chunks, records keyframe indices,
stops after the END chunk or at end of file. -/
def buildIndexLoop (data : List Nat) (use32 : Bool) (offset totalFrames : Nat)
    (chunks : List ChunkInfo) (kfs : List Nat) :
    List ChunkInfo × List Nat × Nat :=
  if h : offset < data.length then
    let headerSize := if use32 then 10 else 8
    let chunkType := data.getD offset 0
    let chunkFlags := data.getD (offset + 1) 0
    let chunkSize := if use32 then readU32at data (offset + 2)
      else readU16at data (offset + 2)
    let timestamp := readU32at data (offset + (if use32 then 6 else 4))
    let isFrame := chunkType = 0x01 ∨ chunkType = 0x02 ∨ chunkType = 0x03
    let frameIndex : Int := if isFrame then (totalFrames : Int) else -1
    let kfs' := if chunkType = 0x01 then kfs ++ [totalFrames] else kfs
    let totalFrames' := if isFrame then totalFrames + 1 else totalFrames
    let chunks' := chunks ++
      [⟨offset, chunkType, chunkFlags, chunkSize + headerSize, timestamp, frameIndex⟩]
    if chunkType = 0xFF then (chunks', kfs', totalFrames')
    else buildIndexLoop data use32 (offset + headerSize + chunkSize) totalFrames'
      chunks' kfs'
  else (chunks, kfs, totalFrames)
termination_by data.length - offset
decreasing_by
  repeat' split
  all_goals omega

/-- `buildIndex` starting after the 24-byte header. -/
def buildIndex (data : List Nat) (use32 : Bool) : List ChunkInfo × List Nat × Nat :=
  buildIndexLoop data use32 24 0 [] []

/-- The scan of `findPrecedingKeyframe`: remembers the last keyframe index
`≤ frameIndex`, starting from 0. -/
def findPrecedingKeyframeGo : List Nat → Nat → Nat → Nat
  | [], _, acc => acc
  | kf :: rest, fi, acc =>
    if kf ≤ fi then findPrecedingKeyframeGo rest fi kf else acc

def findPrecedingKeyframe (kfs : List Nat) (frameIndex : Nat) : Nat :=
  findPrecedingKeyframeGo kfs frameIndex 0

/-- The streaming decoder's mutable state: color cache (`index`),
`prevPixel`, the two frame buffers and `lastDecodedFrameIndex`. -/
structure SState where
  cache : List Pixel
  prevPixel : Pixel
  prevFrame : List Pixel
  currFrame : List Pixel
  lastDecodedFrameIndex : Int
deriving DecidableEq, Repr

/-- State right after `parseHeader`. -/
def initSState (width height : Nat) : SState :=
  { cache := resetCache, prevPixel := initPrevPixel,
    prevFrame := streamInitFrame width height,
    currFrame := streamInitFrame width height,
    lastDecodedFrameIndex := -1 }

/-- The chunk data `decodeNextFrame` hands to the frame decoders: the bytes
after the chunk header, LZ4-decompressed when the chunk is compressed. -/
def chunkPayload (data : List Nat) (use32 : Bool) (chunk : ChunkInfo) : List Nat :=
  let headerSize := if use32 then 10 else 8
  let dataSize := chunk.size - headerSize
  let chunkData := (data.drop (chunk.offset + headerSize)).take dataSize
  if chunk.flags / 16 % 2 = 1 then
    LZ4.lz4Decompress (chunkData.drop 4) (readU32at chunkData 0)
  else chunkData

/-- `decodeNextFrame`: find the chunk for the frame, slice and (if flagged)
decompress its data, run the RGB keyframe / P-frame state machine, swap the
frame buffers, and advance `lastDecodedFrameIndex`. -/
def decodeNextFrame (data : List Nat) (use32 : Bool) (N : Nat) (iym : Bool)
    (chunks : List ChunkInfo) (st : SState) (frameIndex : Nat) : Option SState :=
  match chunks.find? (fun c => c.frameIndex = (frameIndex : Int)) with
  | none => none
  | some chunk =>
    let isYuvChunk := chunk.flags % 2 = 1
    let cd := chunkPayload data use32 chunk
    if chunk.ctype = 0x01 then
      if isYuvChunk ∨ iym then none
      else
        let r := decodeRgbKeyLoop cd (cd.length - 8) 0 N resetCache initPrevPixel []
        some { cache := r.2.1, prevPixel := r.2.2,
               prevFrame := r.1 ++ st.currFrame.drop r.1.length,
               currFrame := st.prevFrame,
               lastDecodedFrameIndex := (frameIndex : Int) }
    else if chunk.ctype = 0x02 then
      if isYuvChunk ∨ iym then none
      else
        let base := if chunk.flags / 2 % 2 = 1 then st.currFrame else st.prevFrame
        let r := decodeRgbPLoop cd (cd.length - 8) 0 N st.cache base
        some { cache := r.2, prevPixel := st.prevPixel, prevFrame := r.1,
               currFrame := st.prevFrame, lastDecodedFrameIndex := (frameIndex : Int) }
    else
      some { st with lastDecodedFrameIndex := (frameIndex : Int) }

/-- The `for (let i = keyframeIdx; i <= frameIndex; i++) decodeNextFrame(i)`
replay loop, by remaining count. -/
def decodeRun (data : List Nat) (use32 : Bool) (N : Nat) (iym : Bool)
    (chunks : List ChunkInfo) : Nat → SState → Nat → Option SState
  | 0, st, _ => some st
  | k + 1, st, i =>
    match decodeNextFrame data use32 N iym chunks st i with
    | none => none
    | some st' => decodeRun data use32 N iym chunks k st' (i + 1)

def timestampOf (chunks : List ChunkInfo) (frameIndex : Nat) : Nat :=
  match chunks.find? (fun c => c.frameIndex = (frameIndex : Int)) with
  | some c => c.timestamp
  | none => 0

/-- `decodeFrame`: out-of-range gives `null`; a backward seek or a skip
forward replays from the preceding keyframe after resetting the cache and
`prevPixel`; the next frame decodes sequentially; the same frame is served
from the buffers.  Returns the yielded frame and the decoder state after the
call. -/
def decodeFrame (data : List Nat) (use32 : Bool) (N : Nat) (iym : Bool)
    (chunks : List ChunkInfo) (kfs : List Nat) (totalFrames : Nat) (st : SState)
    (frameIndex : Nat) : Option (Frame × SState) :=
  if totalFrames ≤ frameIndex then none
  else
    let res :=
      if (frameIndex : Int) ≤ st.lastDecodedFrameIndex - 1 ∨
          st.lastDecodedFrameIndex + 1 < (frameIndex : Int) then
        let kf := findPrecedingKeyframe kfs frameIndex
        decodeRun data use32 N iym chunks (frameIndex + 1 - kf)
          { st with cache := resetCache, prevPixel := initPrevPixel,
                    lastDecodedFrameIndex := (kf : Int) - 1 } kf
      else if (frameIndex : Int) = st.lastDecodedFrameIndex + 1 then
        decodeNextFrame data use32 N iym chunks st frameIndex
      else some st
    res.map fun st' =>
      ({ pixels := st'.prevFrame, timestamp := timestampOf chunks frameIndex,
            isKeyframe := kfs.contains frameIndex, frameNumber := frameIndex }, st')

/-! ### The seek path depends on the prior state only through the spare
frame buffer -/

/-- The P-frame decode loop writes in place, so the frame keeps its length. -/
theorem decodeRgbPLoop_length (remOp : Nat) : ∀ (bytes : List Nat) (px N : Nat)
    (cache frame : List Pixel),
    ((QovDecoder.decodeRgbPLoop bytes remOp px N cache frame).1).length =
      frame.length := by
  induction remOp using Nat.strong_induction_on with
  | _ remOp ih =>
    intro bytes px N cache frame
    rw [QovDecoder.decodeRgbPLoop]
    split
    · rfl
    · next hg =>
      push_neg at hg
      simp only []
      repeat' split
      all_goals (
        first
        | (rw [ih (remOp - 1) (by omega)]; try simp only [List.length_set])
        | (rw [ih (remOp - 2) (by omega)]; try simp only [List.length_set])
        | (rw [ih (remOp - 3) (by omega)]; try simp only [List.length_set])
        | (rw [ih (remOp - 4) (by omega)]; try simp only [List.length_set])
        | (rw [ih (remOp - 5) (by omega)]; try simp only [List.length_set]))

/-- Full coverage of a keyframe chunk: its payload decodes exactly the whole
frame.  (Every keyframe the encoder emits has this property.) -/
def KeyCovers (data : List Nat) (use32 : Bool) (N : Nat) (c : ChunkInfo) : Prop :=
  ((QovDecoder.decodeRgbKeyLoop (chunkPayload data use32 c)
    ((chunkPayload data use32 c).length - 8) 0 N resetCache initPrevPixel []).1).length
    = N

/-- Agreement of two decoder states everywhere but the spare (`currFrame`)
buffer, with all frame buffers of the frame size. -/
def AgreeX (N : Nat) (a b : SState) : Prop :=
  a.cache = b.cache ∧ a.prevPixel = b.prevPixel ∧ a.prevFrame = b.prevFrame ∧
  a.lastDecodedFrameIndex = b.lastDecodedFrameIndex ∧
  a.prevFrame.length = N ∧ a.currFrame.length = N ∧ b.currFrame.length = N

def AgreeO (N : Nat) : Option SState → Option SState → Prop
  | none, none => True
  | some a, some b => AgreeX N a b
  | _, _ => False

/-- Hypotheses on the chunk index an encoder-produced stream satisfies:
keyframe chunks cover the frame and P-frame chunks carry no motion flag. -/
def GoodChunks (data : List Nat) (use32 : Bool) (N : Nat)
    (chunks : List ChunkInfo) : Prop :=
  ∀ c ∈ chunks, (c.ctype = 1 → KeyCovers data use32 N c) ∧
    (c.ctype = 2 → ¬(c.flags / 2 % 2 = 1))

/-- Decoding a keyframe chunk erases the incoming state up to the spare
buffer: from any two states of the right buffer sizes the results agree. -/
theorem decodeNextFrame_key_agree (data : List Nat) (use32 : Bool) (N : Nat)
    (iym : Bool) (chunks : List ChunkInfo) (a b : SState) (i : Nat)
    (hga : GoodChunks data use32 N chunks)
    (hka : a.prevFrame.length = N) (hca : a.currFrame.length = N)
    (hkb : b.prevFrame.length = N) (hcb : b.currFrame.length = N)
    (hkey : ∀ c, chunks.find? (fun c => c.frameIndex = (i : Int)) = some c →
      c.ctype = 1) :
    AgreeO N (decodeNextFrame data use32 N iym chunks a i)
      (decodeNextFrame data use32 N iym chunks b i) := by
  rw [decodeNextFrame, decodeNextFrame]
  cases hf : chunks.find? (fun c => c.frameIndex = (i : Int)) with
  | none => trivial
  | some c =>
    have hc1 : c.ctype = 1 := hkey c hf
    have hmem : c ∈ chunks := List.mem_of_find?_eq_some hf
    have hcov : KeyCovers data use32 N c := (hga c hmem).1 hc1
    rw [KeyCovers] at hcov
    simp only []
    rw [if_pos hc1, if_pos hc1]
    by_cases hyuv : (c.flags % 2 = 1 ∨ iym = true)
    · rw [if_pos hyuv, if_pos hyuv]
      trivial
    · rw [if_neg hyuv, if_neg hyuv]
      refine ⟨rfl, rfl, ?_, rfl, ?_, hka, hkb⟩
      · rw [hcov, List.drop_eq_nil_of_le (by omega), List.drop_eq_nil_of_le (by omega)]
      · simp only [List.length_append, hcov, List.length_drop, hca]
        omega

/-- Every frame-chunk decode step preserves agreement-up-to-spare-buffer. -/
theorem decodeNextFrame_agree (data : List Nat) (use32 : Bool) (N : Nat)
    (iym : Bool) (chunks : List ChunkInfo) (a b : SState) (i : Nat)
    (hga : GoodChunks data use32 N chunks) (hab : AgreeX N a b) :
    AgreeO N (decodeNextFrame data use32 N iym chunks a i)
      (decodeNextFrame data use32 N iym chunks b i) := by
  obtain ⟨h1, h2, h3, h4, h5, h6, h7⟩ := hab
  rw [decodeNextFrame, decodeNextFrame]
  cases hf : chunks.find? (fun c => c.frameIndex = (i : Int)) with
  | none => trivial
  | some c =>
    have hmem : c ∈ chunks := List.mem_of_find?_eq_some hf
    simp only []
    by_cases hc1 : c.ctype = 1
    · rw [if_pos hc1, if_pos hc1]
      have hcov : KeyCovers data use32 N c := (hga c hmem).1 hc1
      rw [KeyCovers] at hcov
      by_cases hyuv : (c.flags % 2 = 1 ∨ iym = true)
      · rw [if_pos hyuv, if_pos hyuv]
        trivial
      · rw [if_neg hyuv, if_neg hyuv]
        refine ⟨rfl, rfl, ?_, rfl, ?_, h5, h3 ▸ h5⟩
        · rw [hcov, List.drop_eq_nil_of_le (by omega), List.drop_eq_nil_of_le (by omega)]
        · simp only [List.length_append, hcov, List.length_drop, h6]
          omega
    · rw [if_neg hc1, if_neg hc1]
      by_cases hc2 : c.ctype = 2
      · rw [if_pos hc2, if_pos hc2]
        have hnm : ¬(c.flags / 2 % 2 = 1) := (hga c hmem).2 hc2
        by_cases hyuv : (c.flags % 2 = 1 ∨ iym = true)
        · rw [if_pos hyuv, if_pos hyuv]
          trivial
        · rw [if_neg hyuv, if_neg hyuv]
          rw [if_neg hnm, if_neg hnm, h1, h3]
          refine ⟨rfl, h2, rfl, rfl, ?_, h3 ▸ h5, h3 ▸ h5⟩
          rw [decodeRgbPLoop_length]
          exact h3 ▸ h5
      · rw [if_neg hc2, if_neg hc2]
        exact ⟨h1, h2, h3, rfl, h5, h6, h7⟩

/-- The replay loop preserves agreement-up-to-spare-buffer. -/
theorem decodeRun_agree (data : List Nat) (use32 : Bool) (N : Nat) (iym : Bool)
    (chunks : List ChunkInfo) (hga : GoodChunks data use32 N chunks) :
    ∀ (k : Nat) (a b : SState) (i : Nat), AgreeX N a b →
    AgreeO N (decodeRun data use32 N iym chunks k a i)
      (decodeRun data use32 N iym chunks k b i) := by
  intro k
  induction k with
  | zero =>
    intro a b i hab
    exact hab
  | succ k ihk =>
    intro a b i hab
    rw [decodeRun, decodeRun]
    have hstep := decodeNextFrame_agree data use32 N iym chunks a b i hga hab
    cases hsa : decodeNextFrame data use32 N iym chunks a i with
    | none =>
      cases hsb : decodeNextFrame data use32 N iym chunks b i with
      | none => trivial
      | some b' => rw [hsa, hsb] at hstep; exact absurd hstep (by simp [AgreeO])
    | some a' =>
      cases hsb : decodeNextFrame data use32 N iym chunks b i with
      | none => rw [hsa, hsb] at hstep; exact absurd hstep (by simp [AgreeO])
      | some b' =>
        rw [hsa, hsb] at hstep
        exact ihk a' b' (i + 1) hstep

/-- A replay that begins at a keyframe chunk agrees from any two starting
states of the right buffer sizes. -/
theorem decodeRun_agree_from_key (data : List Nat) (use32 : Bool) (N : Nat)
    (iym : Bool) (chunks : List ChunkInfo) (hga : GoodChunks data use32 N chunks)
    (k : Nat) (a b : SState) (i : Nat)
    (hka : a.prevFrame.length = N) (hca : a.currFrame.length = N)
    (hkb : b.prevFrame.length = N) (hcb : b.currFrame.length = N)
    (hkey : ∀ c, chunks.find? (fun c => c.frameIndex = (i : Int)) = some c →
      c.ctype = 1) :
    AgreeO N (decodeRun data use32 N iym chunks (k + 1) a i)
      (decodeRun data use32 N iym chunks (k + 1) b i) := by
  rw [decodeRun, decodeRun]
  have hstep := decodeNextFrame_key_agree data use32 N iym chunks a b i hga hka hca
    hkb hcb hkey
  cases hsa : decodeNextFrame data use32 N iym chunks a i with
  | none =>
    cases hsb : decodeNextFrame data use32 N iym chunks b i with
    | none => trivial
    | some b' => rw [hsa, hsb] at hstep; exact absurd hstep (by simp [AgreeO])
  | some a' =>
    cases hsb : decodeNextFrame data use32 N iym chunks b i with
    | none => rw [hsa, hsb] at hstep; exact absurd hstep (by simp [AgreeO])
    | some b' =>
      rw [hsa, hsb] at hstep
      exact decodeRun_agree data use32 N iym chunks hga k a' b' (i + 1) hstep

/-- Splitting a replay. -/
theorem decodeRun_split (data : List Nat) (use32 : Bool) (N : Nat) (iym : Bool)
    (chunks : List ChunkInfo) (m : Nat) : ∀ (n : Nat) (st : SState) (i : Nat),
    decodeRun data use32 N iym chunks (m + n) st i =
      (decodeRun data use32 N iym chunks m st i).bind
        (fun s => decodeRun data use32 N iym chunks n s (i + m)) := by
  induction m with
  | zero =>
    intro n st i
    simp [decodeRun]
  | succ m ihm =>
    intro n st i
    rw [show m + 1 + n = (m + n) + 1 by omega, decodeRun, decodeRun]
    cases hs : decodeNextFrame data use32 N iym chunks st i with
    | none => simp
    | some st' =>
      simp only [Option.some_bind]
      rw [ihm n st' (i + 1)]
      rw [show i + 1 + m = i + (m + 1) by omega]

/-- Frame-buffer lengths are preserved by each decode step on a good chunk
index. -/
theorem decodeNextFrame_lengths (data : List Nat) (use32 : Bool) (N : Nat)
    (iym : Bool) (chunks : List ChunkInfo) (st st' : SState) (i : Nat)
    (hga : GoodChunks data use32 N chunks)
    (h1 : st.prevFrame.length = N) (h2 : st.currFrame.length = N)
    (hs : decodeNextFrame data use32 N iym chunks st i = some st') :
    st'.prevFrame.length = N ∧ st'.currFrame.length = N := by
  rw [decodeNextFrame] at hs
  cases hf : chunks.find? (fun c => c.frameIndex = (i : Int)) with
  | none => rw [hf] at hs; cases hs
  | some c =>
    rw [hf] at hs
    have hmem : c ∈ chunks := List.mem_of_find?_eq_some hf
    simp only [] at hs
    by_cases hc1 : c.ctype = 1
    · rw [if_pos hc1] at hs
      split at hs
      · cases hs
      · have hcov : KeyCovers data use32 N c := (hga c hmem).1 hc1
        rw [KeyCovers] at hcov
        cases hs
        constructor
        · simp [hcov]
          omega
        · exact h1
    · rw [if_neg hc1] at hs
      by_cases hc2 : c.ctype = 2
      · rw [if_pos hc2] at hs
        split at hs
        · cases hs
        · cases hs
          constructor
          · rw [decodeRgbPLoop_length]
            split
            · exact h2
            · exact h1
          · exact h1
      · rw [if_neg hc2] at hs
        cases hs
        exact ⟨h1, h2⟩

theorem decodeRun_lengths (data : List Nat) (use32 : Bool) (N : Nat) (iym : Bool)
    (chunks : List ChunkInfo) (hga : GoodChunks data use32 N chunks) :
    ∀ (k : Nat) (st st' : SState) (i : Nat),
    st.prevFrame.length = N → st.currFrame.length = N →
    decodeRun data use32 N iym chunks k st i = some st' →
    st'.prevFrame.length = N ∧ st'.currFrame.length = N := by
  intro k
  induction k with
  | zero =>
    intro st st' i h1 h2 hs
    rw [decodeRun] at hs
    cases hs
    exact ⟨h1, h2⟩
  | succ k ihk =>
    intro st st' i h1 h2 hs
    rw [decodeRun] at hs
    cases hn : decodeNextFrame data use32 N iym chunks st i with
    | none => rw [hn] at hs; cases hs
    | some stm =>
      rw [hn] at hs
      obtain ⟨g1, g2⟩ := decodeNextFrame_lengths data use32 N iym chunks st stm i hga
        h1 h2 hn
      exact ihk stm st' (i + 1) g1 g2 hs

/-- A sequential call (`frameIndex = lastDecodedFrameIndex + 1`) decodes one
frame with `decodeNextFrame`. -/
theorem decodeFrame_sequential (data : List Nat) (use32 : Bool) (N : Nat) (iym : Bool)
    (chunks : List ChunkInfo) (kfs : List Nat) (total : Nat) (st : SState) (j : Nat)
    (hlast : st.lastDecodedFrameIndex = (j : Int) - 1) (hj : j < total) :
    decodeFrame data use32 N iym chunks kfs total st j =
      (decodeNextFrame data use32 N iym chunks st j).map
        (fun st' => ({ pixels := st'.prevFrame, timestamp := timestampOf chunks j,
                          isKeyframe := kfs.contains j, frameNumber := j }, st')) := by
  rw [decodeFrame, if_neg (by omega)]
  simp only []
  rw [if_neg (by rw [hlast]; omega), if_pos (by rw [hlast]; omega)]

/-- Seek equivalence (amended): when `decodeFrame` takes the seek path, the
frame it returns and the decoder's cache, `prevPixel` and reference frame
equal those of the fresh linear decode of frames `0..i`; only the spare
`currFrame` buffer may differ. -/
theorem seek_matches_linear (data : List Nat) (use32 : Bool) (W H : Nat) (iym : Bool)
    (chunks : List ChunkInfo) (kfs : List Nat) (total : Nat) (st : SState) (i : Nat)
    (stLin stMid : SState)
    (hga : GoodChunks data use32 (W * H) chunks)
    (hi : i < total)
    (hl1 : st.prevFrame.length = W * H) (hl2 : st.currFrame.length = W * H)
    (hseek : (i : Int) ≤ st.lastDecodedFrameIndex - 1 ∨
      st.lastDecodedFrameIndex + 1 < (i : Int))
    (hkf : ∀ c, chunks.find? (fun c => c.frameIndex =
      ((findPrecedingKeyframe kfs i : Nat) : Int)) = some c → c.ctype = 1)
    (hkfle : findPrecedingKeyframe kfs i ≤ i)
    (hmid : decodeRun data use32 (W * H) iym chunks (findPrecedingKeyframe kfs i)
      (initSState W H) 0 = some stMid)
    (hlin : decodeRun data use32 (W * H) iym chunks (i + 1) (initSState W H) 0 =
      some stLin) :
    ∃ fr st', decodeFrame data use32 (W * H) iym chunks kfs total st i =
      some (fr, st') ∧ fr.pixels = stLin.prevFrame ∧ st'.cache = stLin.cache ∧
      st'.prevPixel = stLin.prevPixel ∧ st'.prevFrame = stLin.prevFrame := by
  have hinit1 : (initSState W H).prevFrame.length = W * H := by
    simp [initSState, streamInitFrame]
  have hinit2 : (initSState W H).currFrame.length = W * H := by
    simp [initSState, streamInitFrame]
  obtain ⟨hm1, hm2⟩ := decodeRun_lengths data use32 (W * H) iym chunks hga
    (findPrecedingKeyframe kfs i) (initSState W H) stMid 0 hinit1 hinit2 hmid
  rw [show i + 1 = findPrecedingKeyframe kfs i + (i - findPrecedingKeyframe kfs i + 1)
    by omega] at hlin
  rw [decodeRun_split data use32 (W * H) iym chunks _ _ (initSState W H) 0, hmid] at hlin
  simp only [Option.some_bind, Nat.zero_add] at hlin
  have hagree := decodeRun_agree_from_key data use32 (W * H) iym chunks hga
    (i - findPrecedingKeyframe kfs i)
    { st with cache := resetCache, prevPixel := initPrevPixel,
              lastDecodedFrameIndex := ((findPrecedingKeyframe kfs i : Nat) : Int) - 1 }
    stMid (findPrecedingKeyframe kfs i) hl1 hl2 hm1 hm2 hkf
  rw [hlin] at hagree
  cases hseekrun : decodeRun data use32 (W * H) iym chunks
      (i - findPrecedingKeyframe kfs i + 1)
      { st with cache := resetCache, prevPixel := initPrevPixel,
                lastDecodedFrameIndex := ((findPrecedingKeyframe kfs i : Nat) : Int) - 1 }
      (findPrecedingKeyframe kfs i) with
  | none => rw [hseekrun] at hagree; exact absurd hagree (by simp [AgreeO])
  | some stSeek =>
    rw [hseekrun] at hagree
    obtain ⟨g1, g2, g3, _, _, _, _⟩ := hagree
    refine ⟨{ pixels := stSeek.prevFrame, timestamp := timestampOf chunks i,
              isKeyframe := kfs.contains i, frameNumber := i }, stSeek, ?_, g3, g1,
      g2, g3⟩
    rw [decodeFrame, if_neg (by omega)]
    simp only []
    rw [if_pos hseek]
    rw [show i + 1 - findPrecedingKeyframe kfs i =
      i - findPrecedingKeyframe kfs i + 1 by omega]
    rw [hseekrun]
    rfl

/-! ### A concrete stream separating the seek path from the linear decode -/

/-- A 1×1 sRGB version-2 stream with three uncompressed keyframes (red,
green, blue), an index and an END chunk — byte-identical to what the encoder
produces for that sequence. -/
def seekStream : List Nat := [113, 111, 118, 102, 2, 4, 0, 1, 0, 1, 0, 30, 0, 1,
  0, 0, 0, 3, 0, 0, 0, 0, 0, 0,
  0, 0, 0, 0, 0, 8, 0, 0, 0, 0, 81, 79, 86, 83, 0, 0, 0, 0,
  1, 0, 0, 0, 0, 12, 0, 0, 0, 0, 254, 255, 0, 0, 0, 0, 0, 0, 0, 0, 0, 1,
  0, 0, 0, 0, 0, 8, 0, 0, 0, 1, 81, 79, 86, 83, 0, 0, 0, 1,
  1, 0, 0, 0, 0, 12, 0, 0, 0, 1, 254, 0, 255, 0, 0, 0, 0, 0, 0, 0, 0, 1,
  0, 0, 0, 0, 0, 8, 0, 0, 0, 2, 81, 79, 86, 83, 0, 0, 0, 2,
  1, 0, 0, 0, 0, 12, 0, 0, 0, 2, 254, 0, 0, 255, 0, 0, 0, 0, 0, 0, 0, 1,
  240, 0, 0, 0, 0, 52, 0, 0, 0, 0, 0, 0, 0, 3, 0, 0, 0, 0, 0, 0, 0, 0, 0, 0,
  0, 24, 0, 0, 0, 0, 0, 0, 0, 1, 0, 0, 0, 0, 0, 0, 0, 64, 0, 0, 0, 1,
  0, 0, 0, 2, 0, 0, 0, 0, 0, 0, 0, 104, 0, 0, 0, 2,
  255, 0, 0, 0, 0, 0, 0, 0, 0, 0, 0, 0, 0, 0, 0, 0, 0, 1]

def seekIdx : List ChunkInfo × List Nat × Nat := buildIndex seekStream true

/-- `decodeFrame` on that stream. -/
def seekDecode (st : SState) (i : Nat) : Option (QovDecoder.Frame × SState) :=
  decodeFrame seekStream true 1 false seekIdx.1 seekIdx.2.1 seekIdx.2.2 st i

/-- The state of the fresh linear decode of frames 0, 1 and 2 of
`seekStream`. -/
def seekLin : SState :=
  (decodeRun seekStream true 1 false seekIdx.1 3 (initSState 1 1) 0).getD
    (initSState 1 1)

/-- The state after replaying only the keyframe run preceding frame 2. -/
def seekMid : SState :=
  (decodeRun seekStream true 1 false seekIdx.1 2 (initSState 1 1) 0).getD
    (initSState 1 1)

set_option maxRecDepth 40000 in
theorem seek_idx_eval : seekIdx.1 =
    [⟨24, 0, 0, 18, 0, -1⟩, ⟨42, 1, 0, 22, 0, 0⟩, ⟨64, 0, 0, 18, 1, -1⟩,
     ⟨82, 1, 0, 22, 1, 1⟩, ⟨104, 0, 0, 18, 2, -1⟩, ⟨122, 1, 0, 22, 2, 2⟩,
     ⟨144, 240, 0, 62, 0, -1⟩, ⟨206, 255, 0, 10, 0, -1⟩] := by
  simp [seekIdx, buildIndex, buildIndexLoop, seekStream, QovDecoder.readU32at,
    QovDecoder.readU16at]

set_option maxRecDepth 40000 in
theorem seek_kfs_eval : seekIdx.2.1 = [0, 1, 2] := by
  simp [seekIdx, buildIndex, buildIndexLoop, seekStream, QovDecoder.readU32at,
    QovDecoder.readU16at]

set_option maxRecDepth 40000 in
theorem seek_total_eval : seekIdx.2.2 = 3 := by
  simp [seekIdx, buildIndex, buildIndexLoop, seekStream, QovDecoder.readU32at,
    QovDecoder.readU16at]

set_option maxRecDepth 40000 in
/-- The chunk index of `seekStream` satisfies the `GoodChunks` hypotheses:
every keyframe chunk covers the whole frame and no P-frame chunk carries the
motion flag. -/
theorem seek_goodchunks : GoodChunks seekStream true 1 seekIdx.1 := by
  intro c hc
  rw [seek_idx_eval] at hc
  simp only [List.mem_cons, List.not_mem_nil, or_false] at hc
  rcases hc with rfl | rfl | rfl | rfl | rfl | rfl | rfl | rfl <;>
    refine ⟨fun h => ?_, fun h => absurd h (by decide)⟩
  all_goals first
    | exact absurd h (by decide)
    | simp [KeyCovers, chunkPayload, seekStream, QovDecoder.decodeRgbKeyLoop,
        resetCache, initPrevPixel, cacheSet, cacheGet, colorHash, byte, jsAnd255,
        QovDecoder.readU32at]

set_option maxRecDepth 40000 in
theorem seek_run_mid : decodeRun seekStream true 1 false seekIdx.1
    (findPrecedingKeyframe seekIdx.2.1 2) (initSState 1 1) 0 = some seekMid := by
  rw [show findPrecedingKeyframe seekIdx.2.1 2 = 2 by
    rw [seek_kfs_eval]; simp [findPrecedingKeyframe, findPrecedingKeyframeGo]]
  cases ho : decodeRun seekStream true 1 false seekIdx.1 2 (initSState 1 1) 0 with
  | none =>
    rw [seek_idx_eval] at ho
    simp [seekStream, decodeRun, decodeNextFrame, chunkPayload, initSState,
      streamInitFrame, QovDecoder.decodeRgbKeyLoop, QovDecoder.decodeRgbPLoop,
      resetCache, initPrevPixel, zeroPixel, cacheGet, cacheSet, colorHash, jsAnd255,
      byte, QovDecoder.readU32at, QovDecoder.readU16at, List.find?] at ho
  | some a =>
    rw [seekMid, ho, Option.getD_some]

set_option maxRecDepth 40000 in
theorem seek_run_lin : decodeRun seekStream true 1 false seekIdx.1 3
    (initSState 1 1) 0 = some seekLin := by
  cases ho : decodeRun seekStream true 1 false seekIdx.1 3 (initSState 1 1) 0 with
  | none =>
    rw [seek_idx_eval] at ho
    simp [seekStream, decodeRun, decodeNextFrame, chunkPayload, initSState,
      streamInitFrame, QovDecoder.decodeRgbKeyLoop, QovDecoder.decodeRgbPLoop,
      resetCache, initPrevPixel, zeroPixel, cacheGet, cacheSet, colorHash, jsAnd255,
      byte, QovDecoder.readU32at, QovDecoder.readU16at, List.find?] at ho
  | some a =>
    rw [seekLin, ho, Option.getD_some]

end QovStreamingDecoder

/-! ## Remaining support lemmas for the claims -/

section ClaimSupport

open QovEncoder QovDecoder

theorem patchU32_length (l : List Nat) (pos v : Nat) :
    (patchU32 l pos v).length = l.length := by
  simp [patchU32]

/-- `finish` always appends the INDEX chunk bytes and the 18-byte END chunk
(and `patchU32` keeps the length), so a second call grows the output. -/
theorem finish_grows (s : EncoderState) :
    (finish s).1.length = s.buffer.length + (indexChunkBytes s).length + 18 := by
  rw [finish]
  simp only []
  rw [patchU32_length]
  simp [endChunkBytes, u32be, endMarker]
  omega

theorem finish_twice_length (s : EncoderState) :
    (finish (finish s).2).1.length =
      (finish s).1.length + (indexChunkBytes (finish s).2).length + 18 := by
  rw [finish_grows]
  rw [show ((finish s).2).buffer = (finish s).1 from rfl]

/-- The variant of the RGB P-frame pixel loop whose skip flush can only take
the short-SKIP form — the spec's SKIP_LONG branch removed.  (Written from
the spec's words, to be compared with `encodeRgbPLoop`.) -/
def encodeRgbPLoopNoLong : List (Pixel × Pixel) → List Pixel → Nat →
    List Nat × List Pixel
  | [], cache, _skip => ([], cache)
  | (c, ref) :: rest, cache, skip =>
    if c = ref then
      if skip + 1 = 62 ∨ rest = [] then
        let r := encodeRgbPLoopNoLong rest cache 0
        ((0xc0 + skip) :: r.1, r.2)
      else encodeRgbPLoopNoLong rest cache (skip + 1)
    else
      let r := encodeRgbPLoopNoLong rest (cacheSet cache (colorHash c) c) 0
      ((if skip > 0 then [0xc0 + (skip - 1)] else []) ++ encodePOp c ref ++ r.1, r.2)

theorem encodeRgbPLoop_no_long (pairs : List (Pixel × Pixel)) :
    ∀ (cache : List Pixel) (skip : Nat), skip ≤ 61 →
    encodeRgbPLoop pairs cache skip = encodeRgbPLoopNoLong pairs cache skip := by
  induction pairs with
  | nil =>
    intro cache skip _
    rw [encodeRgbPLoop, encodeRgbPLoopNoLong]
  | cons pr rest ih =>
    obtain ⟨c, ref⟩ := pr
    intro cache skip hsk
    rw [encodeRgbPLoop, encodeRgbPLoopNoLong]
    simp only []
    by_cases hcr : c = ref
    · rw [if_pos hcr, if_pos hcr]
      by_cases hfl : (skip + 1 = 62 ∨ rest = [])
      · rw [if_pos hfl, if_pos hfl, ih cache 0 (by omega)]
      · rw [if_neg hfl, if_neg hfl]
        push_neg at hfl
        exact ih cache (skip + 1) (by omega)
    · rw [if_neg hcr, if_neg hcr, ih _ 0 (by omega)]
      have hflush : flushSkip skip =
          (if skip > 0 then [0xc0 + (skip - 1)] else []) := by
        rw [flushSkip]
        split
        · rw [if_pos (by omega)]
        · rfl
      rw [hflush]

theorem getD_set_self {α : Type} (l : List α) (i : Nat) (v d : α) (h : i < l.length) :
    (l.set i v).getD i d = v := by
  induction l generalizing i with
  | nil => simp at h
  | cons a t ih =>
    cases i with
    | zero => rfl
    | succ i =>
      simp only [List.set_cons_succ, List.getD_cons_succ]
      exact ih i (by simpa using h)

theorem getD_set_ne {α : Type} (l : List α) (i j : Nat) (v d : α) (h : i ≠ j) :
    (l.set i v).getD j d = l.getD j d := by
  induction l generalizing i j with
  | nil => simp [List.getD]
  | cons a t ih =>
    cases i with
    | zero =>
      cases j with
      | zero => exact absurd rfl h
      | succ j => rfl
    | succ i =>
      cases j with
      | zero => rfl
      | succ j =>
        simp only [List.set_cons_succ, List.getD_cons_succ]
        exact ih i j (by omega)

/-- The C10 invariant: each cache slot holds the initial all-zero pixel or a
pixel hashing to its slot number. -/
def CacheOK (cache : List Pixel) : Prop :=
  cache.length = 64 ∧ ∀ k, k < 64 →
    cacheGet cache k = zeroPixel ∨ colorHash (cacheGet cache k) = k

theorem resetCache_ok : CacheOK resetCache := by
  refine ⟨by simp [resetCache], fun k hk => Or.inl ?_⟩
  rw [cacheGet, resetCache, List.getD_eq_getElem?_getD, List.getElem?_replicate,
    if_pos hk]
  rfl

theorem cacheSet_ok (cache : List Pixel) (p : Pixel) (hc : CacheOK cache) :
    CacheOK (cacheSet cache (colorHash p) p) := by
  obtain ⟨hlen, hinv⟩ := hc
  constructor
  · simp [cacheSet, hlen]
  · intro k hk
    by_cases hkp : colorHash p = k
    · right
      rw [cacheSet, cacheGet, ← hkp, getD_set_self _ _ _ _ (by rw [hlen]; exact colorHash_lt p)]
    · rw [cacheSet, cacheGet, getD_set_ne _ _ _ _ _ hkp]
      exact hinv k hk

theorem encodeRgbKeyLoop_cacheOK (pix : List Pixel) : ∀ (s : RgbState) (run : Nat),
    CacheOK s.cache → CacheOK (encodeRgbKeyLoop pix s run).2.cache := by
  induction pix with
  | nil =>
    intro s run h
    rw [encodeRgbKeyLoop]
    exact h
  | cons c rest ih =>
    intro s run h
    rw [encodeRgbKeyLoop]
    simp only []
    by_cases hcp : c = s.prevPixel
    · rw [if_pos hcp]
      by_cases hfl : (run + 1 = 62 ∨ rest = [])
      · rw [if_pos hfl]
        exact ih s 0 h
      · rw [if_neg hfl]
        exact ih s (run + 1) h
    · rw [if_neg hcp]
      exact ih ⟨cacheSet s.cache (colorHash c) c, c⟩ 0 (cacheSet_ok s.cache c h)

theorem encodeRgbPLoop_cacheOK (pairs : List (Pixel × Pixel)) :
    ∀ (cache : List Pixel) (skip : Nat),
    CacheOK cache → CacheOK (encodeRgbPLoop pairs cache skip).2 := by
  induction pairs with
  | nil =>
    intro cache skip h
    rw [encodeRgbPLoop]
    exact h
  | cons pr rest ih =>
    obtain ⟨c, ref⟩ := pr
    intro cache skip h
    rw [encodeRgbPLoop]
    simp only []
    by_cases hcr : c = ref
    · rw [if_pos hcr]
      by_cases hfl : (skip + 1 = 62 ∨ rest = [])
      · rw [if_pos hfl]
        exact ih cache 0 h
      · rw [if_neg hfl]
        exact ih cache (skip + 1) h
    · rw [if_neg hcr]
      exact ih (cacheSet cache (colorHash c) c) 0 (cacheSet_ok cache c h)

theorem decodeRgbKeyLoop_cacheOK (remOp : Nat) : ∀ (bytes : List Nat) (px N : Nat)
    (cache : List Pixel) (prev : Pixel) (acc : List Pixel), CacheOK cache →
    CacheOK (decodeRgbKeyLoop bytes remOp px N cache prev acc).2.1 := by
  induction remOp using Nat.strong_induction_on with
  | _ remOp ih =>
    intro bytes px N cache prev acc h
    rw [decodeRgbKeyLoop]
    split
    · exact h
    · next hg =>
      push_neg at hg
      simp only []
      repeat' split
      all_goals (
        first
        | exact ih (remOp - 4) (by omega) _ _ _ _ _ _ (cacheSet_ok _ _ h)
        | exact ih (remOp - 5) (by omega) _ _ _ _ _ _ (cacheSet_ok _ _ h)
        | exact ih (remOp - 1) (by omega) _ _ _ _ _ _ (cacheSet_ok _ _ h)
        | exact ih (remOp - 2) (by omega) _ _ _ _ _ _ (cacheSet_ok _ _ h)
        | exact ih (remOp - 1) (by omega) _ _ _ _ _ _ h)

theorem decodeRgbPLoop_cacheOK (remOp : Nat) : ∀ (bytes : List Nat) (px N : Nat)
    (cache frame : List Pixel), CacheOK cache →
    CacheOK (decodeRgbPLoop bytes remOp px N cache frame).2 := by
  induction remOp using Nat.strong_induction_on with
  | _ remOp ih =>
    intro bytes px N cache frame h
    rw [decodeRgbPLoop]
    split
    · exact h
    · next hg =>
      push_neg at hg
      simp only []
      repeat' split
      all_goals (
        first
        | exact ih (remOp - 3) (by omega) _ _ _ _ _ h
        | exact ih (remOp - 4) (by omega) _ _ _ _ _ (cacheSet_ok _ _ h)
        | exact ih (remOp - 5) (by omega) _ _ _ _ _ (cacheSet_ok _ _ h)
        | exact ih (remOp - 1) (by omega) _ _ _ _ _ (cacheSet_ok _ _ h)
        | exact ih (remOp - 2) (by omega) _ _ _ _ _ (cacheSet_ok _ _ h)
        | exact ih (remOp - 1) (by omega) _ _ _ _ _ h)

/-- A one-pixel encoder right after its first keyframe (red). -/
def c2Enc : EncoderState :=
  encodeKeyframe (writeHeader (mkEncoder 1 1 30 1 0x04 0 false))
    [⟨255, 0, 0, 255⟩] 0

/-- The decoder state right after decoding that keyframe. -/
def c2Dec : DecState :=
  { cache := c2Enc.cache, prevPixel := c2Enc.prevPixel,
    prevFrame := [⟨255, 0, 0, 255⟩], currFrame := initFrameBuffer 1 1 }

end ClaimSupport

/-! ## The claims -/

section Claims

open QovEncoder QovDecoder QovStreamingDecoder

/-- C4: For every byte sequence `s`, if `lz4Compress s` returns a buffer `c`
then `lz4Decompress c |s|` equals `s`, and if it returns `null` the data is
stored verbatim; i.e. `decompress (compress s or s, |s|) = s`. -/
theorem C4_lz4_roundtrip (s : List Nat) (hb : ∀ b ∈ s, b < 256) :
    (match LZ4.lz4Compress s with
      | some c => LZ4.lz4Decompress c s.length
      | none => s) = s :=
  LZ4.lz4_roundtrip s hb

theorem C4_lz4_roundtrip_witness :
    (∀ b ∈ [1, 2, 3], b < 256) ∧
    (match LZ4.lz4Compress [1, 2, 3] with
      | some c => LZ4.lz4Decompress c [1, 2, 3].length
      | none => [1, 2, 3]) = [1, 2, 3] :=
  ⟨by decide, C4_lz4_roundtrip [1, 2, 3] (by decide)⟩

/-- C5: corrected — `lz4Decompress` performs no validation and never raises
`CorruptedStream`: it is total, out-of-range match offsets read as zero and
truncated extensions read as `undefined`, and it always returns a buffer of
exactly the requested output size. -/
theorem C5_lz4Decompress_total (input : List Nat) (outputSize : Nat)
    (hne : input ≠ []) :
    (LZ4.lz4Decompress input outputSize).length = outputSize :=
  LZ4.lz4Decompress_length input outputSize hne

theorem C5_lz4Decompress_total_witness :
    ([0, 5, 0] : List Nat) ≠ [] ∧ (LZ4.lz4Decompress [0, 5, 0] 4).length = 4 :=
  ⟨by decide, C5_lz4Decompress_total [0, 5, 0] 4 (by decide)⟩

/-- C5 counterexample: a match offset pointing before the start of the
output (input `[0x00, 0x05, 0x00]`: empty literals, offset 5 with nothing
written yet) is decoded without any error into zero bytes. -/
theorem C5_counterexample : LZ4.lz4Decompress [0, 5, 0] 4 = [0, 0, 0, 0] := by
  simp [LZ4.lz4Decompress, LZ4.decompressLoop, LZ4.decompIter, LZ4.litPhase,
    LZ4.matchPhase, LZ4.copyLits, LZ4.copyMatch, LZ4.readExt, LZ4.readByte,
    LZ4.outSet, LZ4.outGet, byte]

/-- C6: corrected — `finish` has no guard: a second call never fails and
appends another INDEX chunk and END chunk, so it returns strictly more bytes
than (in particular, different bytes from) the first call. -/
theorem C6_finish_not_idempotent (s : EncoderState) :
    (finish (finish s).2).1.length =
      (finish s).1.length + (indexChunkBytes (finish s).2).length + 18 ∧
    (finish (finish s).2).1 ≠ (finish s).1 := by
  refine ⟨finish_twice_length s, fun he => ?_⟩
  have hl := congrArg List.length he
  rw [finish_twice_length s] at hl
  omega

/-- C6 counterexample: on a fresh encoder the second `finish` returns 36
bytes where the first returned 18 — not the same bytes, and no error. -/
theorem C6_counterexample :
    (finish (finish (mkEncoder 1 1)).2).1 ≠ (finish (mkEncoder 1 1)).1 ∧
    (finish (mkEncoder 1 1)).1.length = 18 ∧
    (finish (finish (mkEncoder 1 1)).2).1.length = 36 := by
  refine ⟨?_, ?_, ?_⟩ <;> decide

/-- C7: corrected — the constructor performs no validation at all: for every
argument tuple (including width 0, height 70000 or `fps_den` 0) it
constructs an encoder that simply stores the fields. -/
theorem C7_constructor_no_validation (width height num den flags cs : Nat)
    (ce : Bool) :
    (mkEncoder width height num den flags cs ce).width = width ∧
    (mkEncoder width height num den flags cs ce).height = height ∧
    (mkEncoder width height num den flags cs ce).frameRateNum = num ∧
    (mkEncoder width height num den flags cs ce).frameRateDen = den ∧
    (mkEncoder width height num den flags cs ce).flags = flags ∧
    (mkEncoder width height num den flags cs ce).colorspace = cs ∧
    (mkEncoder width height num den flags cs ce).compressionEnabled = ce ∧
    (mkEncoder width height num den flags cs ce).frameCount = 0 ∧
    (mkEncoder width height num den flags cs ce).buffer = [] ∧
    (mkEncoder width height num den flags cs ce).keyframes = [] ∧
    (mkEncoder width height num den flags cs ce).prevFrame = none ∧
    (mkEncoder width height num den flags cs ce).cache = resetCache ∧
    (mkEncoder width height num den flags cs ce).prevPixel = initPrevPixel :=
  ⟨rfl, rfl, rfl, rfl, rfl, rfl, rfl, rfl, rfl, rfl, rfl, rfl, rfl⟩

/-- C7 counterexample: width 0, height 70000 and `fps_den` 0 are accepted
without any `InvalidArgument` failure; the encoder is constructed with those
fields stored. -/
theorem C7_counterexample :
    (mkEncoder 0 70000 30 0).width = 0 ∧
    (mkEncoder 0 70000 30 0).height = 70000 ∧
    (mkEncoder 0 70000 30 0).frameRateDen = 0 :=
  ⟨rfl, rfl, rfl⟩

/-- C8: corrected — the RGB P-frame encoder flushes every pending skip at
count 62, so the skip counter never exceeds 61 and the SKIP_LONG branch of
the flush is dead code: the loop equals its SKIP_LONG-free variant. -/
theorem C8_skip_long_dead (pairs : List (Pixel × Pixel)) (cache : List Pixel)
    (skip : Nat) (hsk : skip ≤ 61) :
    encodeRgbPLoop pairs cache skip = encodeRgbPLoopNoLong pairs cache skip :=
  encodeRgbPLoop_no_long pairs cache skip hsk

theorem C8_skip_long_dead_witness :
    (0 ≤ 61) ∧ encodeRgbPLoop [((⟨1, 2, 3, 255⟩ : Pixel), (⟨1, 2, 3, 255⟩ : Pixel))]
      resetCache 0 = encodeRgbPLoopNoLong [(⟨1, 2, 3, 255⟩, ⟨1, 2, 3, 255⟩)]
      resetCache 0 :=
  ⟨by decide, C8_skip_long_dead [(⟨1, 2, 3, 255⟩, ⟨1, 2, 3, 255⟩)] resetCache 0
    (by decide)⟩

/-- C8 counterexample: a 63-pixel unchanged run followed by a changed pixel
is encoded as two short SKIPs (`0xfd`, `0xc0`) and an RGB opcode — no
SKIP_LONG (`0x00` + 16-bit count) appears although the run exceeds 62. -/
theorem C8_counterexample :
    (encodeRgbPLoop (List.replicate 63 ((⟨1, 2, 3, 255⟩ : Pixel),
        (⟨1, 2, 3, 255⟩ : Pixel)) ++
      [((⟨10, 0, 0, 255⟩ : Pixel), (⟨1, 2, 3, 255⟩ : Pixel))]) resetCache 0).1 =
      [253, 192, 254, 10, 0, 0] ∧ 62 < 63 ∧
    (⟨10, 0, 0, 255⟩ : Pixel) ≠ ⟨1, 2, 3, 255⟩ := by
  refine ⟨?_, by omega, by decide⟩
  decide

/-- C9: corrected — only the streaming decoder's `parseHeader` pre-fills the
alpha bytes: its buffers are zero RGB with alpha 255, while
`QovDecoder.decodeHeader` allocates plain zero-filled buffers (alpha 0
included). -/
theorem C9_buffer_init (W H : Nat) :
    (∀ p ∈ QovStreamingDecoder.streamInitFrame W H,
      p.r = 0 ∧ p.g = 0 ∧ p.b = 0 ∧ p.a = 255) ∧
    (∀ p ∈ initFrameBuffer W H, p = zeroPixel) := by
  constructor
  · intro p hp
    rw [QovStreamingDecoder.streamInitFrame] at hp
    rw [List.eq_of_mem_replicate hp]
    exact ⟨rfl, rfl, rfl, rfl⟩
  · intro p hp
    rw [initFrameBuffer] at hp
    exact List.eq_of_mem_replicate hp

/-- C9 counterexample: after `QovDecoder.decodeHeader` the frame buffers are
all-zero — the alpha byte of the first pixel is 0, not 255. -/
theorem C9_counterexample :
    initFrameBuffer 1 1 = [zeroPixel] ∧ zeroPixel.a = 0 ∧ zeroPixel.a ≠ 255 := by
  refine ⟨?_, rfl, by decide⟩
  decide

/-- C1: corrected — the round-trip identity holds for every RGB/RGBA frame
sequence with `W*H ≤ 10^6` provided additionally that width and height are
below 65536 (the header stores them as 16-bit fields): one keyframe followed
by arbitrary keyframe/P-frame steps, finished, decodes to exactly the
encoded frames pixel-for-pixel. -/
theorem C1_roundtrip (W H num den cs : Nat) (ce : Bool) (first : List Pixel)
    (steps : List (Bool × List Pixel × Nat)) (ts0 : Nat)
    (hW : W < 65536) (hH : H < 65536) (hWH : W * H ≤ 1000000) (hcs : cs ≤ 3)
    (hns : steps.length ≤ 1000000)
    (hf1 : first.length = W * H) (hfwf : ∀ q ∈ first, q.wf)
    (hsteps : ∀ x ∈ steps, (Prod.fst (Prod.snd x)).length = W * H ∧
      ∀ q ∈ Prod.fst (Prod.snd x), q.wf) :
    decodeFrames (finish (encodeSteps
      (encodeKeyframe (writeHeader (mkEncoder W H num den 0x04 cs ce)) first ts0)
      steps)).1 =
    some
      ({ pixels := first, timestamp := ts0 % 4294967296, isKeyframe := true,
         frameNumber := 0 } :: stepFrames steps 1) :=
  container_roundtrip W H num den cs ce first steps ts0 hW hH hWH hcs hns hf1
    hfwf hsteps

theorem C1_roundtrip_witness :
    decodeFrames (finish (encodeSteps
      (encodeKeyframe (writeHeader (mkEncoder 1 1 30 1 0x04 0 false))
        [⟨255, 0, 0, 255⟩] 0) [])).1 =
    some [{ pixels := [⟨255, 0, 0, 255⟩], timestamp := 0, isKeyframe := true,
            frameNumber := 0 }] := by
  have h := C1_roundtrip 1 1 30 1 0 false [⟨255, 0, 0, 255⟩] [] 0 (by decide)
    (by decide) (by decide) (by decide) (by decide) (by decide) (by decide)
    (by simp)
  simpa [stepFrames] using h

/-- C1 counterexample: at width 65536 (and height 1, so `W*H = 65536 ≤ 10^6`
and the claim's premises hold) the 16-bit header field wraps to 0 and the
decoder returns an empty pixel buffer instead of the encoded frame. -/
theorem C1_counterexample :
    65536 * 1 ≤ 1000000 ∧
    (List.replicate 65536 zeroPixel).length = 65536 * 1 ∧
    decodeFrames (finish (encodeKeyframe (writeHeader
      (mkEncoder 65536 1 30 1 0x04 0 false)) (List.replicate 65536 zeroPixel)
      0)).1 =
      some [{ pixels := [], timestamp := 0, isKeyframe := true,
              frameNumber := 0 }] ∧
    ([] : List Pixel) ≠ List.replicate 65536 zeroPixel := by
  refine ⟨by decide, by rw [List.length_replicate], ?_, ?_⟩
  · have h := container_width_wrap 1 30 1 0 (List.replicate 65536 zeroPixel) 0
      (by decide) (by decide) (by decide) (by rw [List.length_replicate]; omega)
    rw [Nat.zero_mod] at h
    exact h
  · intro h
    have hlen := congrArg List.length h
    rw [List.length_nil, List.length_replicate] at hlen
    omega

/-- C2: confirmed — after each encoded frame the decoder's 64-slot cache is
identical, slot for slot, to the encoder's (along with `prevPixel` and the
reference frame), and the decoded frames equal the encoded ones. -/
theorem C2_cache_synchrony (steps : List (Bool × List Pixel × Nat)) :
    ∀ (s : EncoderState) (st : DecState) (f : Nat) (last : List Pixel) (N : Nat),
    st.cache = s.cache → st.prevPixel = s.prevPixel → st.prevFrame = last →
    s.prevFrame = some last → last.length = N → st.currFrame.length = N →
    (∀ q ∈ last, q.wf) → N ≤ 1000000 →
    (∀ x ∈ steps, (Prod.fst (Prod.snd x)).length = N ∧
      ∀ q ∈ Prod.fst (Prod.snd x), q.wf) →
    ∃ st' : DecState,
      st'.cache = (encodeSteps s steps).cache ∧
      st'.prevPixel = (encodeSteps s steps).prevPixel ∧
      (encodeSteps s steps).prevFrame = some st'.prevFrame ∧
      st'.prevFrame.length = N ∧ (∀ q ∈ st'.prevFrame, q.wf) ∧
      st'.currFrame.length = N ∧
      ∀ tailB : List Nat, 4 ≤ tailB.length →
        decodeFramesLoop ((encodeSteps s steps).buffer.drop s.buffer.length ++ tailB)
          true false N st f =
        (decodeFramesLoop tailB true false N st' (f + steps.length)).map
          (fun fs => stepFrames steps f ++ fs) :=
  decode_encodeSteps steps

theorem C2_cache_synchrony_witness :
    ∃ st' : DecState,
      st'.cache = (encodeSteps c2Enc []).cache ∧
      st'.prevPixel = (encodeSteps c2Enc []).prevPixel ∧
      (encodeSteps c2Enc []).prevFrame = some st'.prevFrame ∧
      st'.prevFrame.length = 1 ∧ (∀ q ∈ st'.prevFrame, q.wf) ∧
      st'.currFrame.length = 1 ∧
      ∀ tailB : List Nat, 4 ≤ tailB.length →
        decodeFramesLoop ((encodeSteps c2Enc []).buffer.drop c2Enc.buffer.length
            ++ tailB) true false 1 c2Dec 1 =
        (decodeFramesLoop tailB true false 1 st'
          (1 + ([] : List (Bool × List Pixel × Nat)).length)).map
          (fun fs => stepFrames [] 1 ++ fs) :=
  C2_cache_synchrony [] c2Enc c2Dec 1 [⟨255, 0, 0, 255⟩] 1 rfl rfl rfl rfl rfl
    rfl (by decide) (by decide) (by simp)

/-- C3: corrected — when `decodeFrame i` takes the seek path, the frame it
returns and the decoder's cache, `prevPixel` and reference frame equal those
of a fresh linear decode of frames `0..i`; the spare `currFrame` scratch
buffer, however, is not restored (so the full state is not exactly the
linear-decode state). -/
theorem C3_seek_equivalence (data : List Nat) (use32 : Bool) (W H : Nat)
    (iym : Bool) (chunks : List ChunkInfo) (kfs : List Nat) (total : Nat)
    (st : SState) (i : Nat) (stLin stMid : SState)
    (hga : GoodChunks data use32 (W * H) chunks)
    (hi : i < total)
    (hl1 : st.prevFrame.length = W * H) (hl2 : st.currFrame.length = W * H)
    (hseek : (i : Int) ≤ st.lastDecodedFrameIndex - 1 ∨
      st.lastDecodedFrameIndex + 1 < (i : Int))
    (hkf : ∀ c, chunks.find? (fun c => c.frameIndex =
      ((findPrecedingKeyframe kfs i : Nat) : Int)) = some c → c.ctype = 1)
    (hkfle : findPrecedingKeyframe kfs i ≤ i)
    (hmid : decodeRun data use32 (W * H) iym chunks (findPrecedingKeyframe kfs i)
      (initSState W H) 0 = some stMid)
    (hlin : decodeRun data use32 (W * H) iym chunks (i + 1) (initSState W H) 0 =
      some stLin) :
    ∃ fr st', decodeFrame data use32 (W * H) iym chunks kfs total st i =
      some (fr, st') ∧ fr.pixels = stLin.prevFrame ∧ st'.cache = stLin.cache ∧
      st'.prevPixel = stLin.prevPixel ∧ st'.prevFrame = stLin.prevFrame :=
  seek_matches_linear data use32 W H iym chunks kfs total st i stLin stMid hga
    hi hl1 hl2 hseek hkf hkfle hmid hlin

set_option maxRecDepth 40000 in
theorem C3_seek_equivalence_witness :
    ∃ fr st', decodeFrame seekStream true (1 * 1) false seekIdx.1 seekIdx.2.1
        seekIdx.2.2 (initSState 1 1) 2 = some (fr, st') ∧
      fr.pixels = seekLin.prevFrame ∧ st'.cache = seekLin.cache ∧
      st'.prevPixel = seekLin.prevPixel ∧ st'.prevFrame = seekLin.prevFrame := by
  refine C3_seek_equivalence seekStream true 1 1 false seekIdx.1 seekIdx.2.1
    seekIdx.2.2 (initSState 1 1) 2 seekLin seekMid seek_goodchunks ?_ (by decide)
    (by decide) (by decide) ?_ ?_ seek_run_mid seek_run_lin
  · rw [seek_total_eval]
    exact Nat.lt_succ_self 2
  · intro c hc
    rw [show findPrecedingKeyframe seekIdx.2.1 2 = 2 by
      rw [seek_kfs_eval]; simp [findPrecedingKeyframe, findPrecedingKeyframeGo]] at hc
    rw [seek_idx_eval] at hc
    simp only [List.find?] at hc
    simp at hc
    subst hc
    rfl
  · rw [show findPrecedingKeyframe seekIdx.2.1 2 = 2 by
      rw [seek_kfs_eval]; simp [findPrecedingKeyframe, findPrecedingKeyframeGo]]

set_option maxRecDepth 10000 in
/-- C3 counterexample: on a three-keyframe stream, decoding frame 0 and then
seeking to frame 2 leaves a decoder state different from the state of the
linear decode of frames 0, 1, 2 — the seek path leaves a stale frame in the
spare `currFrame` buffer. -/
theorem C3_counterexample :
    ((seekDecode (initSState 1 1) 0).bind (fun r => seekDecode r.2 2)).map
        Prod.snd ≠
      (((seekDecode (initSState 1 1) 0).bind (fun r => seekDecode r.2 1)).bind
        (fun r => seekDecode r.2 2)).map Prod.snd := by
  simp [seekDecode, seekIdx, seekStream, buildIndex, buildIndexLoop, decodeFrame,
    decodeRun, decodeNextFrame, findPrecedingKeyframe, findPrecedingKeyframeGo,
    timestampOf, initSState, streamInitFrame, QovDecoder.decodeRgbKeyLoop,
    QovDecoder.decodeRgbPLoop, resetCache, initPrevPixel, zeroPixel, cacheGet,
    cacheSet, colorHash, jsAnd255, byte, QovDecoder.readU32at,
    QovDecoder.readU16at, chunkPayload]

/-- C10: confirmed — `CacheOK` (each of the 64 slots holds the initial
all-zero pixel or a pixel hashing to its slot number) holds of the reset
cache and is preserved by the RGB keyframe and P-frame encode and decode
loops; consequently a cache-hit slot (what the encoder emits as INDEX)
always holds a pixel whose hash equals the slot number. -/
theorem C10_cache_invariant (cache : List Pixel) (hc : CacheOK cache) :
    CacheOK resetCache ∧
    (∀ (pix : List Pixel) (prev : Pixel) (run : Nat),
      CacheOK (encodeRgbKeyLoop pix ⟨cache, prev⟩ run).2.cache) ∧
    (∀ (pairs : List (Pixel × Pixel)) (skip : Nat),
      CacheOK (encodeRgbPLoop pairs cache skip).2) ∧
    (∀ (bytes : List Nat) (remOp px N : Nat) (prev : Pixel) (acc : List Pixel),
      CacheOK (decodeRgbKeyLoop bytes remOp px N cache prev acc).2.1) ∧
    (∀ (bytes : List Nat) (remOp px N : Nat) (frame : List Pixel),
      CacheOK (decodeRgbPLoop bytes remOp px N cache frame).2) ∧
    (∀ k, k < 64 → cacheGet cache k = zeroPixel ∨
      colorHash (cacheGet cache k) = k) ∧
    (∀ c : Pixel, cacheGet cache (colorHash c) = c →
      colorHash (cacheGet cache (colorHash c)) = colorHash c) :=
  ⟨resetCache_ok,
   fun pix prev run => encodeRgbKeyLoop_cacheOK pix ⟨cache, prev⟩ run hc,
   fun pairs skip => encodeRgbPLoop_cacheOK pairs cache skip hc,
   fun bytes remOp px N prev acc =>
     decodeRgbKeyLoop_cacheOK remOp bytes px N cache prev acc hc,
   fun bytes remOp px N frame =>
     decodeRgbPLoop_cacheOK remOp bytes px N cache frame hc,
   hc.2,
   fun c h => by rw [h]⟩

theorem C10_cache_invariant_witness :
    CacheOK resetCache ∧
    (∀ (pix : List Pixel) (prev : Pixel) (run : Nat),
      CacheOK (encodeRgbKeyLoop pix ⟨resetCache, prev⟩ run).2.cache) ∧
    (∀ (pairs : List (Pixel × Pixel)) (skip : Nat),
      CacheOK (encodeRgbPLoop pairs resetCache skip).2) ∧
    (∀ (bytes : List Nat) (remOp px N : Nat) (prev : Pixel) (acc : List Pixel),
      CacheOK (decodeRgbKeyLoop bytes remOp px N resetCache prev acc).2.1) ∧
    (∀ (bytes : List Nat) (remOp px N : Nat) (frame : List Pixel),
      CacheOK (decodeRgbPLoop bytes remOp px N resetCache frame).2) ∧
    (∀ k, k < 64 → cacheGet resetCache k = zeroPixel ∨
      colorHash (cacheGet resetCache k) = k) ∧
    (∀ c : Pixel, cacheGet resetCache (colorHash c) = c →
      colorHash (cacheGet resetCache (colorHash c)) = colorHash c) :=
  C10_cache_invariant resetCache resetCache_ok

end Claims

end Qov
